import Mathlib

/-!
Polarization engine, switching function and optimizer convergence test of libefp

Shallow embedding of `src/swf.c`, `src/pol.c` and the convergence test and energy
function of `efpmd/opt.c` over an arbitrary linearly ordered field `K`, which stands
for exact real arithmetic (`K = ℝ` for the analytic statements, `K = ℚ` for evaluation
on concrete inputs), followed by the properties proved about it.
-/

namespace Efp

variable {K : Type} [LinearOrderedField K]

/-! ## Switching function (`swf.c`) -/

/-- Function `get_swf`. -/
def get_swf (r cutoff : K) : K :=
  let start := 0.8 * cutoff
  if r < start then 1
  else if r > cutoff then 0
  else
    let a := 1 / (cutoff * cutoff - start * start)
    let a3 := a * a * a
    let a4 := a3 * a
    let a5 := a4 * a
    let b := r * r - start * start
    let b3 := b * b * b
    let b4 := b3 * b
    let b5 := b4 * b
    1 - 10 * a3 * b3 + 15 * a4 * b4 - 6 * a5 * b5

/-- Function `get_dswf`. -/
def get_dswf (r cutoff : K) : K :=
  let start := 0.8 * cutoff
  if r < start ∨ r > cutoff then 0
  else
    let a := 1 / (cutoff * cutoff - start * start)
    let a3 := a * a * a
    let a4 := a3 * a
    let a5 := a4 * a
    let b := r * r - start * start
    let b2 := b * b
    let b3 := b2 * b
    let b4 := b3 * b;
    -60 * a3 * b2 + 120 * a4 * b3 - 60 * a5 * b4

/-- Reduced window coordinate `D = (r ^ 2 - start ^ 2) / (cutoff ^ 2 - start ^ 2)` of the
header comment of `swf.c`, with `start = 0.8 * cutoff`. -/
def swfD (r cutoff : K) : K :=
  (r ^ 2 - (0.8 * cutoff) ^ 2) / (cutoff ^ 2 - (0.8 * cutoff) ^ 2)

/-- Three-piece gluing of a middle function `P` to the constants `A` (left of `s`) and
`B` (right of `c`), in the branch order of `get_swf`. -/
def glue3 (s c A B : K) (P : K → K) (x : K) : K :=
  if x < s then A else if x > c then B else P x

/-- In-window quintic of `get_swf` as a function of `r`. -/
def swfPoly (cutoff r : K) : K :=
  1 - 10 * swfD r cutoff ^ 3 + 15 * swfD r cutoff ^ 4 - 6 * swfD r cutoff ^ 5

/-- First derivative in `r` of `swfPoly`. -/
def swfPoly1 (cutoff r : K) : K :=
  -60 * swfD r cutoff ^ 2 * (1 - swfD r cutoff) ^ 2 / (cutoff ^ 2 - (0.8 * cutoff) ^ 2) * r

/-- Second derivative in `r` of `swfPoly`. -/
def swfPoly2 (cutoff r : K) : K :=
  -60 / (cutoff ^ 2 - (0.8 * cutoff) ^ 2) *
    (swfD r cutoff ^ 2 * (1 - swfD r cutoff) ^ 2 +
      4 * r ^ 2 / (cutoff ^ 2 - (0.8 * cutoff) ^ 2) *
        (swfD r cutoff * (1 - swfD r cutoff) * (1 - 2 * swfD r cutoff)))

/-! ## Data model of `pol.c`

Scalars are elements of a linearly ordered field `K` (exact arithmetic in place of
`double`); arrays with a stored length are lists, and a read past the end of one, which
is undefined in C, yields the zero element; the non-MPI, non-OpenMP build is embedded, so
`rank = 0` throughout. -/

/-- Three-vector `vec_t`. -/
structure vec_t (K : Type) where
  x : K
  y : K
  z : K
deriving DecidableEq

/-- Row-major 3x3 matrix `mat_t`. -/
structure mat_t (K : Type) where
  xx : K
  xy : K
  xz : K
  yx : K
  yy : K
  yz : K
  zx : K
  zy : K
  zz : K
deriving DecidableEq

/-- Result codes `enum efp_result`; the two codes `pol.c` names, and the remaining
codes of the enumeration by number. -/
inductive efp_result where
  | EFP_RESULT_SUCCESS
  | EFP_RESULT_POL_NOT_CONVERGED
  | EFP_RESULT_OTHER (code : Nat)
deriving DecidableEq

/-- Damping modes `enum efp_pol_damp` (none or Thole-type). -/
inductive efp_pol_damp where
  | EFP_POL_DAMP_TT
  | EFP_POL_DAMP_OFF
deriving DecidableEq

open efp_result efp_pol_damp

/-- Atom of a fragment: position and nuclear charge. -/
structure efp_atom (K : Type) where
  x : K
  y : K
  z : K
  znuc : K

/-- Multipole expansion point: position, monopole, dipole and the six stored
quadrupole components. -/
structure multipole_pt (K : Type) where
  x : K
  y : K
  z : K
  monopole : K
  dipole : vec_t K
  quadrupole : Nat → K

/-- Polarizable point of a fragment. -/
structure polarizable_pt (K : Type) where
  x : K
  y : K
  z : K
  tensor : mat_t K
  elec_field : vec_t K
  elec_field_wf : vec_t K
  induced_dipole : vec_t K
  induced_dipole_conj : vec_t K

/-- Fragment: reference position, point arrays, its offset into the system-wide
arrays of polarizable points, and the force and torque accumulators. -/
structure frag (K : Type) where
  x : K
  y : K
  z : K
  atoms : List (efp_atom K)
  multipole_pts : List (multipole_pt K)
  polarizable_pts : List (polarizable_pt K)
  polarizable_offset : Nat
  force : vec_t K
  torque : vec_t K

/-- Point charge of the ab initio subsystem with its gradient accumulator. -/
structure point_charge (K : Type) where
  x : K
  y : K
  z : K
  charge : K
  grad : vec_t K

/-- Switching data of a fragment pair as produced by `efp_make_swf`. -/
structure swf (K : Type) where
  swf : K
  dswf : vec_t K
  dr : vec_t K
  cell : vec_t K

/-- Options read by `pol.c`: the bit mask of enabled terms and the damping mode. -/
structure efp_opts where
  terms : Nat
  pol_damp : efp_pol_damp

/-- Energy components; `pol.c` writes `polarization`. -/
structure efp_energy (K : Type) where
  polarization : K

/-- State `struct efp` as far as `pol.c` reads or writes it. The electron-density
callback maps the point count and the array of positions to a result code and the
array of field vectors it wrote. -/
structure efp (K : Type) where
  frags : List (frag K)
  n_polarizable_pts : Nat
  point_charges : List (point_charge K)
  opts : efp_opts
  do_gradient : Bool
  get_electron_density_field : Option (Nat → List (vec_t K) → efp_result × List (vec_t K))
  energy : efp_energy K
  stress : mat_t K
  mpi_offset : Nat → Nat

/-- Functions and constants that `pol.c` uses from headers outside the sources at hand
(`math.h`, `efp.h`, `private.h`, `elec.h`, `math_util.h`); they are parameters of the
embedding. `efp_add_force` and `efp_sub_force` return the fragment they updated,
`efp_add_stress` the stress tensor it updated, and each `_grad` function the three
vectors it writes, in the order of its output arguments. -/
structure deps (K : Type) where
  sqrt : K → K
  exp : K → K
  EFP_TERM_POL : Nat
  EFP_TERM_AI_POL : Nat
  quad_idx : Nat → Nat → Nat
  quadrupole_sum : (Nat → K) → vec_t K → K
  efp_skip_frag_pair : efp K → Nat → Nat → Bool
  efp_make_swf : efp K → frag K → frag K → swf K
  efp_charge_dipole_energy : K → vec_t K → vec_t K → K
  efp_charge_dipole_grad : K → vec_t K → vec_t K → vec_t K × vec_t K × vec_t K
  efp_dipole_dipole_energy : vec_t K → vec_t K → vec_t K → K
  efp_dipole_dipole_grad : vec_t K → vec_t K → vec_t K → vec_t K × vec_t K × vec_t K
  efp_dipole_quadrupole_energy : vec_t K → (Nat → K) → vec_t K → K
  efp_dipole_quadrupole_grad : vec_t K → (Nat → K) → vec_t K → vec_t K × vec_t K × vec_t K
  efp_add_force : frag K → vec_t K → vec_t K → vec_t K → frag K
  efp_sub_force : frag K → vec_t K → vec_t K → vec_t K → frag K
  efp_add_stress : vec_t K → vec_t K → mat_t K → mat_t K

/-- Tolerance `POL_SCF_TOL`. -/
def POL_SCF_TOL : K := 1.0e-10

/-- Iteration cap `POL_SCF_MAX_ITER`. -/
def POL_SCF_MAX_ITER : Nat := 80

/-- Constant `vec_zero`. -/
def vec_zero : vec_t K := ⟨0, 0, 0⟩

/-- Zero matrix, the content of a stress tensor before any accumulation. -/
def mat_zero : mat_t K := ⟨0, 0, 0, 0, 0, 0, 0, 0, 0⟩

instance : Inhabited (vec_t K) := ⟨vec_zero⟩

instance : Inhabited (efp_atom K) := ⟨⟨0, 0, 0, 0⟩⟩

instance : Inhabited (polarizable_pt K) :=
  ⟨⟨0, 0, 0, mat_zero, vec_zero, vec_zero, vec_zero, vec_zero⟩⟩

instance : Inhabited (frag K) := ⟨⟨0, 0, 0, [], [], [], 0, vec_zero, vec_zero⟩⟩

/-- Modelled from the spec: `vec_dot` of `math_util.h`, the dot product the energy
formula is written with. -/
def vec_dot (a b : vec_t K) : K :=
  a.x * b.x + a.y * b.y + a.z * b.z

/-- Modelled from the spec: `vec_len` of `math_util.h`, the Euclidean length. -/
def vec_len (d : deps K) (a : vec_t K) : K :=
  d.sqrt (vec_dot a a)

/-- Modelled from the spec: `vec_sub` of `math_util.h`, the componentwise difference. -/
def vec_sub (a b : vec_t K) : vec_t K :=
  ⟨a.x - b.x, a.y - b.y, a.z - b.z⟩

/-- Modelled from the spec: `vec_dist` of `math_util.h`, the distance between two
vectors that the convergence measure accumulates. -/
def vec_dist (d : deps K) (a b : vec_t K) : K :=
  vec_len d (vec_sub a b)

/-- Modelled from the spec: `vec_negate` of `math_util.h`. -/
def vec_negate (a : vec_t K) : vec_t K :=
  ⟨-a.x, -a.y, -a.z⟩

/-- Modelled from the spec: `vec_scale` of `math_util.h`. -/
def vec_scale (a : vec_t K) (s : K) : vec_t K :=
  ⟨a.x * s, a.y * s, a.z * s⟩

/-- Modelled from the spec: `vec_atomic_add` of `math_util.h`, an addition into an
accumulator. -/
def vec_atomic_add (a b : vec_t K) : vec_t K :=
  ⟨a.x + b.x, a.y + b.y, a.z + b.z⟩

/-- Modelled from the spec: `vec_atomic_sub` of `math_util.h`, a subtraction from an
accumulator. -/
def vec_atomic_sub (a b : vec_t K) : vec_t K :=
  ⟨a.x - b.x, a.y - b.y, a.z - b.z⟩

/-- Modelled from the spec: `mat_vec` of `math_util.h`, a tensor applied to a vector. -/
def mat_vec (m : mat_t K) (v : vec_t K) : vec_t K :=
  ⟨m.xx * v.x + m.xy * v.y + m.xz * v.z,
   m.yx * v.x + m.yy * v.y + m.yz * v.z,
   m.zx * v.x + m.zy * v.y + m.zz * v.z⟩

/-- Modelled from the spec: `mat_trans_vec` of `math_util.h`, the transpose of a tensor
applied to a vector. -/
def mat_trans_vec (m : mat_t K) (v : vec_t K) : vec_t K :=
  ⟨m.xx * v.x + m.yx * v.y + m.zx * v.z,
   m.xy * v.x + m.yy * v.y + m.zy * v.z,
   m.xz * v.x + m.yz * v.y + m.zz * v.z⟩

/-- Position of a polarizable point as a vector (`CVEC(pt->x)`). -/
def polarizable_pt.pos (pt : polarizable_pt K) : vec_t K :=
  ⟨pt.x, pt.y, pt.z⟩

/-- Fragment indices `lo, lo + 1, ..., hi - 1` of a loop `for (i = lo; i < hi; i++)`. -/
def index_range (lo hi : Nat) : List Nat :=
  List.range' lo (hi - lo)

/-- Function `get_pol_damp_tt`. -/
def get_pol_damp_tt (d : deps K) (r : K) : K :=
  let a : K := 0.6
  let r2 := r * r
  1 - d.exp (-a * r2) * (1 + a * r2)

/-- Function `get_pol_damp_tt_grad`. -/
def get_pol_damp_tt_grad (d : deps K) (r : K) : K :=
  let a : K := 0.6
  let r2 := r * r;
  -2 * d.exp (-a * r2) * (a * a * r2)

/-- Function `get_multipole_field`. -/
def get_multipole_field (d : deps K) (ef : efp K) (pt : polarizable_pt K)
    (mult_pt : multipole_pt K) (swf : swf K) : vec_t K :=
  let field : vec_t K := vec_zero
  let dr : vec_t K :=
    ⟨pt.x - mult_pt.x - swf.cell.x, pt.y - mult_pt.y - swf.cell.y, pt.z - mult_pt.z - swf.cell.z⟩
  let r := vec_len d dr
  let r3 := r * r * r
  let r5 := r3 * r * r
  let r7 := r5 * r * r
  let p1 : K := if ef.opts.pol_damp = EFP_POL_DAMP_TT then get_pol_damp_tt d r else 1
  -- charge
  let field : vec_t K :=
    ⟨field.x + swf.swf * mult_pt.monopole * dr.x / r3 * p1,
     field.y + swf.swf * mult_pt.monopole * dr.y / r3 * p1,
     field.z + swf.swf * mult_pt.monopole * dr.z / r3 * p1⟩
  -- dipole
  let t1 := vec_dot mult_pt.dipole dr
  let field : vec_t K :=
    ⟨field.x + swf.swf * (3 / r5 * t1 * dr.x - mult_pt.dipole.x / r3) * p1,
     field.y + swf.swf * (3 / r5 * t1 * dr.y - mult_pt.dipole.y / r3) * p1,
     field.z + swf.swf * (3 / r5 * t1 * dr.z - mult_pt.dipole.z / r3) * p1⟩
  -- quadrupole
  let t1 := d.quadrupole_sum mult_pt.quadrupole dr
  let t2 := mult_pt.quadrupole (d.quad_idx 0 0) * dr.x +
            mult_pt.quadrupole (d.quad_idx 1 0) * dr.y +
            mult_pt.quadrupole (d.quad_idx 2 0) * dr.z
  let fx := field.x + swf.swf * (-2 / r5 * t2 + 5 / r7 * t1 * dr.x) * p1
  let t2 := mult_pt.quadrupole (d.quad_idx 0 1) * dr.x +
            mult_pt.quadrupole (d.quad_idx 1 1) * dr.y +
            mult_pt.quadrupole (d.quad_idx 2 1) * dr.z
  let fy := field.y + swf.swf * (-2 / r5 * t2 + 5 / r7 * t1 * dr.y) * p1
  let t2 := mult_pt.quadrupole (d.quad_idx 0 2) * dr.x +
            mult_pt.quadrupole (d.quad_idx 1 2) * dr.y +
            mult_pt.quadrupole (d.quad_idx 2 2) * dr.z
  let fz := field.z + swf.swf * (-2 / r5 * t2 + 5 / r7 * t1 * dr.z) * p1
  ⟨fx, fy, fz⟩

/-- Function `get_elec_field`: static field at point `pt_idx` of fragment `frag_idx`. -/
def get_elec_field (d : deps K) (ef : efp K) (frag_idx pt_idx : Nat) : vec_t K :=
  let frag := ef.frags.getD frag_idx default
  let pt := frag.polarizable_pts.getD pt_idx default
  let elec_field : vec_t K := (List.range ef.frags.length).foldl (fun elec_field i =>
    if i = frag_idx ∨ d.efp_skip_frag_pair ef i frag_idx = true then elec_field
    else
      let fr_i := ef.frags.getD i default
      let swf := d.efp_make_swf ef fr_i frag
      -- field due to nuclei
      let elec_field : vec_t K := fr_i.atoms.foldl (fun elec_field at_j =>
        let dr : vec_t K :=
          ⟨pt.x - at_j.x - swf.cell.x, pt.y - at_j.y - swf.cell.y, pt.z - at_j.z - swf.cell.z⟩
        let r := vec_len d dr
        let r3 := r * r * r
        let p1 : K := if ef.opts.pol_damp = EFP_POL_DAMP_TT then get_pol_damp_tt d r else 1
        ⟨elec_field.x + swf.swf * at_j.znuc * dr.x / r3 * p1,
         elec_field.y + swf.swf * at_j.znuc * dr.y / r3 * p1,
         elec_field.z + swf.swf * at_j.znuc * dr.z / r3 * p1⟩) elec_field
      -- field due to multipoles
      fr_i.multipole_pts.foldl (fun elec_field mult_pt =>
        let mult_field := get_multipole_field d ef pt mult_pt swf
        ⟨elec_field.x + mult_field.x, elec_field.y + mult_field.y,
         elec_field.z + mult_field.z⟩) elec_field) vec_zero
  if ef.opts.terms &&& d.EFP_TERM_AI_POL ≠ 0 then
    -- field due to nuclei from ab initio subsystem
    ef.point_charges.foldl (fun elec_field at_i =>
      let dr := vec_sub pt.pos ⟨at_i.x, at_i.y, at_i.z⟩
      let r := vec_len d dr
      let r3 := r * r * r
      ⟨elec_field.x + at_i.charge * dr.x / r3,
       elec_field.y + at_i.charge * dr.y / r3,
       elec_field.z + at_i.charge * dr.z / r3⟩) elec_field
  else elec_field

/-- Second loop nest of `add_electron_density_field`: point `j` of each fragment takes
`field[idx]`, with `idx` running over all points of all fragments in order. -/
def store_elec_field_wf (field : List (vec_t K)) : List (frag K) → Nat → List (frag K)
  | [], _ => []
  | fr :: rest, idx =>
    { fr with polarizable_pts := fr.polarizable_pts.mapIdx (fun j pt =>
        { pt with elec_field_wf := field.getD (idx + j) default }) } ::
      store_elec_field_wf field rest (idx + fr.polarizable_pts.length)

/-- Function `add_electron_density_field`. -/
def add_electron_density_field (ef : efp K) : efp_result × efp K :=
  match ef.get_electron_density_field with
  | none =>
    -- assume no electrons
    (EFP_RESULT_SUCCESS,
      { ef with frags := ef.frags.map (fun fr =>
          { fr with polarizable_pts := fr.polarizable_pts.map (fun pt =>
              { pt with elec_field_wf := vec_zero }) }) })
  | some callback =>
    let xyz : List (vec_t K) := ef.frags.flatMap (fun fr => fr.polarizable_pts.map (fun pt => pt.pos))
    let out := callback ef.n_polarizable_pts xyz
    if out.1 ≠ EFP_RESULT_SUCCESS then (out.1, ef)
    else (EFP_RESULT_SUCCESS, { ef with frags := store_elec_field_wf out.2 ef.frags 0 })

/-- Function `compute_elec_field`. The local array `elec_field` is a map from index to
vector; an entry the first loop nest did not write, indeterminate in C, is `vec_zero`.
Only written entries are read when the partition `mpi_offset` covers all fragments. -/
def compute_elec_field (d : deps K) (ef : efp K) : efp_result × efp K :=
  let rank := 0
  let elec_field : Nat → vec_t K :=
    (index_range (ef.mpi_offset rank) (ef.mpi_offset (rank + 1))).foldl (fun elec_field i =>
      let frag := ef.frags.getD i default
      (List.range frag.polarizable_pts.length).foldl (fun elec_field j =>
        Function.update elec_field (frag.polarizable_offset + j) (get_elec_field d ef i j))
        elec_field) (fun _ => vec_zero)
  let ef1 : efp K :=
    { ef with frags := ef.frags.map (fun frag =>
        { frag with polarizable_pts := frag.polarizable_pts.mapIdx (fun j pt =>
            { pt with elec_field := elec_field (frag.polarizable_offset + j),
                      elec_field_wf := vec_zero }) }) }
  if ef1.opts.terms &&& d.EFP_TERM_AI_POL ≠ 0 then
    let out := add_electron_density_field ef1
    if out.1 ≠ EFP_RESULT_SUCCESS then out
    else (EFP_RESULT_SUCCESS, out.2)
  else (EFP_RESULT_SUCCESS, ef1)

/-- Function `get_induced_dipole_field`: the pair `(field, field_conj)` at point `pt` of
fragment `frag_idx`. -/
def get_induced_dipole_field (d : deps K) (ef : efp K) (frag_idx : Nat)
    (pt : polarizable_pt K) : vec_t K × vec_t K :=
  let fr_i := ef.frags.getD frag_idx default
  (List.range ef.frags.length).foldl (fun acc j =>
    if j = frag_idx ∨ d.efp_skip_frag_pair ef frag_idx j = true then acc
    else
      let fr_j := ef.frags.getD j default
      let swf := d.efp_make_swf ef fr_i fr_j
      fr_j.polarizable_pts.foldl (fun acc pt_j =>
        let field := acc.1
        let field_conj := acc.2
        let dr : vec_t K :=
          ⟨pt.x - pt_j.x + swf.cell.x, pt.y - pt_j.y + swf.cell.y, pt.z - pt_j.z + swf.cell.z⟩
        let r := vec_len d dr
        let r3 := r * r * r
        let r5 := r3 * r * r
        let t1 := vec_dot pt_j.induced_dipole dr
        let t2 := vec_dot pt_j.induced_dipole_conj dr
        let p1 : K := if ef.opts.pol_damp = EFP_POL_DAMP_TT then get_pol_damp_tt d r else 1
        (⟨field.x - swf.swf * p1 * (pt_j.induced_dipole.x / r3 - 3 * t1 * dr.x / r5),
          field.y - swf.swf * p1 * (pt_j.induced_dipole.y / r3 - 3 * t1 * dr.y / r5),
          field.z - swf.swf * p1 * (pt_j.induced_dipole.z / r3 - 3 * t1 * dr.z / r5)⟩,
         ⟨field_conj.x - swf.swf * p1 * (pt_j.induced_dipole_conj.x / r3 - 3 * t2 * dr.x / r5),
          field_conj.y - swf.swf * p1 * (pt_j.induced_dipole_conj.y / r3 - 3 * t2 * dr.y / r5),
          field_conj.z - swf.swf * p1 * (pt_j.induced_dipole_conj.z / r3 - 3 * t2 * dr.z / r5)⟩))
        acc) (vec_zero, vec_zero)

/-- First loop nest of `pol_scf_iter`: the arrays `id_new` and `id_conj_new`, as maps
from index to vector, filled for the fragments of the partition of rank 0. An entry the
loop did not write, indeterminate after `malloc`, is `vec_zero`. -/
def pol_scf_new_dipoles (d : deps K) (ef : efp K) : (Nat → vec_t K) × (Nat → vec_t K) :=
  let rank := 0
  (index_range (ef.mpi_offset rank) (ef.mpi_offset (rank + 1))).foldl (fun arrs i =>
    let frag := ef.frags.getD i default
    (List.range frag.polarizable_pts.length).foldl (fun arrs j =>
      let pt := frag.polarizable_pts.getD j default
      -- electric field from other induced dipoles
      let fields := get_induced_dipole_field d ef i pt
      -- add field that doesn't change during scf
      let field : vec_t K :=
        ⟨fields.1.x + (pt.elec_field.x + pt.elec_field_wf.x),
         fields.1.y + (pt.elec_field.y + pt.elec_field_wf.y),
         fields.1.z + (pt.elec_field.z + pt.elec_field_wf.z)⟩
      let field_conj : vec_t K :=
        ⟨fields.2.x + (pt.elec_field.x + pt.elec_field_wf.x),
         fields.2.y + (pt.elec_field.y + pt.elec_field_wf.y),
         fields.2.z + (pt.elec_field.z + pt.elec_field_wf.z)⟩
      (Function.update arrs.1 (frag.polarizable_offset + j) (mat_vec pt.tensor field),
       Function.update arrs.2 (frag.polarizable_offset + j)
         (mat_trans_vec pt.tensor field_conj))) arrs)
    (fun _ => vec_zero, fun _ => vec_zero)

/-- The test `conv < tol` of the SCF loop on a measure that may not be a number: `none`
stands for the quotient by a zero point count, NaN or infinite in C, on which the test
fails. -/
def below_tol (conv : Option K) (tol : K) : Prop :=
  match conv with
  | some c => c < tol
  | none => False

instance (conv : Option K) (tol : K) : Decidable (below_tol conv tol) :=
  match conv with
  | some c => inferInstanceAs (Decidable (c < tol))
  | none => isFalse (fun h => h)

/-- Function `pol_scf_iter`: one SCF sweep; returns the convergence measure
`conv / n_polarizable_pts / 2` and the state with the new dipoles stored. With
`n_polarizable_pts = 0` the quotient is `0.0 / 0`, not a number in C (infinite should
`conv` be positive): the measure is then `none`. -/
def pol_scf_iter (d : deps K) (ef : efp K) : Option K × efp K :=
  let rank := 0
  let conv : K := 0
  let arrs := pol_scf_new_dipoles d ef
  let id_new := arrs.1
  let id_conj_new := arrs.2
  let conv : K :=
    (index_range (ef.mpi_offset rank) (ef.mpi_offset (rank + 1))).foldl (fun conv i =>
      let frag := ef.frags.getD i default
      (List.range frag.polarizable_pts.length).foldl (fun conv j =>
        let pt := frag.polarizable_pts.getD j default
        let conv := conv + vec_dist d (id_new (frag.polarizable_offset + j)) pt.induced_dipole
        conv + vec_dist d (id_conj_new (frag.polarizable_offset + j)) pt.induced_dipole_conj)
        conv) conv
  let ef1 : efp K :=
    { ef with frags := ef.frags.map (fun frag =>
        { frag with polarizable_pts := frag.polarizable_pts.mapIdx (fun j pt =>
            { pt with induced_dipole := id_new (frag.polarizable_offset + j),
                      induced_dipole_conj := id_conj_new (frag.polarizable_offset + j) }) }) }
  (if ef.n_polarizable_pts = 0 then none else some (conv / (ef.n_polarizable_pts : K) / 2), ef1)

/-- How the SCF loop of `efp_compute_pol_energy` was left: `converged` is false when the
loop body returned `EFP_RESULT_POL_NOT_CONVERGED`; `calls` counts the calls of
`pol_scf_iter`; `state` is the state after the last call. -/
structure scf_exit (K : Type) where
  converged : Bool
  calls : Nat
  state : efp K

/-- Loop `for (iter = 1; iter <= POL_SCF_MAX_ITER; iter++)` of `efp_compute_pol_energy`,
entered with the current `iter`, the number of calls made so far and the state. -/
def pol_scf_loop (d : deps K) (iter calls : Nat) (ef : efp K) : scf_exit K :=
  if iter ≤ POL_SCF_MAX_ITER then
    let out := pol_scf_iter d ef
    if below_tol out.1 POL_SCF_TOL then ⟨true, calls + 1, out.2⟩
    else if iter = POL_SCF_MAX_ITER then ⟨false, calls + 1, out.2⟩
    else pol_scf_loop d (iter + 1) (calls + 1) out.2
  else ⟨true, calls, ef⟩
termination_by POL_SCF_MAX_ITER + 1 - iter
decreasing_by
  simp only [POL_SCF_MAX_ITER] at *
  omega

/-- Initial approximation of `efp_compute_pol_energy`: all induced dipoles are zero. -/
def zero_induced_dipoles (ef : efp K) : efp K :=
  { ef with frags := ef.frags.map (fun frag =>
      { frag with polarizable_pts := frag.polarizable_pts.map (fun pt =>
          { pt with induced_dipole := vec_zero, induced_dipole_conj := vec_zero }) }) }

/-- Energy reduction at the end of `efp_compute_pol_energy`, over the fragments of the
partition of rank 0. -/
def pol_energy_sum (ef : efp K) : K :=
  let rank := 0
  let ener : K := 0
  (index_range (ef.mpi_offset rank) (ef.mpi_offset (rank + 1))).foldl (fun ener i =>
    let frag := ef.frags.getD i default
    (List.range frag.polarizable_pts.length).foldl (fun ener j =>
      let pt := frag.polarizable_pts.getD j default
      ener + (0.5 * vec_dot pt.induced_dipole_conj pt.elec_field_wf -
              0.5 * vec_dot pt.induced_dipole pt.elec_field)) ener) ener

/-- What a call of `efp_compute_pol_energy` leaves behind: the return code, the state,
the content of `*energy`, and the number of calls of `pol_scf_iter` it made. -/
structure pol_energy_out (K : Type) where
  res : efp_result
  efp : efp K
  energy : K
  scf_calls : Nat

/-- Function `efp_compute_pol_energy`. The argument `energy` is the content of
`*energy` on entry. -/
def efp_compute_pol_energy (d : deps K) (ef : efp K) (energy : K) : pol_energy_out K :=
  let out := compute_elec_field d ef
  if out.1 ≠ EFP_RESULT_SUCCESS then ⟨out.1, out.2, energy, 0⟩
  else
    -- set initial approximation - all induced dipoles are zero
    let ef1 := zero_induced_dipoles out.2
    -- compute induced dipoles self consistently
    let ex := pol_scf_loop d 1 0 ef1
    if ex.converged = false then ⟨EFP_RESULT_POL_NOT_CONVERGED, ex.state, energy, ex.calls⟩
    else ⟨EFP_RESULT_SUCCESS, ex.state, pol_energy_sum ex.state, ex.calls⟩

instance : Inhabited (point_charge K) := ⟨⟨0, 0, 0, 0, vec_zero⟩⟩

/-- Modelled from the spec: `add_3` of `math_util.h`, three additive accumulations
`a += aa`, `b += bb`, `c += cc`. -/
def add_3 (a aa b bb c cc : vec_t K) : vec_t K × vec_t K × vec_t K :=
  (⟨a.x + aa.x, a.y + aa.y, a.z + aa.z⟩,
   ⟨b.x + bb.x, b.y + bb.y, b.z + bb.z⟩,
   ⟨c.x + cc.x, c.y + cc.y, c.z + cc.z⟩)

/-- Write through a fragment pointer `efp->frags + i`: fragment `i` is replaced by `f`
of its current content. -/
def frag_update (ef : efp K) (i : Nat) (f : frag K → frag K) : efp K :=
  { ef with frags := ef.frags.set i (f (ef.frags.getD i default)) }

/-- Function `compute_grad_point`. The point `pt_i`, and in each pass of the loop over
`j` the arrays of `fr_j`, are read once: `efp_add_force` and `efp_sub_force` write the
force and torque accumulators only. -/
def compute_grad_point (d : deps K) (ef : efp K) (frag_idx pt_idx : Nat) : efp K :=
  let pt_i := (ef.frags.getD frag_idx default).polarizable_pts.getD pt_idx default
  let dipole_i : vec_t K :=
    ⟨0.5 * (pt_i.induced_dipole.x + pt_i.induced_dipole_conj.x),
     0.5 * (pt_i.induced_dipole.y + pt_i.induced_dipole_conj.y),
     0.5 * (pt_i.induced_dipole.z + pt_i.induced_dipole_conj.z)⟩
  let ef : efp K := (List.range ef.frags.length).foldl (fun ef j =>
    if j = frag_idx ∨ d.efp_skip_frag_pair ef frag_idx j = true then ef
    else
      let fr_j := ef.frags.getD j default
      let swf := d.efp_make_swf ef (ef.frags.getD frag_idx default) fr_j
      -- energy without switching applied
      let energy : K := 0
      -- induced dipole - nuclei
      let acc : efp K × K := fr_j.atoms.foldl (fun acc at_j =>
        let dr : vec_t K :=
          ⟨at_j.x - pt_i.x - swf.cell.x, at_j.y - pt_i.y - swf.cell.y,
           at_j.z - pt_i.z - swf.cell.z⟩
        let p1 : K :=
          if ef.opts.pol_damp = EFP_POL_DAMP_TT then get_pol_damp_tt d (vec_len d dr) else 1
        let p2 : K :=
          if ef.opts.pol_damp = EFP_POL_DAMP_TT then get_pol_damp_tt_grad d (vec_len d dr) else 0
        let e := -d.efp_charge_dipole_energy at_j.znuc dipole_i dr
        let g := d.efp_charge_dipole_grad at_j.znuc dipole_i dr
        let force := vec_negate g.1
        let add_j := g.2.1
        let add_i := g.2.2
        let force := vec_scale force p1
        let add_i := vec_scale add_i p1
        let add_j := vec_scale add_j p1
        let force : vec_t K :=
          ⟨force.x + p2 * e * dr.x, force.y + p2 * e * dr.y, force.z + p2 * e * dr.z⟩
        let force := vec_scale force swf.swf
        let add_i := vec_scale add_i swf.swf
        let add_j := vec_scale add_j swf.swf
        let ef := frag_update acc.1 frag_idx (fun fr => d.efp_add_force fr pt_i.pos force add_i)
        let ef := frag_update ef j (fun fr =>
          d.efp_sub_force fr ⟨at_j.x, at_j.y, at_j.z⟩ force add_j)
        let ef : efp K := { ef with stress := d.efp_add_stress swf.dr force ef.stress }
        (ef, acc.2 + p1 * e)) (ef, energy)
      -- induced dipole - multipoles
      let acc : efp K × K := fr_j.multipole_pts.foldl (fun acc pt_j =>
        let dr : vec_t K :=
          ⟨pt_j.x - pt_i.x - swf.cell.x, pt_j.y - pt_i.y - swf.cell.y,
           pt_j.z - pt_i.z - swf.cell.z⟩
        let p1 : K :=
          if ef.opts.pol_damp = EFP_POL_DAMP_TT then get_pol_damp_tt d (vec_len d dr) else 1
        let p2 : K :=
          if ef.opts.pol_damp = EFP_POL_DAMP_TT then get_pol_damp_tt_grad d (vec_len d dr) else 0
        let e : K := 0
        let force : vec_t K := vec_zero
        let add_i : vec_t K := vec_zero
        let add_j : vec_t K := vec_zero
        -- induced dipole - charge
        let e := e - d.efp_charge_dipole_energy pt_j.monopole dipole_i dr
        let g := d.efp_charge_dipole_grad pt_j.monopole dipole_i dr
        let s := add_3 force (vec_negate g.1) add_i g.2.2 add_j g.2.1
        -- induced dipole - dipole
        let e := e + d.efp_dipole_dipole_energy dipole_i pt_j.dipole dr
        let g := d.efp_dipole_dipole_grad dipole_i pt_j.dipole dr
        let s := add_3 s.1 g.1 s.2.1 g.2.1 s.2.2 (vec_negate g.2.2)
        -- induced dipole - quadrupole
        let e := e + d.efp_dipole_quadrupole_energy dipole_i pt_j.quadrupole dr
        let g := d.efp_dipole_quadrupole_grad dipole_i pt_j.quadrupole dr
        let s := add_3 s.1 g.1 s.2.1 g.2.1 s.2.2 g.2.2
        let force := vec_scale s.1 p1
        let add_i := vec_scale s.2.1 p1
        let add_j := vec_scale s.2.2 p1
        let force : vec_t K :=
          ⟨force.x + p2 * e * dr.x, force.y + p2 * e * dr.y, force.z + p2 * e * dr.z⟩
        let force := vec_scale force swf.swf
        let add_i := vec_scale add_i swf.swf
        let add_j := vec_scale add_j swf.swf
        let ef := frag_update acc.1 frag_idx (fun fr => d.efp_add_force fr pt_i.pos force add_i)
        let ef := frag_update ef j (fun fr =>
          d.efp_sub_force fr ⟨pt_j.x, pt_j.y, pt_j.z⟩ force add_j)
        let ef : efp K := { ef with stress := d.efp_add_stress swf.dr force ef.stress }
        (ef, acc.2 + p1 * e)) acc
      -- induced dipole - induced dipoles
      let acc : efp K × K := fr_j.polarizable_pts.foldl (fun acc pt_j =>
        let dr : vec_t K :=
          ⟨pt_j.x - pt_i.x - swf.cell.x, pt_j.y - pt_i.y - swf.cell.y,
           pt_j.z - pt_i.z - swf.cell.z⟩
        let half_dipole_i : vec_t K :=
          ⟨0.5 * pt_i.induced_dipole.x, 0.5 * pt_i.induced_dipole.y,
           0.5 * pt_i.induced_dipole.z⟩
        let p1 : K :=
          if ef.opts.pol_damp = EFP_POL_DAMP_TT then get_pol_damp_tt d (vec_len d dr) else 1
        let p2 : K :=
          if ef.opts.pol_damp = EFP_POL_DAMP_TT then get_pol_damp_tt_grad d (vec_len d dr) else 0
        let e := d.efp_dipole_dipole_energy half_dipole_i pt_j.induced_dipole_conj dr
        let g := d.efp_dipole_dipole_grad half_dipole_i pt_j.induced_dipole_conj dr
        let force := g.1
        let add_i := g.2.1
        let add_j := vec_negate g.2.2
        let force := vec_scale force p1
        let add_i := vec_scale add_i p1
        let add_j := vec_scale add_j p1
        let force : vec_t K :=
          ⟨force.x + p2 * e * dr.x, force.y + p2 * e * dr.y, force.z + p2 * e * dr.z⟩
        let force := vec_scale force swf.swf
        let add_i := vec_scale add_i swf.swf
        let add_j := vec_scale add_j swf.swf
        let ef := frag_update acc.1 frag_idx (fun fr => d.efp_add_force fr pt_i.pos force add_i)
        let ef := frag_update ef j (fun fr => d.efp_sub_force fr pt_j.pos force add_j)
        let ef : efp K := { ef with stress := d.efp_add_stress swf.dr force ef.stress }
        (ef, acc.2 + p1 * e)) acc
      let energy := acc.2
      let force : vec_t K := ⟨swf.dswf.x * energy, swf.dswf.y * energy, swf.dswf.z * energy⟩
      let ef := frag_update acc.1 frag_idx (fun fr =>
        { fr with force := vec_atomic_add fr.force force })
      let ef := frag_update ef j (fun fr => { fr with force := vec_atomic_sub fr.force force })
      { ef with stress := d.efp_add_stress swf.dr force ef.stress }) ef
  -- induced dipole - ab initio nuclei
  if ef.opts.terms &&& d.EFP_TERM_AI_POL ≠ 0 then
    (List.range ef.point_charges.length).foldl (fun ef j =>
      let at_j := ef.point_charges.getD j default
      let dr := vec_sub ⟨at_j.x, at_j.y, at_j.z⟩ pt_i.pos
      let g := d.efp_charge_dipole_grad at_j.charge dipole_i dr
      let force := g.1
      let add_i := vec_negate g.2.2
      let ef : efp K :=
        { ef with point_charges :=
            ef.point_charges.set j { at_j with grad := vec_atomic_add at_j.grad force } }
      frag_update ef frag_idx (fun fr => d.efp_sub_force fr pt_i.pos force add_i)) ef
  else ef

/-- Function `compute_grad`. -/
def compute_grad (d : deps K) (ef : efp K) : efp K :=
  let rank := 0
  (index_range (ef.mpi_offset rank) (ef.mpi_offset (rank + 1))).foldl (fun ef i =>
    (List.range (ef.frags.getD i default).polarizable_pts.length).foldl (fun ef j =>
      compute_grad_point d ef i j) ef) ef

/-- Function `efp_compute_pol`. The output argument of `efp_compute_pol_energy` is
`&efp->energy.polarization`. -/
def efp_compute_pol (d : deps K) (ef : efp K) : efp_result × efp K :=
  if ef.opts.terms &&& d.EFP_TERM_POL = 0 then (EFP_RESULT_SUCCESS, ef)
  else
    let out := efp_compute_pol_energy d ef ef.energy.polarization
    let ef1 : efp K := { out.efp with energy := { out.efp.energy with polarization := out.energy } }
    if out.res ≠ EFP_RESULT_SUCCESS then (out.res, ef1)
    else if ef1.do_gradient = true then (EFP_RESULT_SUCCESS, compute_grad d ef1)
    else (EFP_RESULT_SUCCESS, ef1)

/-! ## Notions used to state the properties -/

/-- State after `n` calls of `pol_scf_iter`, starting from `ef`. -/
def scf_state (d : deps K) (ef : efp K) : Nat → efp K
  | 0 => ef
  | n + 1 => (pol_scf_iter d (scf_state d ef n)).2

/-- Convergence measure returned by call number `n` (counted from 1) of `pol_scf_iter`,
starting from `ef`; `none` when it is not a number. -/
def scf_conv (d : deps K) (ef : efp K) (n : Nat) : Option K :=
  (pol_scf_iter d (scf_state d ef (n - 1))).1

/-- State on which the SCF loop of `efp_compute_pol_energy` starts: static fields
computed, all induced dipoles zero. -/
def scf_start (d : deps K) (ef : efp K) : efp K :=
  zero_induced_dipoles (compute_elec_field d ef).2

/-- Energy formula of the specification,
`Σ 0.5 * (conjugate_dipole · field_wf) - 0.5 * (induced_dipole · field)`, summed over all
polarizable points of all fragments. -/
def pol_energy_all_points (ef : efp K) : K :=
  (ef.frags.map (fun fr => (fr.polarizable_pts.map (fun pt =>
    0.5 * vec_dot pt.induced_dipole_conj pt.elec_field_wf -
      0.5 * vec_dot pt.induced_dipole pt.elec_field)).sum)).sum

/-- Point with the four fields that `compute_elec_field` and the SCF solver write
(both static fields, both dipoles) erased. -/
def pt_core (pt : polarizable_pt K) : polarizable_pt K :=
  { pt with elec_field := vec_zero, elec_field_wf := vec_zero,
            induced_dipole := vec_zero, induced_dipole_conj := vec_zero }

/-- Fragment with the solver-written fields of its points erased. -/
def frag_core (fr : frag K) : frag K :=
  { fr with polarizable_pts := fr.polarizable_pts.map pt_core }

/-- State with the solver-written fields of all points erased: what is left is
everything the energy routine must not touch (geometry, parameters, options, callback,
stored energy, forces, torques, stress, point charges). -/
def efp_core (ef : efp K) : efp K :=
  { ef with frags := ef.frags.map frag_core }

/-- Induced and conjugate dipole of every point of every fragment. -/
def all_dipoles (ef : efp K) : List (List (vec_t K × vec_t K)) :=
  ef.frags.map (fun fr => fr.polarizable_pts.map (fun pt =>
    (pt.induced_dipole, pt.induced_dipole_conj)))

/-- Force and torque accumulator of every fragment. -/
def all_forces (ef : efp K) : List (vec_t K × vec_t K) :=
  ef.frags.map (fun fr => (fr.force, fr.torque))

/-- Positions of all polarizable points in fragment order: the array the
electron-density callback is called with. -/
def all_positions (ef : efp K) : List (vec_t K) :=
  ef.frags.flatMap (fun fr => fr.polarizable_pts.map (fun pt => pt.pos))

/-! ## Demonstration systems -/

/-- Instance of the external functions for the demonstration systems: no pair is
skipped, every pair has switching value 1 and no cell shift, the pair energies and
gradients of `elec.h` are zero, and `sqrt` is the identity, which is the square root at
the only arguments it receives in these systems, 0 and 1. -/
def demo_deps : deps ℚ where
  sqrt := fun x => x
  exp := fun _ => 1
  EFP_TERM_POL := 2
  EFP_TERM_AI_POL := 64
  quad_idx := fun a b => 3 * a + b
  quadrupole_sum := fun _ _ => 0
  efp_skip_frag_pair := fun _ _ _ => false
  efp_make_swf := fun _ _ _ => ⟨1, vec_zero, vec_zero, vec_zero⟩
  efp_charge_dipole_energy := fun _ _ _ => 0
  efp_charge_dipole_grad := fun _ _ _ => (vec_zero, vec_zero, vec_zero)
  efp_dipole_dipole_energy := fun _ _ _ => 0
  efp_dipole_dipole_grad := fun _ _ _ => (vec_zero, vec_zero, vec_zero)
  efp_dipole_quadrupole_energy := fun _ _ _ => 0
  efp_dipole_quadrupole_grad := fun _ _ _ => (vec_zero, vec_zero, vec_zero)
  efp_add_force := fun fr _ force _ => { fr with force := vec_atomic_add fr.force force }
  efp_sub_force := fun fr _ force _ => { fr with force := vec_atomic_sub fr.force force }
  efp_add_stress := fun _ _ stress => stress

/-- Polarizable point at the origin with unit polarizability and stale field and dipole
values left from an earlier solve. -/
def demo_pt : polarizable_pt ℚ :=
  { x := 0, y := 0, z := 0, tensor := ⟨1, 0, 0, 0, 1, 0, 0, 0, 1⟩,
    elec_field := ⟨3, 3, 3⟩, elec_field_wf := ⟨4, 4, 4⟩,
    induced_dipole := ⟨5, 5, 5⟩, induced_dipole_conj := ⟨6, 6, 6⟩ }

/-- Two-fragment system: fragment 0 carries one polarizable point at the origin,
fragment 1 one unit nuclear charge at distance 1. The enabled terms and the
electron-density callback are left open. -/
def demo_efp (terms : Nat)
    (callback : Option (Nat → List (vec_t ℚ) → efp_result × List (vec_t ℚ))) : efp ℚ :=
  { frags :=
      [ { x := 0, y := 0, z := 0, atoms := [], multipole_pts := [],
          polarizable_pts := [demo_pt], polarizable_offset := 0,
          force := ⟨1, 2, 3⟩, torque := ⟨4, 5, 6⟩ },
        { x := 1, y := 0, z := 0, atoms := [⟨1, 0, 0, 1⟩], multipole_pts := [],
          polarizable_pts := [], polarizable_offset := 1,
          force := ⟨7, 8, 9⟩, torque := vec_zero } ],
    n_polarizable_pts := 1,
    point_charges := [],
    opts := ⟨terms, EFP_POL_DAMP_OFF⟩,
    do_gradient := true,
    get_electron_density_field := callback,
    energy := ⟨7⟩,
    stress := mat_zero,
    mpi_offset := fun rank => if rank = 0 then 0 else 2 }

/-- Electron-density callback that fails with code 7. -/
def demo_failing_callback : Nat → List (vec_t ℚ) → efp_result × List (vec_t ℚ) :=
  fun _ _ => (EFP_RESULT_OTHER 7, [])

/-! ## Geometry optimizer (`efpmd/opt.c`) -/

/-- Function `check_conv`; the C truth value is a `Bool`. -/
def check_conv (rms_grad max_grad opt_tol : K) : Bool :=
  decide (|max_grad| < opt_tol) && decide (|rms_grad| < opt_tol / 3)

/-- Function `get_grad_info`: the pair `(*rms_grad, *max_grad)` it writes, for the
gradient array `grad` of length `n_coord`. The square root of `math.h` is a
parameter. -/
def get_grad_info (sqrt : K → K) (grad : List K) : K × K :=
  let n_coord := grad.length
  let acc : K × K := (List.range n_coord).foldl (fun acc i =>
    let rms_g := acc.1 + grad.getD i 0 * grad.getD i 0
    let max_g := if |grad.getD i 0| > acc.2 then grad.getD i 0 else acc.2
    (rms_g, max_g)) (0, 0)
  let rms_g := sqrt (acc.1 / (n_coord : K))
  (rms_g, acc.2)

/-- Largest absolute value of a component of `grad` (0 for the empty array). -/
def max_abs (grad : List K) : K :=
  grad.foldr (fun g m => max |g| m) 0

/-- Gradient of one fragment on which `get_grad_info` loses the largest component. -/
def demo_grad : List ℚ := [-5, 1, 0, 0, 0, 0]

/-! ## Further notions used to state the properties -/

/-- First loop nest of `compute_elec_field`: the local array `elec_field`. -/
def elec_field_array (d : deps K) (ef : efp K) : Nat → vec_t K :=
  (index_range (ef.mpi_offset 0) (ef.mpi_offset (0 + 1))).foldl (fun elec_field i =>
    (List.range (ef.frags.getD i default).polarizable_pts.length).foldl (fun elec_field j =>
      Function.update elec_field ((ef.frags.getD i default).polarizable_offset + j)
        (get_elec_field d ef i j)) elec_field) (fun _ => vec_zero)

/-- Second loop nest of `compute_elec_field`: every point takes its entry of the array
`E` as `elec_field`, and `elec_field_wf` is cleared. -/
def with_static_field (E : Nat → vec_t K) (ef : efp K) : efp K :=
  { ef with frags := ef.frags.map (fun frag =>
      { frag with polarizable_pts := frag.polarizable_pts.mapIdx (fun j pt =>
          { pt with elec_field := E (frag.polarizable_offset + j),
                    elec_field_wf := vec_zero }) }) }

/-- Sum over all polarizable points of `induced_dipole · elec_field`. -/
def dipole_field_sum (ef : efp K) : K :=
  (ef.frags.map (fun fr => (fr.polarizable_pts.map (fun pt =>
    vec_dot pt.induced_dipole pt.elec_field)).sum)).sum

/-- Every polarizable point has `elec_field_wf` equal to the zero vector. -/
def wf_zero (ef : efp K) : Prop :=
  ∀ fr ∈ ef.frags, ∀ pt ∈ fr.polarizable_pts, pt.elec_field_wf = vec_zero

/-- Every polarizable point has zero static fields and zero induced and conjugate
dipoles. -/
def quiet (ef : efp K) : Prop :=
  ∀ fr ∈ ef.frags, ∀ pt ∈ fr.polarizable_pts,
    pt.elec_field = vec_zero ∧ pt.elec_field_wf = vec_zero ∧
    pt.induced_dipole = vec_zero ∧ pt.induced_dipole_conj = vec_zero

/-- External functions of the demonstration systems with every fragment pair beyond the
cutoff: switching value and switching gradient are zero. -/
def demo_deps_far : deps ℚ :=
  { demo_deps with efp_make_swf := fun _ _ _ => ⟨0, vec_zero, vec_zero, vec_zero⟩ }

/-- Every polarizable point of the fragment has zero static fields and zero induced and
conjugate dipoles. -/
def frag_quiet (fr : frag K) : Prop :=
  ∀ pt ∈ fr.polarizable_pts,
    pt.elec_field = vec_zero ∧ pt.elec_field_wf = vec_zero ∧
    pt.induced_dipole = vec_zero ∧ pt.induced_dipole_conj = vec_zero

/-- Every interacting pair of fragments of `ef` (indices below the fragment count, not
skipped) has switching value 0, in every state that differs from `ef` in solver-written
point fields only. -/
def all_pairs_switched_off (d : deps K) (ef : efp K) : Prop :=
  ∀ s : efp K, efp_core s = efp_core ef → ∀ i j : Nat, i < s.frags.length →
    j < s.frags.length → i ≠ j → d.efp_skip_frag_pair s i j = false →
    (d.efp_make_swf s (s.frags.getD i default) (s.frags.getD j default)).swf = 0

/-- Every interacting pair of fragments of `ef` (indices below the fragment count, not
skipped) has switching value 0 and switching gradient 0. -/
def all_pairs_beyond_cutoff (d : deps K) (ef : efp K) : Prop :=
  ∀ i j : Nat, i < ef.frags.length → j < ef.frags.length → i ≠ j →
    d.efp_skip_frag_pair ef i j = false →
    (d.efp_make_swf ef (ef.frags.getD i default) (ef.frags.getD j default)).swf = 0 ∧
    (d.efp_make_swf ef (ef.frags.getD i default) (ef.frags.getD j default)).dswf = vec_zero

/-- Accumulating a zero force with zero torque terms changes nothing: what the
accumulation helpers `efp_add_force`, `efp_sub_force` and `efp_add_stress` of the
library do on the zero vector. -/
def zero_force_is_neutral (d : deps K) : Prop :=
  (∀ fr pt, d.efp_add_force fr pt vec_zero vec_zero = fr) ∧
  (∀ fr pt, d.efp_sub_force fr pt vec_zero vec_zero = fr) ∧
  (∀ dr stress, d.efp_add_stress dr vec_zero stress = stress)

/-- The three accumulation statements that end every pairwise term of
`compute_grad_point`: `efp_add_force` on fragment `i` at `p`, `efp_sub_force` on
fragment `j` at `q`, and `efp_add_stress`. -/
def grad_accumulate (d : deps K) (s : efp K) (i j : Nat) (p q force add_i add_j : vec_t K)
    (sw : swf K) : efp K :=
  { frag_update (frag_update s i (fun fr => d.efp_add_force fr p force add_i)) j
      (fun fr => d.efp_sub_force fr q force add_j) with
    stress := d.efp_add_stress sw.dr force
      (frag_update (frag_update s i (fun fr => d.efp_add_force fr p force add_i)) j
        (fun fr => d.efp_sub_force fr q force add_j)).stress }

/-- Body of the loop "induced dipole - nuclei" of `compute_grad_point`, on the pair of
the state and the accumulated energy. -/
def grad_nuclei_step (d : deps K) (damp : efp_pol_damp) (frag_idx j : Nat)
    (pt_i : polarizable_pt K) (dipole_i : vec_t K) (sw : swf K)
    (acc : efp K × K) (at_j : efp_atom K) : efp K × K :=
  let dr : vec_t K :=
    ⟨at_j.x - pt_i.x - sw.cell.x, at_j.y - pt_i.y - sw.cell.y, at_j.z - pt_i.z - sw.cell.z⟩
  let p1 : K := if damp = EFP_POL_DAMP_TT then get_pol_damp_tt d (vec_len d dr) else 1
  let p2 : K := if damp = EFP_POL_DAMP_TT then get_pol_damp_tt_grad d (vec_len d dr) else 0
  let e := -d.efp_charge_dipole_energy at_j.znuc dipole_i dr
  let g := d.efp_charge_dipole_grad at_j.znuc dipole_i dr
  let force := vec_scale (vec_negate g.1) p1
  let add_i := vec_scale g.2.2 p1
  let add_j := vec_scale g.2.1 p1
  let force : vec_t K :=
    ⟨force.x + p2 * e * dr.x, force.y + p2 * e * dr.y, force.z + p2 * e * dr.z⟩
  (grad_accumulate d acc.1 frag_idx j pt_i.pos ⟨at_j.x, at_j.y, at_j.z⟩
    (vec_scale force sw.swf) (vec_scale add_i sw.swf) (vec_scale add_j sw.swf) sw,
   acc.2 + p1 * e)

/-- Body of the loop "induced dipole - multipoles" of `compute_grad_point`. -/
def grad_multipole_step (d : deps K) (damp : efp_pol_damp) (frag_idx j : Nat)
    (pt_i : polarizable_pt K) (dipole_i : vec_t K) (sw : swf K)
    (acc : efp K × K) (pt_j : multipole_pt K) : efp K × K :=
  let dr : vec_t K :=
    ⟨pt_j.x - pt_i.x - sw.cell.x, pt_j.y - pt_i.y - sw.cell.y, pt_j.z - pt_i.z - sw.cell.z⟩
  let p1 : K := if damp = EFP_POL_DAMP_TT then get_pol_damp_tt d (vec_len d dr) else 1
  let p2 : K := if damp = EFP_POL_DAMP_TT then get_pol_damp_tt_grad d (vec_len d dr) else 0
  let e : K := 0 - d.efp_charge_dipole_energy pt_j.monopole dipole_i dr
  let g := d.efp_charge_dipole_grad pt_j.monopole dipole_i dr
  let s := add_3 vec_zero (vec_negate g.1) vec_zero g.2.2 vec_zero g.2.1
  let e := e + d.efp_dipole_dipole_energy dipole_i pt_j.dipole dr
  let g := d.efp_dipole_dipole_grad dipole_i pt_j.dipole dr
  let s := add_3 s.1 g.1 s.2.1 g.2.1 s.2.2 (vec_negate g.2.2)
  let e := e + d.efp_dipole_quadrupole_energy dipole_i pt_j.quadrupole dr
  let g := d.efp_dipole_quadrupole_grad dipole_i pt_j.quadrupole dr
  let s := add_3 s.1 g.1 s.2.1 g.2.1 s.2.2 g.2.2
  let force := vec_scale s.1 p1
  let add_i := vec_scale s.2.1 p1
  let add_j := vec_scale s.2.2 p1
  let force : vec_t K :=
    ⟨force.x + p2 * e * dr.x, force.y + p2 * e * dr.y, force.z + p2 * e * dr.z⟩
  (grad_accumulate d acc.1 frag_idx j pt_i.pos ⟨pt_j.x, pt_j.y, pt_j.z⟩
    (vec_scale force sw.swf) (vec_scale add_i sw.swf) (vec_scale add_j sw.swf) sw,
   acc.2 + p1 * e)

/-- Body of the loop "induced dipole - induced dipoles" of `compute_grad_point`. -/
def grad_dipole_step (d : deps K) (damp : efp_pol_damp) (frag_idx j : Nat)
    (pt_i : polarizable_pt K) (sw : swf K)
    (acc : efp K × K) (pt_j : polarizable_pt K) : efp K × K :=
  let dr : vec_t K :=
    ⟨pt_j.x - pt_i.x - sw.cell.x, pt_j.y - pt_i.y - sw.cell.y, pt_j.z - pt_i.z - sw.cell.z⟩
  let half_dipole_i : vec_t K :=
    ⟨0.5 * pt_i.induced_dipole.x, 0.5 * pt_i.induced_dipole.y, 0.5 * pt_i.induced_dipole.z⟩
  let p1 : K := if damp = EFP_POL_DAMP_TT then get_pol_damp_tt d (vec_len d dr) else 1
  let p2 : K := if damp = EFP_POL_DAMP_TT then get_pol_damp_tt_grad d (vec_len d dr) else 0
  let e := d.efp_dipole_dipole_energy half_dipole_i pt_j.induced_dipole_conj dr
  let g := d.efp_dipole_dipole_grad half_dipole_i pt_j.induced_dipole_conj dr
  let force := vec_scale g.1 p1
  let add_i := vec_scale g.2.1 p1
  let add_j := vec_scale (vec_negate g.2.2) p1
  let force : vec_t K :=
    ⟨force.x + p2 * e * dr.x, force.y + p2 * e * dr.y, force.z + p2 * e * dr.z⟩
  (grad_accumulate d acc.1 frag_idx j pt_i.pos pt_j.pos
    (vec_scale force sw.swf) (vec_scale add_i sw.swf) (vec_scale add_j sw.swf) sw,
   acc.2 + p1 * e)

/-- Switching-derivative term that ends each pass of the loop over `j` in
`compute_grad_point`: the force `swf.dswf * energy` is added to fragment `frag_idx` and
subtracted from fragment `j`, and enters the stress. -/
def grad_dswf_term (d : deps K) (frag_idx j : Nat) (sw : swf K) (acc : efp K × K) : efp K :=
  let energy := acc.2
  let force : vec_t K := ⟨sw.dswf.x * energy, sw.dswf.y * energy, sw.dswf.z * energy⟩
  let ef := frag_update acc.1 frag_idx (fun fr =>
    { fr with force := vec_atomic_add fr.force force })
  let ef := frag_update ef j (fun fr => { fr with force := vec_atomic_sub fr.force force })
  { ef with stress := d.efp_add_stress sw.dr force ef.stress }

/-- Averaged dipole `dipole_i` of `compute_grad_point`. -/
def grad_dipole_i (pt_i : polarizable_pt K) : vec_t K :=
  ⟨0.5 * (pt_i.induced_dipole.x + pt_i.induced_dipole_conj.x),
   0.5 * (pt_i.induced_dipole.y + pt_i.induced_dipole_conj.y),
   0.5 * (pt_i.induced_dipole.z + pt_i.induced_dipole_conj.z)⟩

/-- Body of the loop over the fragments `j` in `compute_grad_point`, for the point
`pt_i` of fragment `frag_idx`. -/
def grad_frag_step (d : deps K) (frag_idx : Nat) (pt_i : polarizable_pt K)
    (ef : efp K) (j : Nat) : efp K :=
  if j = frag_idx ∨ d.efp_skip_frag_pair ef frag_idx j = true then ef
  else
    grad_dswf_term d frag_idx j
      (d.efp_make_swf ef (ef.frags.getD frag_idx default) (ef.frags.getD j default))
      ((ef.frags.getD j default).polarizable_pts.foldl
        (grad_dipole_step d ef.opts.pol_damp frag_idx j pt_i
          (d.efp_make_swf ef (ef.frags.getD frag_idx default) (ef.frags.getD j default)))
        ((ef.frags.getD j default).multipole_pts.foldl
          (grad_multipole_step d ef.opts.pol_damp frag_idx j pt_i (grad_dipole_i pt_i)
            (d.efp_make_swf ef (ef.frags.getD frag_idx default) (ef.frags.getD j default)))
          ((ef.frags.getD j default).atoms.foldl
            (grad_nuclei_step d ef.opts.pol_damp frag_idx j pt_i (grad_dipole_i pt_i)
              (d.efp_make_swf ef (ef.frags.getD frag_idx default) (ef.frags.getD j default)))
            (ef, 0))))

/-- Body of the loop "induced dipole - ab initio nuclei" of `compute_grad_point`. -/
def grad_point_charge_step (d : deps K) (frag_idx : Nat) (pt_i : polarizable_pt K)
    (ef : efp K) (j : Nat) : efp K :=
  let at_j := ef.point_charges.getD j default
  let dr := vec_sub ⟨at_j.x, at_j.y, at_j.z⟩ pt_i.pos
  let g := d.efp_charge_dipole_grad at_j.charge (grad_dipole_i pt_i) dr
  let force := g.1
  let add_i := vec_negate g.2.2
  let ef : efp K :=
    { ef with point_charges :=
        ef.point_charges.set j { at_j with grad := vec_atomic_add at_j.grad force } }
  frag_update ef frag_idx (fun fr => d.efp_sub_force fr pt_i.pos force add_i)

/-- Last part of `compute_grad_point`: the terms of the ab initio nuclei, present when
the ab-initio polarization flag is set. -/
def grad_point_charges (d : deps K) (frag_idx : Nat) (pt_i : polarizable_pt K)
    (ef : efp K) : efp K :=
  if ef.opts.terms &&& d.EFP_TERM_AI_POL ≠ 0 then
    (List.range ef.point_charges.length).foldl (grad_point_charge_step d frag_idx pt_i) ef
  else ef

/-- Sum of the force vectors of all fragments. -/
def total_force (ef : efp K) : vec_t K :=
  ⟨(ef.frags.map (fun fr => fr.force.x)).sum, (ef.frags.map (fun fr => fr.force.y)).sum,
   (ef.frags.map (fun fr => fr.force.z)).sum⟩

/-- What the accumulation helpers do to the force of the fragment they are given:
`efp_add_force` adds the force vector, `efp_sub_force` subtracts it, and nothing but the
force and the torque of the fragment is written. -/
def force_accumulators (d : deps K) : Prop :=
  (∀ fr pt f a, ∃ t, d.efp_add_force fr pt f a
      = { fr with force := vec_atomic_add fr.force f, torque := t }) ∧
  (∀ fr pt f a, ∃ t, d.efp_sub_force fr pt f a
      = { fr with force := vec_atomic_sub fr.force f, torque := t })

/-- Modelled from the spec: cross product of two vectors, for the torque a force produces
about the fragment reference position in the demonstration systems. -/
def demo_cross (a b : vec_t ℚ) : vec_t ℚ :=
  ⟨a.y * b.z - a.z * b.y, a.z * b.x - a.x * b.z, a.x * b.y - a.y * b.x⟩

/-- External functions of the demonstration systems with non-zero pair gradients: the
charge-dipole gradient is a force along `dr` with torque terms, and the accumulation
helpers add the force, and the torque it produces about the fragment position plus the
torque term, to the fragment. -/
def demo_deps_forces : deps ℚ :=
  { demo_deps with
    efp_charge_dipole_energy := fun q dip dr => q * vec_dot dip dr
    efp_charge_dipole_grad := fun q dip dr =>
      (⟨q * dr.x, q * dr.y, q * dr.z⟩, ⟨q * dip.x, 0, 0⟩, ⟨0, q * dip.y, 0⟩)
    efp_add_force := fun fr pt force add =>
      { fr with force := vec_atomic_add fr.force force,
                torque := vec_atomic_add fr.torque
                  (vec_atomic_add (demo_cross (vec_sub pt ⟨fr.x, fr.y, fr.z⟩) force) add) }
    efp_sub_force := fun fr pt force add =>
      { fr with force := vec_atomic_sub fr.force force,
                torque := vec_atomic_sub fr.torque
                  (vec_atomic_add (demo_cross (vec_sub pt ⟨fr.x, fr.y, fr.z⟩) force) add) }
    efp_add_stress := fun dr force stress =>
      { stress with xx := stress.xx + dr.x * force.x } }

/-- The same external functions with every fragment pair beyond the cutoff. -/
def demo_deps_forces_far : deps ℚ :=
  { demo_deps_forces with efp_make_swf := fun _ _ _ => ⟨0, vec_zero, vec_zero, vec_zero⟩ }

/-- What the gradient pass keeps: the number of fragments, the options and the total
force. -/
def grad_inv (n : Nat) (o : efp_opts) (F : vec_t K) (s : efp K) : Prop :=
  s.frags.length = n ∧ s.opts = o ∧ total_force s = F

/-- States `a` and `b` agree on everything `get_elec_field` reads for point `p` of
fragment `f`, except the atoms and multipole points of fragment `f` itself and of the
fragments `g` with `efp_skip_frag_pair(g, f)`: the nuclear charges and multipole moments
of those fragments are arbitrary in both states. -/
def agree_for_static_field (d : deps K) (a b : efp K) (f p : Nat) : Prop :=
  a.frags.length = b.frags.length ∧ a.opts = b.opts ∧ a.point_charges = b.point_charges ∧
  ((a.frags.getD f default).polarizable_pts.getD p default).pos
    = ((b.frags.getD f default).polarizable_pts.getD p default).pos ∧
  (∀ g, d.efp_skip_frag_pair a g f = d.efp_skip_frag_pair b g f) ∧
  (∀ g, g ≠ f → d.efp_skip_frag_pair a g f = false →
    (a.frags.getD g default).atoms = (b.frags.getD g default).atoms ∧
    (a.frags.getD g default).multipole_pts = (b.frags.getD g default).multipole_pts ∧
    d.efp_make_swf a (a.frags.getD g default) (a.frags.getD f default)
      = d.efp_make_swf b (b.frags.getD g default) (b.frags.getD f default))

/-- States `a` and `b` agree on everything `get_induced_dipole_field` reads for a point
at the position of `pt_a` and `pt_b` in fragment `f`, except the polarizable points of
fragment `f` itself and of the fragments `g` with `efp_skip_frag_pair(f, g)`: the induced
and conjugate dipoles of those fragments, and of the point itself, are arbitrary in both
states. -/
def agree_for_induced_field (d : deps K) (a b : efp K) (f : Nat)
    (pt_a pt_b : polarizable_pt K) : Prop :=
  a.frags.length = b.frags.length ∧ a.opts = b.opts ∧ pt_a.pos = pt_b.pos ∧
  (∀ g, d.efp_skip_frag_pair a f g = d.efp_skip_frag_pair b f g) ∧
  (∀ g, g ≠ f → d.efp_skip_frag_pair a f g = false →
    (a.frags.getD g default).polarizable_pts = (b.frags.getD g default).polarizable_pts ∧
    d.efp_make_swf a (a.frags.getD f default) (a.frags.getD g default)
      = d.efp_make_swf b (b.frags.getD f default) (b.frags.getD g default))

/-- External functions of the demonstration systems in which every pair with
fragment 2 is excluded. -/
def demo_deps_skip : deps ℚ :=
  { demo_deps with efp_skip_frag_pair := fun _ i j => decide (i = 2 ∨ j = 2) }

/-- Three-fragment system: fragment 0 carries the polarizable point at the origin, with
induced dipole `dip`, and the atoms `own`; fragment 1 a unit charge and a polarizable
point at distance 1; fragment 2, which `demo_deps_skip` excludes, a charge `q` and a
point with dipole `(q, 0, 0)`. -/
def demo_three (q : ℚ) (own : List (efp_atom ℚ)) (dip : vec_t ℚ) : efp ℚ :=
  { frags :=
      [ { x := 0, y := 0, z := 0, atoms := own, multipole_pts := [],
          polarizable_pts := [{ demo_pt with induced_dipole := dip }],
          polarizable_offset := 0, force := vec_zero, torque := vec_zero },
        { x := 1, y := 0, z := 0, atoms := [⟨1, 0, 0, 1⟩], multipole_pts := [],
          polarizable_pts := [{ demo_pt with x := 1, induced_dipole := ⟨1, 0, 0⟩,
                                             induced_dipole_conj := ⟨0, 1, 0⟩ }],
          polarizable_offset := 1, force := vec_zero, torque := vec_zero },
        { x := 0, y := 1, z := 0, atoms := [⟨0, 1, 0, q⟩], multipole_pts := [],
          polarizable_pts := [{ demo_pt with y := 1, induced_dipole := ⟨q, 0, 0⟩,
                                             induced_dipole_conj := ⟨q, 0, 0⟩ }],
          polarizable_offset := 2, force := vec_zero, torque := vec_zero } ],
    n_polarizable_pts := 3,
    point_charges := [],
    opts := ⟨2, EFP_POL_DAMP_OFF⟩,
    do_gradient := true,
    get_electron_density_field := none,
    energy := ⟨0⟩,
    stress := mat_zero,
    mpi_offset := fun rank => if rank = 0 then 0 else 3 }

/-- Modelled from the spec: `efp_skip_frag_pair` and `efp_make_swf` of `private.h` and
`swf.c` decide from the fragment geometry, the cutoff options and the periodic box alone;
they read none of the four point fields that the solver writes. In the embedding: their
values are the same on a state and fragments with those fields erased. -/
def reads_core_only (d : deps K) : Prop :=
  (∀ (ef : efp K) (i j : Nat),
    d.efp_skip_frag_pair ef i j = d.efp_skip_frag_pair (efp_core ef) i j) ∧
  (∀ (ef : efp K) (fr_i fr_j : frag K),
    d.efp_make_swf ef fr_i fr_j = d.efp_make_swf (efp_core ef) (frag_core fr_i) (frag_core fr_j))

/-- Body of the loop over the fragments in `energy_fn`: the torque entries
`gx[6 * i + 3 .. 6 * i + 5]` are replaced, from the angles `x[6 * i + 3]` and
`x[6 * i + 4]`. `sin` and `cos` of `math.h` are parameters. -/
def energy_fn_step (sin cos : K → K) (x : List K) (gx : List K) (i : Nat) : List K :=
  let tx := gx.getD (6 * i + 3) 0
  let ty := gx.getD (6 * i + 4) 0
  let tz := gx.getD (6 * i + 5) 0
  let a := x.getD (6 * i + 3) 0
  let b := x.getD (6 * i + 4) 0
  let sina := sin a
  let cosa := cos a
  let sinb := sin b
  let cosb := cos b
  ((gx.set (6 * i + 3) tz).set (6 * i + 4) (cosa * tx + sina * ty)).set (6 * i + 5)
    (sinb * sina * tx - sinb * cosa * ty + cosb * tz)

/-- Function `energy_fn`. The library calls before the loop (`efp_get_frag_count`,
`efp_set_coordinates`, `efp_compute`, `efp_get_energy`, `efp_get_gradient`) are outside
the sources at hand and are taken to succeed; what they deliver, the fragment count
`n_frag`, `energy.total` and the gradient array `gx`, are parameters. The result is the
pair of `*fx` and the array `gx` on return. -/
def energy_fn (sin cos : K → K) (n_frag : Nat) (energy_total : K) (x gx : List K) :
    K × List K :=
  (energy_total, (List.range n_frag).foldl (energy_fn_step sin cos x) gx)

/-- Torque triple `gx[6 * i + 3 .. 6 * i + 5]` of fragment `i` in a gradient array. -/
def torque_triple (gx : List K) (i : Nat) : vec_t K :=
  ⟨gx.getD (6 * i + 3) 0, gx.getD (6 * i + 4) 0, gx.getD (6 * i + 5) 0⟩

/-- The linear map that `energy_fn` applies to a torque triple, for angles with sines
and cosines `sina`, `cosa`, `sinb`, `cosb`. -/
def torque_map (sina cosa sinb cosb : K) (t : vec_t K) : vec_t K :=
  ⟨t.z, cosa * t.x + sina * t.y, sinb * sina * t.x - sinb * cosa * t.y + cosb * t.z⟩

/-- External functions built around given `sqrt` and `exp` of `math.h`; everything else
as in `demo_deps`, over any field. -/
def math_deps (sqrt exp : K → K) : deps K where
  sqrt := sqrt
  exp := exp
  EFP_TERM_POL := 2
  EFP_TERM_AI_POL := 64
  quad_idx := fun a b => 3 * a + b
  quadrupole_sum := fun _ _ => 0
  efp_skip_frag_pair := fun _ _ _ => false
  efp_make_swf := fun _ _ _ => ⟨1, vec_zero, vec_zero, vec_zero⟩
  efp_charge_dipole_energy := fun _ _ _ => 0
  efp_charge_dipole_grad := fun _ _ _ => (vec_zero, vec_zero, vec_zero)
  efp_dipole_dipole_energy := fun _ _ _ => 0
  efp_dipole_dipole_grad := fun _ _ _ => (vec_zero, vec_zero, vec_zero)
  efp_dipole_quadrupole_energy := fun _ _ _ => 0
  efp_dipole_quadrupole_grad := fun _ _ _ => (vec_zero, vec_zero, vec_zero)
  efp_add_force := fun fr _ force _ => { fr with force := vec_atomic_add fr.force force }
  efp_sub_force := fun fr _ force _ => { fr with force := vec_atomic_sub fr.force force }
  efp_add_stress := fun _ _ stress => stress

/-- Displacement `dr` of `compute_grad_point` from the point `pt_i` to a site at `q` of
the other fragment. -/
def grad_dr (pt_i : polarizable_pt K) (sw : swf K) (q : vec_t K) : vec_t K :=
  ⟨q.x - pt_i.x - sw.cell.x, q.y - pt_i.y - sw.cell.y, q.z - pt_i.z - sw.cell.z⟩

/-- Damping factor `p1` of `compute_grad_point` at the displacement `dr`. -/
def grad_p1 (d : deps K) (damp : efp_pol_damp) (dr : vec_t K) : K :=
  if damp = EFP_POL_DAMP_TT then get_pol_damp_tt d (vec_len d dr) else 1

/-- Pairwise energy `e` of the loop "induced dipole - nuclei". -/
def grad_nuclei_e (d : deps K) (pt_i : polarizable_pt K) (sw : swf K) (at_j : efp_atom K) : K :=
  -d.efp_charge_dipole_energy at_j.znuc (grad_dipole_i pt_i)
    (grad_dr pt_i sw ⟨at_j.x, at_j.y, at_j.z⟩)

/-- Pairwise energy `e` of the loop "induced dipole - multipoles". -/
def grad_multipole_e (d : deps K) (pt_i : polarizable_pt K) (sw : swf K)
    (pt_j : multipole_pt K) : K :=
  0 - d.efp_charge_dipole_energy pt_j.monopole (grad_dipole_i pt_i)
        (grad_dr pt_i sw ⟨pt_j.x, pt_j.y, pt_j.z⟩)
    + d.efp_dipole_dipole_energy (grad_dipole_i pt_i) pt_j.dipole
        (grad_dr pt_i sw ⟨pt_j.x, pt_j.y, pt_j.z⟩)
    + d.efp_dipole_quadrupole_energy (grad_dipole_i pt_i) pt_j.quadrupole
        (grad_dr pt_i sw ⟨pt_j.x, pt_j.y, pt_j.z⟩)

/-- Pairwise energy `e` of the loop "induced dipole - induced dipoles". -/
def grad_dipole_e (d : deps K) (pt_i : polarizable_pt K) (sw : swf K)
    (pt_j : polarizable_pt K) : K :=
  d.efp_dipole_dipole_energy
    ⟨0.5 * pt_i.induced_dipole.x, 0.5 * pt_i.induced_dipole.y, 0.5 * pt_i.induced_dipole.z⟩
    pt_j.induced_dipole_conj (grad_dr pt_i sw pt_j.pos)

/-- The three inner loops of one pass of the loop over `j` in `compute_grad_point`: the
state and the variable `energy` when the switching-derivative term is reached. -/
def grad_pair_acc (d : deps K) (frag_idx : Nat) (pt_i : polarizable_pt K)
    (ef : efp K) (j : Nat) : efp K × K :=
  (ef.frags.getD j default).polarizable_pts.foldl
    (grad_dipole_step d ef.opts.pol_damp frag_idx j pt_i
      (d.efp_make_swf ef (ef.frags.getD frag_idx default) (ef.frags.getD j default)))
    ((ef.frags.getD j default).multipole_pts.foldl
      (grad_multipole_step d ef.opts.pol_damp frag_idx j pt_i (grad_dipole_i pt_i)
        (d.efp_make_swf ef (ef.frags.getD frag_idx default) (ef.frags.getD j default)))
      ((ef.frags.getD j default).atoms.foldl
        (grad_nuclei_step d ef.opts.pol_damp frag_idx j pt_i (grad_dipole_i pt_i)
          (d.efp_make_swf ef (ef.frags.getD frag_idx default) (ef.frags.getD j default)))
        (ef, 0)))

/-- Sum of the pairwise energies of a point `pt_i` with the nuclei, multipole points and
polarizable points of the fragment `fr_j`, each multiplied by its damping factor `p1`. -/
def damped_pair_energy (d : deps K) (damp : efp_pol_damp) (pt_i : polarizable_pt K)
    (sw : swf K) (fr_j : frag K) : K :=
  (fr_j.atoms.map (fun at_j =>
      grad_p1 d damp (grad_dr pt_i sw ⟨at_j.x, at_j.y, at_j.z⟩) * grad_nuclei_e d pt_i sw at_j)).sum
  + (fr_j.multipole_pts.map (fun pt_j =>
      grad_p1 d damp (grad_dr pt_i sw ⟨pt_j.x, pt_j.y, pt_j.z⟩)
        * grad_multipole_e d pt_i sw pt_j)).sum
  + (fr_j.polarizable_pts.map (fun pt_j =>
      grad_p1 d damp (grad_dr pt_i sw pt_j.pos) * grad_dipole_e d pt_i sw pt_j)).sum

/-- Sum of the undamped pairwise energies `e` of a point `pt_i` with the nuclei,
multipole points and polarizable points of the fragment `fr_j`: the energy of the
specification's switching-derivative term. -/
def undamped_pair_energy (d : deps K) (pt_i : polarizable_pt K) (sw : swf K)
    (fr_j : frag K) : K :=
  (fr_j.atoms.map (fun at_j => grad_nuclei_e d pt_i sw at_j)).sum
  + (fr_j.multipole_pts.map (fun pt_j => grad_multipole_e d pt_i sw pt_j)).sum
  + (fr_j.polarizable_pts.map (fun pt_j => grad_dipole_e d pt_i sw pt_j)).sum

/-- The induced dipole - induced dipole term as the specification words it: the body of
the loop with the averaged dipole `0.5 * (induced_dipole + induced_dipole_conj)` of
point `i` in the place of `half_dipole_i`. -/
def grad_dipole_step_averaged (d : deps K) (damp : efp_pol_damp) (frag_idx j : Nat)
    (pt_i : polarizable_pt K) (sw : swf K)
    (acc : efp K × K) (pt_j : polarizable_pt K) : efp K × K :=
  let dr : vec_t K :=
    ⟨pt_j.x - pt_i.x - sw.cell.x, pt_j.y - pt_i.y - sw.cell.y, pt_j.z - pt_i.z - sw.cell.z⟩
  let p1 : K := if damp = EFP_POL_DAMP_TT then get_pol_damp_tt d (vec_len d dr) else 1
  let p2 : K := if damp = EFP_POL_DAMP_TT then get_pol_damp_tt_grad d (vec_len d dr) else 0
  let e := d.efp_dipole_dipole_energy (grad_dipole_i pt_i) pt_j.induced_dipole_conj dr
  let g := d.efp_dipole_dipole_grad (grad_dipole_i pt_i) pt_j.induced_dipole_conj dr
  let force := vec_scale g.1 p1
  let add_i := vec_scale g.2.1 p1
  let add_j := vec_scale (vec_negate g.2.2) p1
  let force : vec_t K :=
    ⟨force.x + p2 * e * dr.x, force.y + p2 * e * dr.y, force.z + p2 * e * dr.z⟩
  (grad_accumulate d acc.1 frag_idx j pt_i.pos pt_j.pos
    (vec_scale force sw.swf) (vec_scale add_i sw.swf) (vec_scale add_j sw.swf) sw,
   acc.2 + p1 * e)

/-- External functions of the demonstration systems with non-zero pair energies, a
switching value of one half and a switching gradient along `x`. -/
def demo_deps_switch : deps ℚ :=
  { demo_deps_forces with
    efp_make_swf := fun _ _ _ => ⟨1 / 2, ⟨1, 0, 0⟩, vec_zero, vec_zero⟩
    efp_dipole_dipole_energy := fun a b _ => vec_dot a b
    efp_dipole_dipole_grad := fun a b _ => (a, b, vec_zero) }

/-- The two-fragment system `demo_efp` with the damping mode switched on. -/
def demo_efp_damped : efp ℚ :=
  { demo_efp 2 none with opts := ⟨2, EFP_POL_DAMP_TT⟩ }

/-- Point `j` of fragment `i`. -/
def point_at (ef : efp K) (i j : Nat) : polarizable_pt K :=
  (ef.frags.getD i default).polarizable_pts.getD j default

/-- Index `polarizable_offset + j` of point `j` of fragment `i` in the arrays over all
polarizable points. -/
def point_index (ef : efp K) (i j : Nat) : Nat :=
  (ef.frags.getD i default).polarizable_offset + j

/-- The fragments' `polarizable_offset` give different points different array indices,
as the running count of the points of the preceding fragments does. -/
def offsets_distinct (ef : efp K) : Prop :=
  ∀ i i2 j j2 : Nat, i < ef.frags.length → i2 < ef.frags.length →
    j < (ef.frags.getD i default).polarizable_pts.length →
    j2 < (ef.frags.getD i2 default).polarizable_pts.length →
    point_index ef i j = point_index ef i2 j2 → i = i2 ∧ j = j2

/-- Simultaneous update of the specification for the induced dipole of point `j` of
fragment `i`: the tensor applied to the induced-dipole field of the dipoles held in `ef`
plus both static fields of the point. -/
def jacobi_dipole (d : deps K) (ef : efp K) (i j : Nat) : vec_t K :=
  mat_vec (point_at ef i j).tensor
    ⟨(get_induced_dipole_field d ef i (point_at ef i j)).1.x
        + ((point_at ef i j).elec_field.x + (point_at ef i j).elec_field_wf.x),
     (get_induced_dipole_field d ef i (point_at ef i j)).1.y
        + ((point_at ef i j).elec_field.y + (point_at ef i j).elec_field_wf.y),
     (get_induced_dipole_field d ef i (point_at ef i j)).1.z
        + ((point_at ef i j).elec_field.z + (point_at ef i j).elec_field_wf.z)⟩

/-- Simultaneous update of the specification for the conjugate dipole: the transposed
tensor applied to the field of the conjugate dipoles held in `ef` plus both static
fields of the point. -/
def jacobi_dipole_conj (d : deps K) (ef : efp K) (i j : Nat) : vec_t K :=
  mat_trans_vec (point_at ef i j).tensor
    ⟨(get_induced_dipole_field d ef i (point_at ef i j)).2.x
        + ((point_at ef i j).elec_field.x + (point_at ef i j).elec_field_wf.x),
     (get_induced_dipole_field d ef i (point_at ef i j)).2.y
        + ((point_at ef i j).elec_field.y + (point_at ef i j).elec_field_wf.y),
     (get_induced_dipole_field d ef i (point_at ef i j)).2.z
        + ((point_at ef i j).elec_field.z + (point_at ef i j).elec_field_wf.z)⟩

/-- First loop nest of `pol_scf_iter` with the fragments processed in the order `order`
instead of the order of the `for` loop. -/
def pol_scf_new_dipoles_in (d : deps K) (ef : efp K) (order : List Nat) :
    (Nat → vec_t K) × (Nat → vec_t K) :=
  order.foldl (fun arrs i =>
    let frag := ef.frags.getD i default
    (List.range frag.polarizable_pts.length).foldl (fun arrs j =>
      let pt := frag.polarizable_pts.getD j default
      let fields := get_induced_dipole_field d ef i pt
      let field : vec_t K :=
        ⟨fields.1.x + (pt.elec_field.x + pt.elec_field_wf.x),
         fields.1.y + (pt.elec_field.y + pt.elec_field_wf.y),
         fields.1.z + (pt.elec_field.z + pt.elec_field_wf.z)⟩
      let field_conj : vec_t K :=
        ⟨fields.2.x + (pt.elec_field.x + pt.elec_field_wf.x),
         fields.2.y + (pt.elec_field.y + pt.elec_field_wf.y),
         fields.2.z + (pt.elec_field.z + pt.elec_field_wf.z)⟩
      (Function.update arrs.1 (frag.polarizable_offset + j) (mat_vec pt.tensor field),
       Function.update arrs.2 (frag.polarizable_offset + j)
         (mat_trans_vec pt.tensor field_conj))) arrs)
    (fun _ => vec_zero, fun _ => vec_zero)

/-- State with the induced and the conjugate dipole of every point exchanged. -/
def swap_dipoles (ef : efp K) : efp K :=
  { ef with frags := ef.frags.map (fun frag =>
      { frag with polarizable_pts := frag.polarizable_pts.map (fun pt =>
          { pt with induced_dipole := pt.induced_dipole_conj,
                    induced_dipole_conj := pt.induced_dipole }) }) }

/-- Symmetric 3x3 tensor. -/
def mat_symmetric (m : mat_t K) : Prop :=
  m.xy = m.yx ∧ m.xz = m.zx ∧ m.yz = m.zy

/-- Polarizability tensors of all points, fragment by fragment. -/
def all_tensors (ef : efp K) : List (List (mat_t K)) :=
  ef.frags.map (fun fr => fr.polarizable_pts.map (fun pt => pt.tensor))

/-- Every polarizability tensor of the system is symmetric. -/
def tensors_symmetric (ef : efp K) : Prop :=
  ∀ l ∈ all_tensors ef, ∀ m ∈ l, mat_symmetric m

/-- At every polarizable point the conjugate dipole equals the induced dipole. -/
def conj_eq_induced (ef : efp K) : Prop :=
  ∀ fr ∈ ef.frags, ∀ pt ∈ fr.polarizable_pts, pt.induced_dipole_conj = pt.induced_dipole

/-- No polarizable point receives an induced-dipole field during the solve: in the
state before each sweep the field of the other fragments' dipoles vanishes at every
point. -/
def no_induced_field (d : deps K) (ef : efp K) : Prop :=
  ∀ n i j : Nat, i < (scf_state d (scf_start d ef) n).frags.length →
    j < ((scf_state d (scf_start d ef) n).frags.getD i default).polarizable_pts.length →
    get_induced_dipole_field d (scf_state d (scf_start d ef) n) i
      (point_at (scf_state d (scf_start d ef) n) i j) = (vec_zero, vec_zero)

/-- State in which the induced dipole of every point is its tensor applied to its static
field `elec_field`, and the conjugate dipole the transposed tensor applied to it. -/
def static_response (s : efp K) : efp K :=
  { s with frags := s.frags.map (fun frag =>
      { frag with polarizable_pts := frag.polarizable_pts.map (fun pt =>
          { pt with induced_dipole := mat_vec pt.tensor pt.elec_field,
                    induced_dipole_conj := mat_trans_vec pt.tensor pt.elec_field }) }) }

/-- Every point holds the response of its tensor to its static field. -/
def is_static_response (s : efp K) : Prop :=
  ∀ fr ∈ s.frags, ∀ pt ∈ fr.polarizable_pts,
    pt.induced_dipole = mat_vec pt.tensor pt.elec_field ∧
    pt.induced_dipole_conj = mat_trans_vec pt.tensor pt.elec_field

/-- Sum over all polarizable points of `elec_field · (tensor * elec_field)`. -/
def static_energy_sum (s : efp K) : K :=
  (s.frags.map (fun fr => (fr.polarizable_pts.map (fun pt =>
    vec_dot pt.elec_field (mat_vec pt.tensor pt.elec_field))).sum)).sum

/-- Positive semidefinite tensor. -/
def mat_psd (m : mat_t K) : Prop :=
  ∀ v : vec_t K, 0 ≤ vec_dot v (mat_vec m v)

/-- Positive definite tensor. -/
def mat_pd (m : mat_t K) : Prop :=
  ∀ v : vec_t K, v ≠ vec_zero → 0 < vec_dot v (mat_vec m v)

/-- Every polarizability tensor of the system is positive semidefinite. -/
def tensors_psd (ef : efp K) : Prop :=
  ∀ l ∈ all_tensors ef, ∀ m ∈ l, mat_psd m

/-- Every polarizability tensor of the system is positive definite. -/
def tensors_pd (ef : efp K) : Prop :=
  ∀ l ∈ all_tensors ef, ∀ m ∈ l, mat_pd m

/-- Distance-based switching data for the demonstration systems: two fragments whose
reference points are more than 10 apart (squared distance above 100) have switching
value 0 and switching gradient 0, nearer ones switching value 1. -/
def demo_make_swf (fr_i fr_j : frag ℚ) : swf ℚ :=
  if (fr_j.x - fr_i.x) * (fr_j.x - fr_i.x) + (fr_j.y - fr_i.y) * (fr_j.y - fr_i.y)
      + (fr_j.z - fr_i.z) * (fr_j.z - fr_i.z) > 100 then
    ⟨0, vec_zero, ⟨fr_j.x - fr_i.x, fr_j.y - fr_i.y, fr_j.z - fr_i.z⟩, vec_zero⟩
  else ⟨1, vec_zero, ⟨fr_j.x - fr_i.x, fr_j.y - fr_i.y, fr_j.z - fr_i.z⟩, vec_zero⟩

/-- External functions of the demonstration systems with the distance-based switching
`demo_make_swf` and the pair gradients and accumulation helpers of `demo_deps_forces`. -/
def demo_deps_cutoff : deps ℚ :=
  { demo_deps_forces with efp_make_swf := fun _ fr_i fr_j => demo_make_swf fr_i fr_j }

/-- Two fragments 1000 apart, each with a unit nuclear charge at its reference point;
`pts0` and `pts1` are their polarizable points, counted in `n_polarizable_pts`. -/
def demo_far (pts0 pts1 : List (polarizable_pt ℚ)) : efp ℚ :=
  { frags :=
      [ { x := 0, y := 0, z := 0, atoms := [⟨0, 0, 0, 1⟩], multipole_pts := [],
          polarizable_pts := pts0, polarizable_offset := 0,
          force := ⟨1, 2, 3⟩, torque := ⟨4, 5, 6⟩ },
        { x := 1000, y := 0, z := 0, atoms := [⟨1000, 0, 0, 1⟩], multipole_pts := [],
          polarizable_pts := pts1, polarizable_offset := pts0.length,
          force := ⟨7, 8, 9⟩, torque := vec_zero } ],
    n_polarizable_pts := pts0.length + pts1.length,
    point_charges := [],
    opts := ⟨2, EFP_POL_DAMP_OFF⟩,
    do_gradient := true,
    get_electron_density_field := none,
    energy := ⟨7⟩,
    stress := mat_zero,
    mpi_offset := fun rank => if rank = 0 then 0 else 2 }

/-! ## Properties of the switching function -/

theorem start_lt_cutoff {cutoff : K} (hc : 0 < cutoff) : 0.8 * cutoff < cutoff := by
  norm_num
  linarith

theorem window_width_pos {cutoff : K} (hc : 0 < cutoff) :
    0 < cutoff ^ 2 - (0.8 * cutoff) ^ 2 := by
  have h : cutoff ^ 2 - (0.8 * cutoff) ^ 2 = 9 / 25 * (cutoff * cutoff) := by
    norm_num
    ring
  rw [h]
  positivity

theorem get_swf_below {r cutoff : K} (h : r < 0.8 * cutoff) : get_swf r cutoff = 1 := by
  simp [get_swf, h]

theorem get_dswf_below {r cutoff : K} (h : r < 0.8 * cutoff) : get_dswf r cutoff = 0 := by
  simp [get_dswf, h]

theorem get_swf_above {r cutoff : K} (hc : 0 < cutoff) (h : cutoff < r) :
    get_swf r cutoff = 0 := by
  have h1 : ¬ r < 0.8 * cutoff := not_lt.mpr ((start_lt_cutoff hc).trans h).le
  simp [get_swf, h, h1]

theorem get_dswf_above {r cutoff : K} (h : cutoff < r) : get_dswf r cutoff = 0 := by
  simp [get_dswf, h]

theorem get_swf_window {r cutoff : K} (h1 : 0.8 * cutoff ≤ r) (h2 : r ≤ cutoff) :
    get_swf r cutoff = 1 - 10 * swfD r cutoff ^ 3 + 15 * swfD r cutoff ^ 4
      - 6 * swfD r cutoff ^ 5 := by
  have e1 : ¬ r < 0.8 * cutoff := not_lt.mpr h1
  have e2 : ¬ r > cutoff := not_lt.mpr h2
  simp only [get_swf, swfD, if_neg e1, if_neg e2]
  ring

theorem get_dswf_window {r cutoff : K} (h1 : 0.8 * cutoff ≤ r) (h2 : r ≤ cutoff) :
    get_dswf r cutoff = -60 * swfD r cutoff ^ 2 * (1 - swfD r cutoff) ^ 2
      / (cutoff ^ 2 - (0.8 * cutoff) ^ 2) := by
  have e : ¬ (r < 0.8 * cutoff ∨ r > cutoff) := by
    rintro (h | h)
    · exact absurd h (not_lt.mpr h1)
    · exact absurd h (not_lt.mpr h2)
  simp only [get_dswf, swfD, if_neg e]
  ring

theorem swfD_start (cutoff : K) : swfD (0.8 * cutoff) cutoff = 0 := by
  simp [swfD]

theorem swfD_cutoff {cutoff : K} (hc : 0 < cutoff) : swfD cutoff cutoff = 1 :=
  div_self (ne_of_gt (window_width_pos hc))

theorem swfD_mem {r cutoff : K} (hc : 0 < cutoff) (h1 : 0.8 * cutoff ≤ r) (h2 : r ≤ cutoff) :
    0 ≤ swfD r cutoff ∧ swfD r cutoff ≤ 1 := by
  have hw := window_width_pos hc
  have hs : (0 : K) ≤ 0.8 * cutoff := by positivity
  have hr : 0 ≤ r := le_trans hs h1
  unfold swfD
  constructor
  · apply div_nonneg _ hw.le
    nlinarith
  · rw [div_le_one hw]
    nlinarith

theorem quintic_mem_unit {D : K} (d0 : 0 ≤ D) (d1 : D ≤ 1) :
    0 ≤ 1 - 10 * D ^ 3 + 15 * D ^ 4 - 6 * D ^ 5 ∧
      1 - 10 * D ^ 3 + 15 * D ^ 4 - 6 * D ^ 5 ≤ 1 := by
  have e1 : 1 - 10 * D ^ 3 + 15 * D ^ 4 - 6 * D ^ 5 = (1 - D) ^ 3 * (6 * D ^ 2 + 3 * D + 1) := by
    ring
  have e2 : 1 - (1 - 10 * D ^ 3 + 15 * D ^ 4 - 6 * D ^ 5)
      = D ^ 3 * (6 * (1 - D) ^ 2 + 3 * (1 - D) + 1) := by
    ring
  have hD : 0 ≤ 1 - D := by linarith
  constructor
  · rw [e1]
    positivity
  · rw [← sub_nonneg, e2]
    positivity

theorem get_swf_eq_glue3 (cutoff : K) :
    (fun r => get_swf r cutoff) = glue3 (0.8 * cutoff) cutoff 1 0 (swfPoly cutoff) := by
  funext r
  unfold glue3
  by_cases h1 : r < 0.8 * cutoff
  · simp [get_swf, h1]
  by_cases h2 : r > cutoff
  · simp [get_swf, h1, h2]
  rw [if_neg h1, if_neg h2, get_swf_window (not_lt.mp h1) (not_lt.mp h2), swfPoly]

/-- A function that agrees with `g` to the left of `x0` and with `h` to the right, where
`g` and `h` have the same derivative at `x0`, has that derivative at `x0`. -/
theorem hasDerivAt_of_two_sided {f g h : ℝ → ℝ} {a b x0 d : ℝ} (ha : a < x0) (hb : x0 < b)
    (hg : HasDerivAt g d x0) (hh : HasDerivAt h d x0)
    (hl : ∀ x, a < x → x ≤ x0 → f x = g x) (hr : ∀ x, x0 ≤ x → x < b → f x = h x) :
    HasDerivAt f d x0 := by
  have h1 : HasDerivWithinAt f d (Set.Ioc a x0) x0 :=
    hg.hasDerivWithinAt.congr (fun x hx => hl x hx.1 hx.2) (hl x0 ha le_rfl)
  have h2 : HasDerivWithinAt f d (Set.Ico x0 b) x0 :=
    hh.hasDerivWithinAt.congr (fun x hx => hr x hx.1 hx.2) (hr x0 le_rfl hb)
  have h3 := h1.union h2
  rw [Set.Ioc_union_Ico_eq_Ioo ha hb] at h3
  exact h3.hasDerivAt (Ioo_mem_nhds ha hb)

/-- Gluing `P` to constants it meets with zero slope gives a differentiable function whose
derivative is the gluing of the derivative of `P` to zero. -/
theorem hasDerivAt_glue3 {P P1 : ℝ → ℝ} {s c A B : ℝ} (hsc : s < c)
    (hP : ∀ x, HasDerivAt P (P1 x) x) (hs : P s = A) (hc : P c = B)
    (hs1 : P1 s = 0) (hc1 : P1 c = 0) (x : ℝ) :
    HasDerivAt (glue3 s c A B P) (glue3 s c 0 0 P1 x) x := by
  rcases lt_trichotomy x s with h | h | h
  · have e : glue3 s c 0 0 P1 x = 0 := by simp [glue3, h]
    rw [e]
    refine (hasDerivAt_const x A).congr_of_eventuallyEq ?_
    filter_upwards [Iio_mem_nhds h] with y hy
    simp [glue3, Set.mem_Iio.mp hy]
  · subst h
    have e : glue3 x c 0 0 P1 x = 0 := by simp [glue3, hsc.le, hs1]
    rw [e]
    have hPx := hP x
    rw [hs1] at hPx
    refine hasDerivAt_of_two_sided (sub_one_lt x) hsc (hasDerivAt_const x A) hPx ?_ ?_
    · intro y _ hy
      rcases lt_or_eq_of_le hy with h | h
      · simp [glue3, h]
      · subst h
        simp [glue3, hsc.le, hs]
    · intro y hy1 hy2
      simp [glue3, not_lt.mpr hy1, hy2.le]
  rcases lt_trichotomy x c with h' | h' | h'
  · have e : glue3 s c 0 0 P1 x = P1 x := by simp [glue3, h.le, h'.le, not_lt.mpr h.le]
    rw [e]
    refine (hP x).congr_of_eventuallyEq ?_
    filter_upwards [Ioo_mem_nhds h h'] with y hy
    simp [glue3, not_lt.mpr hy.1.le, hy.2.le]
  · subst h'
    have e : glue3 s x 0 0 P1 x = 0 := by simp [glue3, not_lt.mpr h.le, hc1]
    rw [e]
    have hPx := hP x
    rw [hc1] at hPx
    refine hasDerivAt_of_two_sided h (lt_add_one x) hPx (hasDerivAt_const x B) ?_ ?_
    · intro y hy1 hy2
      simp [glue3, not_lt.mpr hy1.le, hy2]
    · intro y hy1 _
      rcases lt_or_eq_of_le hy1 with h1 | h1
      · simp [glue3, not_lt.mpr (h.trans h1).le, h1]
      · subst h1
        simp [glue3, not_lt.mpr h.le, hc]
  · have e : glue3 s c 0 0 P1 x = 0 := by simp [glue3, h']
    rw [e]
    refine (hasDerivAt_const x B).congr_of_eventuallyEq ?_
    filter_upwards [Ioi_mem_nhds h'] with y hy
    have hy' : c < y := hy
    simp [glue3, not_lt.mpr ((hsc.trans hy').le), hy']

theorem continuous_glue3 {P : ℝ → ℝ} {s c A B : ℝ} (hsc : s < c) (hP : Continuous P)
    (hs : P s = A) (hc : P c = B) : Continuous (glue3 s c A B P) := by
  have e : glue3 s c A B P = fun x => if s ≤ x then (if x ≤ c then P x else B) else A := by
    funext x
    unfold glue3
    by_cases h1 : x < s
    · simp [h1, not_le.mpr h1]
    · by_cases h2 : x > c
      · simp [h1, h2, not_lt.mp h1, not_le.mpr h2]
      · simp [h1, h2, not_lt.mp h1, not_lt.mp h2]
  rw [e]
  refine Continuous.if_le ?_ continuous_const continuous_const continuous_id ?_
  · exact Continuous.if_le hP continuous_const continuous_id continuous_const
      (fun x hx => by
        have hx' : x = c := hx
        rw [hx', hc])
  · intro x hx
    have hx' : s = x := hx
    subst hx'
    simp [hsc.le, hs]

theorem hasDerivAt_swfD (cutoff x : ℝ) :
    HasDerivAt (fun r => swfD r cutoff) (2 * x / (cutoff ^ 2 - (0.8 * cutoff) ^ 2)) x := by
  unfold swfD
  have h := (((hasDerivAt_id x).pow 2).sub_const ((0.8 * cutoff) ^ 2)).div_const
    (cutoff ^ 2 - (0.8 * cutoff) ^ 2)
  convert h using 1
  simp

theorem hasDerivAt_swfPoly (cutoff x : ℝ) :
    HasDerivAt (swfPoly cutoff) (swfPoly1 cutoff x) x := by
  have hD := hasDerivAt_swfD cutoff x
  have h := ((((hD.pow 3).const_mul 10).const_sub 1).add ((hD.pow 4).const_mul 15)).sub
    ((hD.pow 5).const_mul 6)
  convert h using 1
  simp only [swfPoly1]
  ring

theorem hasDerivAt_swfPoly1 (cutoff x : ℝ) :
    HasDerivAt (swfPoly1 cutoff) (swfPoly2 cutoff x) x := by
  have hD := hasDerivAt_swfD cutoff x
  have h := (((((hD.pow 2).const_mul (-60)).mul ((hD.const_sub 1).pow 2)).div_const
    (cutoff ^ 2 - (0.8 * cutoff) ^ 2))).mul (hasDerivAt_id x)
  convert h using 1
  simp only [swfPoly2, id]
  ring

/-- First derivative of `get_swf` on the whole line. -/
theorem hasDerivAt_get_swf {cutoff : ℝ} (hc : 0 < cutoff) (x : ℝ) :
    HasDerivAt (fun r => get_swf r cutoff)
      (glue3 (0.8 * cutoff) cutoff 0 0 (swfPoly1 cutoff) x) x := by
  rw [get_swf_eq_glue3]
  refine hasDerivAt_glue3 (start_lt_cutoff hc) (hasDerivAt_swfPoly cutoff) ?_ ?_ ?_ ?_ x
  · simp [swfPoly, swfD_start]
  · simp [swfPoly, swfD_cutoff hc]; norm_num
  · simp [swfPoly1, swfD_start]
  · simp [swfPoly1, swfD_cutoff hc]

/-- Second derivative of `get_swf` on the whole line. -/
theorem hasDerivAt_get_swf_deriv {cutoff : ℝ} (hc : 0 < cutoff) (x : ℝ) :
    HasDerivAt (glue3 (0.8 * cutoff) cutoff 0 0 (swfPoly1 cutoff))
      (glue3 (0.8 * cutoff) cutoff 0 0 (swfPoly2 cutoff) x) x := by
  refine hasDerivAt_glue3 (start_lt_cutoff hc) (hasDerivAt_swfPoly1 cutoff) ?_ ?_ ?_ ?_ x
  · simp [swfPoly1, swfD_start]
  · simp [swfPoly1, swfD_cutoff hc]
  · simp [swfPoly2, swfD_start]
  · simp [swfPoly2, swfD_cutoff hc]

theorem continuous_swfD (cutoff : ℝ) : Continuous (fun r : ℝ => swfD r cutoff) := by
  unfold swfD
  fun_prop

theorem continuous_swfPoly2 (cutoff : ℝ) : Continuous (swfPoly2 cutoff) := by
  have h := continuous_swfD cutoff
  unfold swfPoly2
  fun_prop

/-- Inside the window the derivative of `get_swf` in `r` is `get_dswf r cutoff * r`: the
value `get_dswf` returns is the derivative divided by `r`. -/
theorem hasDerivAt_get_swf_window {cutoff r : ℝ} (hc : 0 < cutoff) (h1 : 0.8 * cutoff ≤ r)
    (h2 : r ≤ cutoff) :
    HasDerivAt (fun x => get_swf x cutoff) (get_dswf r cutoff * r) r := by
  have h := hasDerivAt_get_swf hc r
  have e : glue3 (0.8 * cutoff) cutoff 0 0 (swfPoly1 cutoff) r = get_dswf r cutoff * r := by
    rw [get_dswf_window h1 h2]
    simp [glue3, not_lt.mpr h1, not_lt.mpr h2, swfPoly1]
  rwa [e] at h

/-- C1: for `cutoff > 0`, below `0.8 * cutoff` the switching value is 1 and `get_dswf`
is 0; above `cutoff` both are 0. -/
theorem swf_outside_window (r cutoff : K) (hc : 0 < cutoff) :
    (r < 0.8 * cutoff → get_swf r cutoff = 1 ∧ get_dswf r cutoff = 0) ∧
    (r > cutoff → get_swf r cutoff = 0 ∧ get_dswf r cutoff = 0) :=
  ⟨fun h => ⟨get_swf_below h, get_dswf_below h⟩,
   fun h => ⟨get_swf_above hc h, get_dswf_above h⟩⟩

theorem swf_outside_window_witness :
    (0 : ℚ) < 10 ∧ ((5 : ℚ) < 0.8 * 10 ∧ get_swf (5 : ℚ) 10 = 1 ∧ get_dswf (5 : ℚ) 10 = 0) ∧
      ((11 : ℚ) > 10 ∧ get_swf (11 : ℚ) 10 = 0 ∧ get_dswf (11 : ℚ) 10 = 0) :=
  ⟨by norm_num,
   ⟨by norm_num, (swf_outside_window (5 : ℚ) 10 (by norm_num)).1 (by norm_num)⟩,
   ⟨by norm_num, (swf_outside_window (11 : ℚ) 10 (by norm_num)).2 (by norm_num)⟩⟩

/-- C2: for `cutoff > 0` the in-window formula meets the outer constants at both ends of
the window: `get_swf` is 1 at `0.8 * cutoff` and 0 at `cutoff`, and `get_dswf` is 0 at
both. -/
theorem swf_window_ends (cutoff : K) (hc : 0 < cutoff) :
    get_swf (0.8 * cutoff) cutoff = 1 ∧ get_swf cutoff cutoff = 0 ∧
    get_dswf (0.8 * cutoff) cutoff = 0 ∧ get_dswf cutoff cutoff = 0 := by
  have hs := (start_lt_cutoff hc).le
  refine ⟨?_, ?_, ?_, ?_⟩
  · rw [get_swf_window le_rfl hs, swfD_start]; norm_num
  · rw [get_swf_window hs le_rfl, swfD_cutoff hc]; norm_num
  · rw [get_dswf_window le_rfl hs, swfD_start]; norm_num
  · rw [get_dswf_window hs le_rfl, swfD_cutoff hc]; norm_num

theorem swf_window_ends_witness :
    (0 : ℚ) < 10 ∧ get_swf (0.8 * 10 : ℚ) 10 = 1 ∧ get_swf (10 : ℚ) 10 = 0 ∧
      get_dswf (0.8 * 10 : ℚ) 10 = 0 ∧ get_dswf (10 : ℚ) 10 = 0 :=
  ⟨by norm_num, swf_window_ends (10 : ℚ) (by norm_num)⟩

/-- C3: for `cutoff > 0` and `0.8 * cutoff ≤ r ≤ cutoff`, `get_swf r cutoff` equals
`1 - 10 D^3 + 15 D^4 - 6 D^5` with `start = 0.8 * cutoff` and
`D = (r^2 - start^2) / (cutoff^2 - start^2)`. -/
theorem swf_window_formula (r cutoff start D : K) (_hc : 0 < cutoff)
    (h1 : 0.8 * cutoff ≤ r) (h2 : r ≤ cutoff) (hstart : start = 0.8 * cutoff)
    (hD : D = (r ^ 2 - start ^ 2) / (cutoff ^ 2 - start ^ 2)) :
    get_swf r cutoff = 1 - 10 * D ^ 3 + 15 * D ^ 4 - 6 * D ^ 5 := by
  subst hstart
  subst hD
  exact get_swf_window h1 h2

theorem swf_window_formula_witness :
    (0 : ℚ) < 10 ∧ (0.8 * 10 : ℚ) ≤ 9 ∧ (9 : ℚ) ≤ 10 ∧
      get_swf (9 : ℚ) 10 = 1 - 10 * (17 / 36 : ℚ) ^ 3 + 15 * (17 / 36) ^ 4 - 6 * (17 / 36) ^ 5 :=
  ⟨by norm_num, by norm_num, by norm_num,
   swf_window_formula (9 : ℚ) 10 8 (17 / 36) (by norm_num) (by norm_num) (by norm_num)
     (by norm_num) (by norm_num)⟩

/-- C4: for `cutoff > 0` and every `r`, `0 ≤ get_swf r cutoff ≤ 1`. -/
theorem swf_unit_interval (r cutoff : K) (hc : 0 < cutoff) :
    0 ≤ get_swf r cutoff ∧ get_swf r cutoff ≤ 1 := by
  rcases lt_or_le r (0.8 * cutoff) with h | h1
  · rw [get_swf_below h]; norm_num
  rcases lt_or_le cutoff r with h | h2
  · rw [get_swf_above hc h]; norm_num
  obtain ⟨d0, d1⟩ := swfD_mem hc h1 h2
  rw [get_swf_window h1 h2]
  exact quintic_mem_unit d0 d1

theorem swf_unit_interval_witness :
    (0 : ℚ) < 10 ∧ 0 ≤ get_swf (9 : ℚ) 10 ∧ get_swf (9 : ℚ) 10 ≤ 1 :=
  ⟨by norm_num, swf_unit_interval (9 : ℚ) 10 (by norm_num)⟩

/-- C5: at `r = 0.9`, `cutoff = 1` (inside the window) the derivative in `r` of
`get_swf` is `get_dswf 0.9 1 * 0.9`, while `get_dswf 0.9 1 = -13041125 / 1259712` is not
zero; so the value `get_dswf` returns is not the derivative of `get_swf` there. -/
theorem get_dswf_not_derivative :
    HasDerivAt (fun r => get_swf r (1 : ℝ)) (get_dswf (9 / 10) 1 * (9 / 10)) (9 / 10) ∧
    get_dswf (9 / 10 : ℝ) 1 = -13041125 / 1259712 ∧
    ¬ HasDerivAt (fun r => get_swf r (1 : ℝ)) (get_dswf (9 / 10) 1) (9 / 10) := by
  have h := @hasDerivAt_get_swf_window 1 (9 / 10) one_pos (by norm_num) (by norm_num)
  have hv : get_dswf (9 / 10 : ℝ) 1 = -13041125 / 1259712 := by
    norm_num [get_dswf]
  refine ⟨h, hv, ?_⟩
  intro h'
  have := h.unique h'
  rw [hv] at this
  norm_num at this

/-- C6: for `cutoff > 0` the function `r ↦ get_swf r cutoff` is twice continuously
differentiable on the whole real line. -/
theorem get_swf_contDiff_two (cutoff : ℝ) (hc : 0 < cutoff) :
    ContDiff ℝ 2 (fun r => get_swf r cutoff) := by
  have hd1 : deriv (fun r => get_swf r cutoff)
      = glue3 (0.8 * cutoff) cutoff 0 0 (swfPoly1 cutoff) :=
    funext fun x => (hasDerivAt_get_swf hc x).deriv
  have hd2 : deriv (glue3 (0.8 * cutoff) cutoff 0 0 (swfPoly1 cutoff))
      = glue3 (0.8 * cutoff) cutoff 0 0 (swfPoly2 cutoff) :=
    funext fun x => (hasDerivAt_get_swf_deriv hc x).deriv
  have hcont : Continuous (glue3 (0.8 * cutoff) cutoff 0 0 (swfPoly2 cutoff)) := by
    refine continuous_glue3 (start_lt_cutoff hc) (continuous_swfPoly2 cutoff) ?_ ?_
    · simp [swfPoly2, swfD_start]
    · simp [swfPoly2, swfD_cutoff hc]
  rw [show (2 : WithTop ℕ∞) = 1 + 1 from rfl, contDiff_succ_iff_deriv]
  refine ⟨fun x => (hasDerivAt_get_swf hc x).differentiableAt, ?_, ?_⟩
  · intro h
    exact absurd h (by decide)
  · rw [hd1, contDiff_one_iff_deriv, hd2]
    exact ⟨fun x => (hasDerivAt_get_swf_deriv hc x).differentiableAt, hcont⟩

theorem get_swf_contDiff_two_witness :
    (0 : ℝ) < 1 ∧ ContDiff ℝ 2 (fun r => get_swf r (1 : ℝ)) :=
  ⟨one_pos, get_swf_contDiff_two 1 one_pos⟩

/-! ## Properties of the polarization solver (`pol.c`) -/

theorem scf_state_succ (d : deps K) (ef : efp K) (n : Nat) :
    scf_state d ef (n + 1) = (pol_scf_iter d (scf_state d ef n)).2 := rfl

theorem scf_state_shift (d : deps K) (ef : efp K) (n : Nat) :
    scf_state d (pol_scf_iter d ef).2 n = scf_state d ef (n + 1) := by
  induction n with
  | zero => rfl
  | succ n ih =>
    show (pol_scf_iter d (scf_state d (pol_scf_iter d ef).2 n)).2 = _
    rw [ih]
    rfl

/-- The loop entered at `iter` on the state after `iter - 1` calls converges at call
`iter + m` if that is the first call from `iter` on whose measure is below tolerance. -/
theorem pol_scf_loop_converges (d : deps K) (ef0 : efp K) (m : Nat) :
    ∀ (n c : Nat), n + 1 + m ≤ POL_SCF_MAX_ITER →
      below_tol (scf_conv d ef0 (n + 1 + m)) POL_SCF_TOL →
      (∀ j, n + 1 ≤ j → j < n + 1 + m → ¬ below_tol (scf_conv d ef0 j) POL_SCF_TOL) →
      pol_scf_loop d (n + 1) c (scf_state d ef0 n)
        = ⟨true, c + m + 1, scf_state d ef0 (n + 1 + m)⟩ := by
  induction m with
  | zero =>
    intro n c hle hconv _
    rw [pol_scf_loop, if_pos (by simpa using hle)]
    have h : below_tol (pol_scf_iter d (scf_state d ef0 n)).1 POL_SCF_TOL := by
      simpa [scf_conv] using hconv
    simp only [h, if_true]
    rfl
  | succ m ih =>
    intro n c hle hconv hnot
    have hle' : n + 1 ≤ POL_SCF_MAX_ITER := by omega
    have hne : ¬ n + 1 = POL_SCF_MAX_ITER := by omega
    have h : ¬ below_tol (pol_scf_iter d (scf_state d ef0 n)).1 POL_SCF_TOL := by
      have := hnot (n + 1) le_rfl (by omega)
      simpa [scf_conv] using this
    rw [pol_scf_loop, if_pos hle']
    simp only [h, hne, if_false]
    have e := ih (n + 1) (c + 1) (by omega) (by
      have : n + 1 + 1 + m = n + 1 + (m + 1) := by omega
      rw [this]; exact hconv) (fun j h1 h2 => hnot j (by omega) (by omega))
    rw [scf_state_succ] at e
    rw [e]
    have e1 : c + 1 + m + 1 = c + (m + 1) + 1 := by omega
    have e2 : n + 1 + 1 + m = n + 1 + (m + 1) := by omega
    rw [e1, e2]

theorem pol_scf_loop_not_converged (d : deps K) (ef0 : efp K) (m : Nat) :
    ∀ (n c : Nat), n + 1 + m = POL_SCF_MAX_ITER →
      (∀ j, n + 1 ≤ j → j ≤ POL_SCF_MAX_ITER → ¬ below_tol (scf_conv d ef0 j) POL_SCF_TOL) →
      pol_scf_loop d (n + 1) c (scf_state d ef0 n)
        = ⟨false, c + m + 1, scf_state d ef0 POL_SCF_MAX_ITER⟩ := by
  induction m with
  | zero =>
    intro n c hle hnot
    have h : ¬ below_tol (pol_scf_iter d (scf_state d ef0 n)).1 POL_SCF_TOL := by
      have := hnot (n + 1) le_rfl (by omega)
      simpa [scf_conv] using this
    have hn : n + 1 = POL_SCF_MAX_ITER := by omega
    rw [pol_scf_loop, if_pos (by omega)]
    simp only [h, hn, if_false, if_true]
    rw [← hn]
    rfl
  | succ m ih =>
    intro n c hle hnot
    have hle' : n + 1 ≤ POL_SCF_MAX_ITER := by omega
    have hne : ¬ n + 1 = POL_SCF_MAX_ITER := by omega
    have h : ¬ below_tol (pol_scf_iter d (scf_state d ef0 n)).1 POL_SCF_TOL := by
      have := hnot (n + 1) le_rfl (by omega)
      simpa [scf_conv] using this
    rw [pol_scf_loop, if_pos hle']
    simp only [h, hne, if_false]
    have e := ih (n + 1) (c + 1) (by omega) (fun j h1 h2 => hnot j (by omega) h2)
    rw [scf_state_succ] at e
    rw [e]
    have e1 : c + 1 + m + 1 = c + (m + 1) + 1 := by omega
    rw [e1]

/-- Whatever the measures are, the loop entered at `iter = n + 1` with `c` calls made
leaves with at most `c + (80 - n)` calls, at least `c + 1` when `n < 80`, and its
state is the state after that many further calls. -/
theorem pol_scf_loop_calls (d : deps K) (m : Nat) :
    ∀ (n c : Nat) (ef : efp K), n + m = POL_SCF_MAX_ITER →
      (pol_scf_loop d (n + 1) c ef).calls ≤ c + m ∧
      (0 < m → c + 1 ≤ (pol_scf_loop d (n + 1) c ef).calls) ∧
      (pol_scf_loop d (n + 1) c ef).state
        = scf_state d ef ((pol_scf_loop d (n + 1) c ef).calls - c) := by
  induction m with
  | zero =>
    intro n c ef h
    have : ¬ n + 1 ≤ POL_SCF_MAX_ITER := by omega
    rw [pol_scf_loop, if_neg this]
    simp [scf_state]
  | succ m ih =>
    intro n c ef h
    have hle : n + 1 ≤ POL_SCF_MAX_ITER := by omega
    rw [pol_scf_loop, if_pos hle]
    by_cases h1 : below_tol (pol_scf_iter d ef).1 POL_SCF_TOL
    · simp only [h1, if_true]
      refine ⟨by omega, fun _ => le_rfl, ?_⟩
      simp [scf_state]
    · simp only [h1, if_false]
      by_cases h2 : n + 1 = POL_SCF_MAX_ITER
      · simp only [h2, if_true]
        refine ⟨by omega, fun _ => le_rfl, ?_⟩
        simp [scf_state]
      · simp only [h2, if_false]
        obtain ⟨a1, a2, a3⟩ := ih (n + 1) (c + 1) (pol_scf_iter d ef).2 (by omega)
        have hm : 0 < m := by omega
        have a2' := a2 hm
        refine ⟨by omega, fun _ => by omega, ?_⟩
        rw [a3, scf_state_shift]
        congr 1
        omega

theorem map_mapIdx_of_forall {α β γ : Type} (g : β → γ) (h : α → γ) (l : List α) :
    ∀ (f : Nat → α → β), (∀ j a, g (f j a) = h a) → (l.mapIdx f).map g = l.map h := by
  induction l with
  | nil => intro f _; simp
  | cons a l ih =>
    intro f hf
    rw [List.mapIdx_cons, List.map_cons, List.map_cons, hf 0 a,
      ih (fun i => f (i + 1)) (fun j a => hf (j + 1) a)]

/-- Rewriting the points of every fragment by functions that keep `pt_core` leaves
`efp_core` as it was. -/
theorem efp_core_map_points (ef : efp K) (F : frag K → List (polarizable_pt K))
    (hF : ∀ fr, (F fr).map pt_core = fr.polarizable_pts.map pt_core) :
    efp_core { ef with frags := ef.frags.map (fun fr => { fr with polarizable_pts := F fr }) }
      = efp_core ef := by
  simp only [efp_core, List.map_map]
  congr 1
  apply List.map_congr_left
  intro fr _
  simp only [Function.comp, frag_core, hF]

theorem efp_core_zero_induced_dipoles (ef : efp K) :
    efp_core (zero_induced_dipoles ef) = efp_core ef := by
  unfold zero_induced_dipoles
  apply efp_core_map_points
  intro fr
  rw [List.map_map]
  rfl

theorem efp_core_pol_scf_iter (d : deps K) (ef : efp K) :
    efp_core (pol_scf_iter d ef).2 = efp_core ef := by
  unfold pol_scf_iter
  apply efp_core_map_points
  intro fr
  apply map_mapIdx_of_forall
  intro j a
  rfl

theorem efp_core_scf_state (d : deps K) (ef : efp K) (n : Nat) :
    efp_core (scf_state d ef n) = efp_core ef := by
  induction n with
  | zero => rfl
  | succ n ih => rw [scf_state, efp_core_pol_scf_iter, ih]

theorem frag_core_store_elec_field_wf (field : List (vec_t K)) (l : List (frag K)) :
    ∀ idx, (store_elec_field_wf field l idx).map frag_core = l.map frag_core := by
  induction l with
  | nil => intro idx; rfl
  | cons fr l ih =>
    intro idx
    rw [store_elec_field_wf, List.map_cons, List.map_cons, ih]
    congr 1
    simp only [frag_core]
    congr 1
    apply map_mapIdx_of_forall
    intro j a
    rfl

theorem efp_core_add_electron_density_field (ef : efp K) :
    efp_core (add_electron_density_field ef).2 = efp_core ef := by
  unfold add_electron_density_field
  split
  · apply efp_core_map_points
    intro fr
    rw [List.map_map]
    rfl
  · dsimp only
    split
    · rfl
    · simp only [efp_core, frag_core_store_elec_field_wf]

theorem efp_core_compute_elec_field (d : deps K) (ef : efp K) :
    efp_core (compute_elec_field d ef).2 = efp_core ef := by
  have h1 : ∀ (elec_field : Nat → vec_t K), efp_core
      ({ ef with frags := ef.frags.map (fun frag =>
        { frag with polarizable_pts := frag.polarizable_pts.mapIdx (fun j pt =>
            { pt with elec_field := elec_field (frag.polarizable_offset + j),
                      elec_field_wf := vec_zero }) }) } : efp K) = efp_core ef := by
    intro elec_field
    apply efp_core_map_points
    intro fr
    apply map_mapIdx_of_forall
    intro j a
    rfl
  unfold compute_elec_field
  dsimp only
  split
  · split
    · rw [efp_core_add_electron_density_field, h1]
    · rw [efp_core_add_electron_density_field, h1]
  · rw [h1]

theorem efp_core_scf_start (d : deps K) (ef : efp K) :
    efp_core (scf_start d ef) = efp_core ef := by
  rw [scf_start, efp_core_zero_induced_dipoles, efp_core_compute_elec_field]

/-- What `efp_core` keeps: if two states have the same core they agree on everything but
the solver-written point fields. -/
theorem of_efp_core_eq {a b : efp K} (h : efp_core a = efp_core b) :
    a.stress = b.stress ∧ a.energy = b.energy ∧ a.opts = b.opts ∧
    a.mpi_offset = b.mpi_offset ∧ a.frags.length = b.frags.length ∧
    a.n_polarizable_pts = b.n_polarizable_pts ∧ a.point_charges = b.point_charges ∧
    a.do_gradient = b.do_gradient ∧
    a.get_electron_density_field = b.get_electron_density_field ∧
    all_forces a = all_forces b := by
  have h1 : (efp_core a).stress = (efp_core b).stress := congrArg efp.stress h
  have h2 : (efp_core a).energy = (efp_core b).energy := congrArg efp.energy h
  have h3 : (efp_core a).opts = (efp_core b).opts := congrArg efp.opts h
  have h4 : (efp_core a).mpi_offset = (efp_core b).mpi_offset := congrArg efp.mpi_offset h
  have h5 : (efp_core a).n_polarizable_pts = (efp_core b).n_polarizable_pts :=
    congrArg efp.n_polarizable_pts h
  have h6 : (efp_core a).point_charges = (efp_core b).point_charges :=
    congrArg efp.point_charges h
  have h7 : (efp_core a).do_gradient = (efp_core b).do_gradient := congrArg efp.do_gradient h
  have h8 : (efp_core a).get_electron_density_field = (efp_core b).get_electron_density_field :=
    congrArg efp.get_electron_density_field h
  refine ⟨h1, h2, h3, h4, ?_, h5, h6, h7, h8, ?_⟩
  · have := congrArg (fun e => e.frags.length) h
    simpa [efp_core] using this
  · have := congrArg (fun e => e.frags.map (fun fr => (fr.force, fr.torque))) h
    simpa [efp_core, all_forces, frag_core, Function.comp] using this

theorem map_getD_range {α : Type} [Inhabited α] (l : List α) :
    (List.range l.length).map (fun i => l.getD i default) = l := by
  apply List.ext_getElem
  · simp
  · intro i h1 h2
    simp [List.getD_eq_getElem?_getD, h2]

/-- A counted loop reading `l[i]` for `i < length l` is a fold over `l`. -/
theorem foldl_range_getD {α β : Type} [Inhabited α] (g : β → α → β) (l : List α) (init : β) :
    (List.range l.length).foldl (fun acc i => g acc (l.getD i default)) init
      = l.foldl g init := by
  have h := List.foldl_map (fun i => l.getD i default) g (List.range l.length) init
  rw [map_getD_range] at h
  exact h.symm

theorem foldl_add_eq_sum {α : Type} (f : α → K) (l : List α) :
    ∀ init : K, l.foldl (fun acc a => acc + f a) init = init + (l.map f).sum := by
  induction l with
  | nil => intro init; simp
  | cons a l ih =>
    intro init
    rw [List.foldl_cons, ih, List.map_cons, List.sum_cons, add_assoc]

theorem index_range_zero (n : Nat) : index_range 0 n = List.range n := by
  simp [index_range, List.range_eq_range']

/-- With the partition of rank 0 covering all fragments, the energy reduction is the
sum of the specification over all polarizable points. -/
theorem pol_energy_sum_eq (ef : efp K) (h0 : ef.mpi_offset 0 = 0)
    (h1 : ef.mpi_offset 1 = ef.frags.length) :
    pol_energy_sum ef = pol_energy_all_points ef := by
  unfold pol_energy_sum pol_energy_all_points
  simp only [h0, h1, zero_add, index_range_zero]
  rw [foldl_range_getD (fun ener (frag : frag K) =>
    (List.range frag.polarizable_pts.length).foldl (fun ener j =>
      ener + (0.5 * vec_dot (frag.polarizable_pts.getD j default).induced_dipole_conj
                (frag.polarizable_pts.getD j default).elec_field_wf -
              0.5 * vec_dot (frag.polarizable_pts.getD j default).induced_dipole
                (frag.polarizable_pts.getD j default).elec_field)) ener) ef.frags 0]
  have inner : ∀ (fr : frag K) (ener : K),
      (List.range fr.polarizable_pts.length).foldl (fun ener j =>
        ener + (0.5 * vec_dot (fr.polarizable_pts.getD j default).induced_dipole_conj
                  (fr.polarizable_pts.getD j default).elec_field_wf -
                0.5 * vec_dot (fr.polarizable_pts.getD j default).induced_dipole
                  (fr.polarizable_pts.getD j default).elec_field)) ener
      = ener + (fr.polarizable_pts.map (fun pt =>
          0.5 * vec_dot pt.induced_dipole_conj pt.elec_field_wf -
            0.5 * vec_dot pt.induced_dipole pt.elec_field)).sum := by
    intro fr ener
    rw [foldl_range_getD (fun ener (pt : polarizable_pt K) =>
      ener + (0.5 * vec_dot pt.induced_dipole_conj pt.elec_field_wf -
              0.5 * vec_dot pt.induced_dipole pt.elec_field)) fr.polarizable_pts ener]
    exact foldl_add_eq_sum _ _ _
  simp only [inner]
  rw [foldl_add_eq_sum (fun fr : frag K => (fr.polarizable_pts.map (fun pt =>
          0.5 * vec_dot pt.induced_dipole_conj pt.elec_field_wf -
            0.5 * vec_dot pt.induced_dipole pt.elec_field)).sum), zero_add]


theorem all_positions_efp_core (ef : efp K) : all_positions (efp_core ef) = all_positions ef := by
  simp only [all_positions, efp_core, List.flatMap_def, List.map_map]
  congr 1
  apply List.map_congr_left
  intro fr _
  simp only [Function.comp, frag_core, List.map_map]
  apply List.map_congr_left
  intro pt _
  rfl

theorem all_positions_of_core_eq {a b : efp K} (h : efp_core a = efp_core b) :
    all_positions a = all_positions b := by
  rw [← all_positions_efp_core a, h, all_positions_efp_core]

theorem all_dipoles_map_points (ef : efp K) (F : frag K → List (polarizable_pt K))
    (hF : ∀ fr, (F fr).map (fun pt => (pt.induced_dipole, pt.induced_dipole_conj))
      = fr.polarizable_pts.map (fun pt => (pt.induced_dipole, pt.induced_dipole_conj))) :
    all_dipoles { ef with frags := ef.frags.map (fun fr => { fr with polarizable_pts := F fr }) }
      = all_dipoles ef := by
  simp only [all_dipoles, List.map_map]
  apply List.map_congr_left
  intro fr _
  simp only [Function.comp, hF]

/-- First part of `compute_elec_field`: the state after the static fields are stored and
`elec_field_wf` is cleared, before the electron-density callback is consulted. -/
theorem compute_elec_field_cases (d : deps K) (ef : efp K) :
    ∃ ef1 : efp K, efp_core ef1 = efp_core ef ∧ all_dipoles ef1 = all_dipoles ef ∧
      compute_elec_field d ef =
        if ef.opts.terms &&& d.EFP_TERM_AI_POL ≠ 0 then
          (if (add_electron_density_field ef1).1 ≠ EFP_RESULT_SUCCESS
            then add_electron_density_field ef1
            else (EFP_RESULT_SUCCESS, (add_electron_density_field ef1).2))
        else (EFP_RESULT_SUCCESS, ef1) := by
  refine ⟨_, ?_, ?_, rfl⟩
  · apply efp_core_map_points
    intro fr
    apply map_mapIdx_of_forall
    intro j a
    rfl
  · apply all_dipoles_map_points
    intro fr
    apply map_mapIdx_of_forall
    intro j a
    rfl

theorem add_electron_density_field_error (ef : efp K)
    (cb : Nat → List (vec_t K) → efp_result × List (vec_t K))
    (hcb : ef.get_electron_density_field = some cb)
    (hne : (cb ef.n_polarizable_pts (all_positions ef)).1 ≠ EFP_RESULT_SUCCESS) :
    add_electron_density_field ef = ((cb ef.n_polarizable_pts (all_positions ef)).1, ef) := by
  unfold add_electron_density_field
  rw [hcb]
  exact if_pos hne

/-- A failing electron-density callback makes `compute_elec_field` return its code with
all dipoles as on entry. -/
theorem compute_elec_field_callback_error (d : deps K) (ef : efp K)
    (cb : Nat → List (vec_t K) → efp_result × List (vec_t K)) (res : efp_result)
    (hai : ef.opts.terms &&& d.EFP_TERM_AI_POL ≠ 0)
    (hcb : ef.get_electron_density_field = some cb)
    (hres : (cb ef.n_polarizable_pts (all_positions ef)).1 = res)
    (hne : res ≠ EFP_RESULT_SUCCESS) :
    (compute_elec_field d ef).1 = res ∧
      all_dipoles (compute_elec_field d ef).2 = all_dipoles ef ∧
      efp_core (compute_elec_field d ef).2 = efp_core ef := by
  obtain ⟨ef1, hcore, hdip, heq⟩ := compute_elec_field_cases d ef
  obtain ⟨-, -, -, -, -, hn, -, -, hcb1, -⟩ := of_efp_core_eq hcore
  have hpos := all_positions_of_core_eq hcore
  have herr : add_electron_density_field ef1 = (res, ef1) := by
    have := add_electron_density_field_error ef1 cb (hcb1.trans hcb)
      (by rw [hn, hpos, hres]; exact hne)
    rw [this, hn, hpos, hres]
  rw [heq, if_pos hai, herr, if_pos hne]
  exact ⟨rfl, hdip, hcore⟩

theorem efp_compute_pol_energy_field_error (d : deps K) (ef : efp K) (energy : K)
    (h : (compute_elec_field d ef).1 ≠ EFP_RESULT_SUCCESS) :
    efp_compute_pol_energy d ef energy
      = ⟨(compute_elec_field d ef).1, (compute_elec_field d ef).2, energy, 0⟩ := by
  unfold efp_compute_pol_energy
  dsimp only
  rw [if_pos h]

theorem efp_compute_pol_energy_field_ok (d : deps K) (ef : efp K) (energy : K)
    (h : (compute_elec_field d ef).1 = EFP_RESULT_SUCCESS) :
    efp_compute_pol_energy d ef energy
      = if (pol_scf_loop d 1 0 (scf_start d ef)).converged = false then
          ⟨EFP_RESULT_POL_NOT_CONVERGED, (pol_scf_loop d 1 0 (scf_start d ef)).state, energy,
            (pol_scf_loop d 1 0 (scf_start d ef)).calls⟩
        else
          ⟨EFP_RESULT_SUCCESS, (pol_scf_loop d 1 0 (scf_start d ef)).state,
            pol_energy_sum (pol_scf_loop d 1 0 (scf_start d ef)).state,
            (pol_scf_loop d 1 0 (scf_start d ef)).calls⟩ := by
  unfold efp_compute_pol_energy
  dsimp only
  rw [if_neg (not_not.mpr h)]
  rfl

/-- The energy routine writes point fields only: everything else in the state is as on
entry, whatever it returns. -/
theorem efp_core_efp_compute_pol_energy (d : deps K) (ef : efp K) (energy : K) :
    efp_core (efp_compute_pol_energy d ef energy).efp = efp_core ef := by
  by_cases h : (compute_elec_field d ef).1 = EFP_RESULT_SUCCESS
  · have hs := (pol_scf_loop_calls d POL_SCF_MAX_ITER 0 0 (scf_start d ef) (by simp)).2.2
    rw [efp_compute_pol_energy_field_ok d ef energy h]
    split
    · dsimp only
      rw [hs, efp_core_scf_state, efp_core_scf_start]
    · dsimp only
      rw [hs, efp_core_scf_state, efp_core_scf_start]
  · rw [efp_compute_pol_energy_field_error d ef energy h]
    exact efp_core_compute_elec_field d ef

/-- Return code, state and call count of the energy routine do not depend on the
content of `*energy` on entry. -/
theorem efp_compute_pol_energy_indep (d : deps K) (ef : efp K) (e1 e2 : K) :
    (efp_compute_pol_energy d ef e1).res = (efp_compute_pol_energy d ef e2).res ∧
    (efp_compute_pol_energy d ef e1).efp = (efp_compute_pol_energy d ef e2).efp ∧
    (efp_compute_pol_energy d ef e1).scf_calls = (efp_compute_pol_energy d ef e2).scf_calls := by
  by_cases h : (compute_elec_field d ef).1 = EFP_RESULT_SUCCESS
  · rw [efp_compute_pol_energy_field_ok d ef e1 h, efp_compute_pol_energy_field_ok d ef e2 h]
    split <;> exact ⟨rfl, rfl, rfl⟩
  · rw [efp_compute_pol_energy_field_error d ef e1 h,
      efp_compute_pol_energy_field_error d ef e2 h]
    exact ⟨rfl, rfl, rfl⟩

theorem efp_compute_pol_energy_error_energy (d : deps K) (ef : efp K) (energy : K)
    (hres : (efp_compute_pol_energy d ef energy).res ≠ EFP_RESULT_SUCCESS) :
    (efp_compute_pol_energy d ef energy).energy = energy := by
  by_cases h : (compute_elec_field d ef).1 = EFP_RESULT_SUCCESS
  · rw [efp_compute_pol_energy_field_ok d ef energy h] at hres ⊢
    split
    · rfl
    · rename_i hc
      rw [if_neg hc] at hres
      exact absurd rfl hres
  · rw [efp_compute_pol_energy_field_error d ef energy h]


/-- C7: when the static field computation succeeds, `efp_compute_pol_energy` makes at
most 80 calls of `pol_scf_iter` and leaves the state after its last call; if `k` is the
least iteration in 1..80 whose measure is below `POL_SCF_TOL` it makes exactly `k` calls
and returns success (also for `k = 80`); if no iteration in 1..80 has a measure below
`POL_SCF_TOL` it makes exactly 80 calls and returns `EFP_RESULT_POL_NOT_CONVERGED`. -/
theorem pol_scf_iteration_count (d : deps K) (ef : efp K) (energy : K)
    (hfield : (compute_elec_field d ef).1 = EFP_RESULT_SUCCESS) :
    (efp_compute_pol_energy d ef energy).scf_calls ≤ 80 ∧
    (efp_compute_pol_energy d ef energy).efp
      = scf_state d (scf_start d ef) (efp_compute_pol_energy d ef energy).scf_calls ∧
    (∀ k, 1 ≤ k → k ≤ 80 → below_tol (scf_conv d (scf_start d ef) k) POL_SCF_TOL →
      (∀ j, 1 ≤ j → j < k → ¬ below_tol (scf_conv d (scf_start d ef) j) POL_SCF_TOL) →
      (efp_compute_pol_energy d ef energy).scf_calls = k ∧
        (efp_compute_pol_energy d ef energy).res = EFP_RESULT_SUCCESS) ∧
    ((∀ j, 1 ≤ j → j ≤ 80 → ¬ below_tol (scf_conv d (scf_start d ef) j) POL_SCF_TOL) →
      (efp_compute_pol_energy d ef energy).scf_calls = 80 ∧
        (efp_compute_pol_energy d ef energy).res = EFP_RESULT_POL_NOT_CONVERGED) := by
  have hout := efp_compute_pol_energy_field_ok d ef energy hfield
  obtain ⟨hle, -, hst⟩ := pol_scf_loop_calls d POL_SCF_MAX_ITER 0 0 (scf_start d ef) (by simp)
  have hcalls : (efp_compute_pol_energy d ef energy).scf_calls
      = (pol_scf_loop d 1 0 (scf_start d ef)).calls := by
    rw [hout]; split <;> rfl
  have hefp : (efp_compute_pol_energy d ef energy).efp
      = (pol_scf_loop d 1 0 (scf_start d ef)).state := by
    rw [hout]; split <;> rfl
  refine ⟨?_, ?_, ?_, ?_⟩
  · rw [hcalls]
    simpa [POL_SCF_MAX_ITER] using hle
  · rw [hefp, hcalls, hst]
    rfl
  · intro k hk1 hk80 hconv hleast
    obtain ⟨m, rfl⟩ : ∃ m, k = 0 + 1 + m := ⟨k - 1, by omega⟩
    have e := pol_scf_loop_converges d (scf_start d ef) m 0 0
      (by simpa [POL_SCF_MAX_ITER] using hk80) hconv
      (fun j h1 h2 => hleast j h1 h2)
    have e' : pol_scf_loop d 1 0 (scf_start d ef)
        = ⟨true, 0 + m + 1, scf_state d (scf_start d ef) (0 + 1 + m)⟩ := e
    rw [hout, e']
    simp
    omega
  · intro hnone
    have e := pol_scf_loop_not_converged d (scf_start d ef) 79 0 0 (by simp [POL_SCF_MAX_ITER])
      (fun j h1 h2 => hnone j h1 (by simpa [POL_SCF_MAX_ITER] using h2))
    have e' : pol_scf_loop d 1 0 (scf_start d ef)
        = ⟨false, 0 + 79 + 1, scf_state d (scf_start d ef) POL_SCF_MAX_ITER⟩ := e
    rw [hout, e']
    simp

theorem pol_scf_iteration_count_witness :
    (compute_elec_field demo_deps (demo_efp 2 none)).1 = EFP_RESULT_SUCCESS ∧
    ¬ below_tol (scf_conv demo_deps (scf_start demo_deps (demo_efp 2 none)) 1) POL_SCF_TOL ∧
    below_tol (scf_conv demo_deps (scf_start demo_deps (demo_efp 2 none)) 2) POL_SCF_TOL ∧
    (efp_compute_pol_energy demo_deps (demo_efp 2 none) 0).scf_calls = 2 ∧
    (efp_compute_pol_energy demo_deps (demo_efp 2 none) 0).res = EFP_RESULT_SUCCESS :=
  ⟨by decide!, by decide!, by decide!,
    (pol_scf_iteration_count demo_deps (demo_efp 2 none) 0 (by decide!)).2.2.1 2
      (by decide) (by decide) (by decide!)
      (fun j h1 h2 => by
        have hj : j = 1 := by omega
        subst hj
        decide!)⟩

/-- C8: with the partition of rank 0 covering all fragments, whenever
`efp_compute_pol_energy` returns success the energy it writes is the sum over all
polarizable points of `0.5 * (induced_dipole_conj · elec_field_wf) -
0.5 * (induced_dipole · elec_field)`, taken on the state it leaves, which is the state
after its last (at least one) call of `pol_scf_iter`. -/
theorem pol_energy_on_success (d : deps K) (ef : efp K) (energy : K)
    (h0 : ef.mpi_offset 0 = 0) (h1 : ef.mpi_offset 1 = ef.frags.length)
    (hres : (efp_compute_pol_energy d ef energy).res = EFP_RESULT_SUCCESS) :
    (efp_compute_pol_energy d ef energy).energy
      = pol_energy_all_points (efp_compute_pol_energy d ef energy).efp ∧
    1 ≤ (efp_compute_pol_energy d ef energy).scf_calls ∧
    (efp_compute_pol_energy d ef energy).efp
      = scf_state d (scf_start d ef) (efp_compute_pol_energy d ef energy).scf_calls := by
  have hfield : (compute_elec_field d ef).1 = EFP_RESULT_SUCCESS := by
    by_contra h
    rw [efp_compute_pol_energy_field_error d ef energy h] at hres
    exact h hres
  obtain ⟨-, hge, hst⟩ :=
    pol_scf_loop_calls d POL_SCF_MAX_ITER 0 0 (scf_start d ef) (by simp)
  have hcore := efp_core_efp_compute_pol_energy d ef energy
  obtain ⟨-, -, -, hmpi, hlen, -, -, -, -, -⟩ := of_efp_core_eq hcore
  have hsum := pol_energy_sum_eq (efp_compute_pol_energy d ef energy).efp
    (by rw [hmpi, h0]) (by rw [hmpi, h1, hlen])
  have hout := efp_compute_pol_energy_field_ok d ef energy hfield
  by_cases hc : (pol_scf_loop d 1 0 (scf_start d ef)).converged = false
  · rw [hout, if_pos hc] at hres
    exact efp_result.noConfusion hres
  · rw [if_neg hc] at hout
    refine ⟨?_, ?_, ?_⟩
    · rw [← hsum, hout]
    · rw [hout]
      simpa using hge (by simp [POL_SCF_MAX_ITER])
    · rw [hout]
      simpa using hst

theorem pol_energy_on_success_witness :
    (demo_efp 2 none).mpi_offset 0 = 0 ∧
    (demo_efp 2 none).mpi_offset 1 = (demo_efp 2 none).frags.length ∧
    (efp_compute_pol_energy demo_deps (demo_efp 2 none) 0).res = EFP_RESULT_SUCCESS ∧
    (efp_compute_pol_energy demo_deps (demo_efp 2 none) 0).energy = -1 / 2 ∧
    (efp_compute_pol_energy demo_deps (demo_efp 2 none) 0).energy
      = pol_energy_all_points (efp_compute_pol_energy demo_deps (demo_efp 2 none) 0).efp :=
  ⟨by decide, by decide, by decide!, by decide!,
    (pol_energy_on_success demo_deps (demo_efp 2 none) 0 (by decide) (by decide)
      (by decide!)).1⟩


theorem efp_compute_pol_without_pol (d : deps K) (ef : efp K)
    (h : ef.opts.terms &&& d.EFP_TERM_POL = 0) :
    efp_compute_pol d ef = (EFP_RESULT_SUCCESS, ef) := by
  unfold efp_compute_pol
  rw [if_pos h]

/-- With the polarization term enabled, a failing energy routine makes
`efp_compute_pol` return its code and the state it left, without a gradient pass. -/
theorem efp_compute_pol_of_error (d : deps K) (ef : efp K) (energy : K)
    (hpol : ef.opts.terms &&& d.EFP_TERM_POL ≠ 0)
    (hres : (efp_compute_pol_energy d ef energy).res ≠ EFP_RESULT_SUCCESS) :
    efp_compute_pol d ef
      = ((efp_compute_pol_energy d ef energy).res, (efp_compute_pol_energy d ef energy).efp) := by
  obtain ⟨hr, he, -⟩ := efp_compute_pol_energy_indep d ef ef.energy.polarization energy
  have hres' : (efp_compute_pol_energy d ef ef.energy.polarization).res ≠ EFP_RESULT_SUCCESS := by
    rw [hr]; exact hres
  have hen := efp_compute_pol_energy_error_energy d ef ef.energy.polarization hres'
  have hcore := efp_core_efp_compute_pol_energy d ef ef.energy.polarization
  obtain ⟨-, henergy, -, -, -, -, -, -, -, -⟩ := of_efp_core_eq hcore
  have hpolz : (efp_compute_pol_energy d ef ef.energy.polarization).energy
      = (efp_compute_pol_energy d ef ef.energy.polarization).efp.energy.polarization := by
    rw [hen, henergy]
  unfold efp_compute_pol
  rw [if_neg hpol]
  dsimp only
  rw [if_pos hres']
  generalize efp_compute_pol_energy d ef ef.energy.polarization = O at hr he hpolz
  rw [hpolz, ← hr, ← he]

/-- C9: whenever `efp_compute_pol_energy` returns a non-success code it leaves the
energy output as it was; `efp_compute_pol` then leaves `energy.polarization`, the forces
and torques of all fragments and the stress as they were, and, calling the energy
routine because the polarization term is enabled, returns the same code and the state
the energy routine left, so no gradient pass is run. -/
theorem pol_error_leaves_outputs (d : deps K) (ef : efp K) (energy : K)
    (hres : (efp_compute_pol_energy d ef energy).res ≠ EFP_RESULT_SUCCESS) :
    (efp_compute_pol_energy d ef energy).energy = energy ∧
    (efp_compute_pol d ef).2.energy.polarization = ef.energy.polarization ∧
    all_forces (efp_compute_pol d ef).2 = all_forces ef ∧
    (efp_compute_pol d ef).2.stress = ef.stress ∧
    (ef.opts.terms &&& d.EFP_TERM_POL ≠ 0 →
      (efp_compute_pol d ef).1 = (efp_compute_pol_energy d ef energy).res ∧
      (efp_compute_pol d ef).2 = (efp_compute_pol_energy d ef energy).efp) := by
  have hcore := efp_core_efp_compute_pol_energy d ef energy
  obtain ⟨hstress, henergy, -, -, -, -, -, -, -, hforces⟩ := of_efp_core_eq hcore
  refine ⟨efp_compute_pol_energy_error_energy d ef energy hres, ?_⟩
  by_cases hpol : ef.opts.terms &&& d.EFP_TERM_POL = 0
  · rw [efp_compute_pol_without_pol d ef hpol]
    exact ⟨rfl, rfl, rfl, fun h => absurd hpol h⟩
  · rw [efp_compute_pol_of_error d ef energy hpol hres]
    exact ⟨by rw [henergy], hforces, hstress, fun _ => ⟨rfl, rfl⟩⟩

theorem pol_error_leaves_outputs_witness :
    (efp_compute_pol_energy demo_deps (demo_efp 66 (some demo_failing_callback)) 0).res
      = EFP_RESULT_OTHER 7 ∧
    (efp_compute_pol_energy demo_deps (demo_efp 66 (some demo_failing_callback)) 0).energy = 0 ∧
    (efp_compute_pol demo_deps (demo_efp 66 (some demo_failing_callback))).2.energy.polarization
      = 7 ∧
    (efp_compute_pol demo_deps (demo_efp 66 (some demo_failing_callback))).1
      = EFP_RESULT_OTHER 7 := by
  have hres : (efp_compute_pol_energy demo_deps (demo_efp 66 (some demo_failing_callback)) 0).res
      = EFP_RESULT_OTHER 7 := by decide!
  have h := pol_error_leaves_outputs demo_deps (demo_efp 66 (some demo_failing_callback)) 0
    (by rw [hres]; decide)
  exact ⟨hres, h.1, h.2.1, (h.2.2.2.2 (by decide)).1.trans hres⟩

/-- C10: if the ab-initio polarization flag is enabled and the supplied electron-density
callback returns a non-success code `res`, then `compute_elec_field` and
`efp_compute_pol_energy` return exactly `res`, no SCF iteration is run, and the induced
and conjugate dipoles of every point are as on entry; `efp_compute_pol` returns `res`
too, with the dipoles as on entry, whenever it reaches the callback, that is with the
polarization term flag set (with the flag off it returns before any call is made, so
the callback returns nothing). -/
theorem callback_error_propagates (d : deps K) (ef : efp K) (energy : K)
    (cb : Nat → List (vec_t K) → efp_result × List (vec_t K)) (res : efp_result)
    (hai : ef.opts.terms &&& d.EFP_TERM_AI_POL ≠ 0)
    (hcb : ef.get_electron_density_field = some cb)
    (hres : (cb ef.n_polarizable_pts (all_positions ef)).1 = res)
    (hne : res ≠ EFP_RESULT_SUCCESS) :
    (compute_elec_field d ef).1 = res ∧
    (efp_compute_pol_energy d ef energy).res = res ∧
    (efp_compute_pol_energy d ef energy).scf_calls = 0 ∧
    all_dipoles (efp_compute_pol_energy d ef energy).efp = all_dipoles ef ∧
    (ef.opts.terms &&& d.EFP_TERM_POL ≠ 0 →
      (efp_compute_pol d ef).1 = res ∧ all_dipoles (efp_compute_pol d ef).2 = all_dipoles ef) ∧
    (ef.opts.terms &&& d.EFP_TERM_POL = 0 →
      efp_compute_pol d ef = (EFP_RESULT_SUCCESS, ef)) := by
  obtain ⟨h1, h2, -⟩ := compute_elec_field_callback_error d ef cb res hai hcb hres hne
  have hf : (compute_elec_field d ef).1 ≠ EFP_RESULT_SUCCESS := by rw [h1]; exact hne
  have hout : ∀ e : K, efp_compute_pol_energy d ef e
      = ⟨(compute_elec_field d ef).1, (compute_elec_field d ef).2, e, 0⟩ :=
    fun e => efp_compute_pol_energy_field_error d ef e hf
  refine ⟨h1, ?_, ?_, ?_, ?_, efp_compute_pol_without_pol d ef⟩
  · rw [hout]; exact h1
  · rw [hout]
  · rw [hout]; exact h2
  · intro hpol
    have hr : (efp_compute_pol_energy d ef energy).res ≠ EFP_RESULT_SUCCESS := by
      rw [hout]; exact hf
    rw [efp_compute_pol_of_error d ef energy hpol hr, hout]
    exact ⟨h1, h2⟩

theorem callback_error_propagates_witness :
    (demo_efp 66 (some demo_failing_callback)).opts.terms &&& demo_deps.EFP_TERM_AI_POL ≠ 0 ∧
    (demo_efp 66 (some demo_failing_callback)).opts.terms &&& demo_deps.EFP_TERM_POL ≠ 0 ∧
    (compute_elec_field demo_deps (demo_efp 66 (some demo_failing_callback))).1
      = EFP_RESULT_OTHER 7 ∧
    (efp_compute_pol_energy demo_deps (demo_efp 66 (some demo_failing_callback)) 0).res
      = EFP_RESULT_OTHER 7 ∧
    (efp_compute_pol_energy demo_deps (demo_efp 66 (some demo_failing_callback)) 0).scf_calls
      = 0 ∧
    (efp_compute_pol demo_deps (demo_efp 66 (some demo_failing_callback))).1
      = EFP_RESULT_OTHER 7 ∧
    all_dipoles (efp_compute_pol demo_deps (demo_efp 66 (some demo_failing_callback))).2
      = [[(⟨5, 5, 5⟩, ⟨6, 6, 6⟩)], []] := by
  have h := callback_error_propagates demo_deps (demo_efp 66 (some demo_failing_callback)) 0
    demo_failing_callback (EFP_RESULT_OTHER 7) (by decide) rfl rfl (by decide)
  exact ⟨by decide, by decide, h.1, h.2.1, h.2.2.1, (h.2.2.2.2.1 (by decide)).1,
    (h.2.2.2.2.1 (by decide)).2⟩

/-! ## Properties of the optimizer's convergence test (`opt.c`) -/

theorem check_conv_eq_true (rms_grad max_grad opt_tol : K) :
    check_conv rms_grad max_grad opt_tol = true ↔
      |max_grad| < opt_tol ∧ |rms_grad| < opt_tol / 3 := by
  simp [check_conv]

/-- C15: for all `rms_grad`, `max_grad` and `opt_tol`, `check_conv` is true if and only
if `|max_grad| < opt_tol` and `|rms_grad| < opt_tol / 3`. -/
theorem check_conv_iff (rms_grad max_grad opt_tol : K) :
    check_conv rms_grad max_grad opt_tol = true ↔
      |max_grad| < opt_tol ∧ |rms_grad| < opt_tol / 3 :=
  check_conv_eq_true rms_grad max_grad opt_tol

/-- C16: on the gradient `[-5, 1, 0, 0, 0, 0]` of one fragment `get_grad_info` reports
the max gradient 1, whose absolute value is not the maximum absolute component 5: the
loop compares `fabs(grad[i])` with the signed value it stored. -/
theorem get_grad_info_max_not_max_abs :
    (get_grad_info (fun x => x) demo_grad).2 = 1 ∧ max_abs demo_grad = 5 ∧
    |(get_grad_info (fun x => x) demo_grad).2| ≠ max_abs demo_grad := by
  decide!

/-- C17: on a gradient of two fragments with components `-11/10` and `1/100` and the
tolerance 1, over the reals with the real square root, the convergence test on the
outputs of `get_grad_info` holds although the component `-11/10` is not below the
tolerance in absolute value. -/
theorem check_conv_accepts_large_component :
    check_conv (get_grad_info Real.sqrt [-11 / 10, 1 / 100, 0, 0, 0, 0, 0, 0, 0, 0, 0, 0]).1
      (get_grad_info Real.sqrt [-11 / 10, 1 / 100, 0, 0, 0, 0, 0, 0, 0, 0, 0, 0]).2 (1 : ℝ) = true ∧
    max_abs [(-11 / 10 : ℝ), 1 / 100, 0, 0, 0, 0, 0, 0, 0, 0, 0, 0] = 11 / 10 ∧
    ¬ max_abs [(-11 / 10 : ℝ), 1 / 100, 0, 0, 0, 0, 0, 0, 0, 0, 0, 0] < 1 := by
  have hmax : max_abs [(-11 / 10 : ℝ), 1 / 100, 0, 0, 0, 0, 0, 0, 0, 0, 0, 0] = 11 / 10 := by
    simp only [max_abs, List.foldr]
    norm_num [abs_of_neg, abs_of_pos]
  have hinfo : get_grad_info Real.sqrt [(-11 / 10 : ℝ), 1 / 100, 0, 0, 0, 0, 0, 0, 0, 0, 0, 0]
      = (Real.sqrt (12101 / 10000 / 12), 1 / 100) := by
    simp only [get_grad_info, List.length, List.range, List.range.loop, List.foldl,
      List.getD_cons_zero, List.getD_cons_succ]
    norm_num [abs_of_neg, abs_of_pos]
  refine ⟨?_, hmax, by rw [hmax]; norm_num⟩
  rw [hinfo, check_conv_eq_true]
  constructor
  · norm_num [abs_of_pos]
  · rw [abs_of_nonneg (Real.sqrt_nonneg _), Real.sqrt_lt' (by norm_num)]
    norm_num

/-! ## Static field without electron density, and disabled polarization -/

theorem compute_elec_field_unfold (d : deps K) (ef : efp K) :
    compute_elec_field d ef =
      if ef.opts.terms &&& d.EFP_TERM_AI_POL ≠ 0 then
        (if (add_electron_density_field (with_static_field (elec_field_array d ef) ef)).1
            ≠ EFP_RESULT_SUCCESS
          then add_electron_density_field (with_static_field (elec_field_array d ef) ef)
          else (EFP_RESULT_SUCCESS,
            (add_electron_density_field (with_static_field (elec_field_array d ef) ef)).2))
      else (EFP_RESULT_SUCCESS, with_static_field (elec_field_array d ef) ef) := rfl

theorem wf_zero_with_static_field (E : Nat → vec_t K) (ef : efp K) :
    wf_zero (with_static_field E ef) := by
  intro fr hfr pt hpt
  simp only [with_static_field, List.mem_map] at hfr
  obtain ⟨fr0, -, rfl⟩ := hfr
  simp only [List.mem_mapIdx] at hpt
  obtain ⟨i, h, rfl⟩ := hpt
  rfl

theorem add_electron_density_field_none (ef : efp K)
    (h : ef.get_electron_density_field = none) :
    (add_electron_density_field ef).1 = EFP_RESULT_SUCCESS ∧
      wf_zero (add_electron_density_field ef).2 := by
  unfold add_electron_density_field
  rw [h]
  refine ⟨rfl, ?_⟩
  intro fr hfr pt hpt
  simp only [List.mem_map] at hfr
  obtain ⟨fr0, -, rfl⟩ := hfr
  simp only [List.mem_map] at hpt
  obtain ⟨pt0, -, rfl⟩ := hpt
  rfl

/-- Without a callback, or with the ab-initio polarization flag off,
`compute_elec_field` succeeds and leaves `elec_field_wf` zero at every point. -/
theorem compute_elec_field_no_density (d : deps K) (ef : efp K)
    (h : ef.get_electron_density_field = none ∨ ef.opts.terms &&& d.EFP_TERM_AI_POL = 0) :
    (compute_elec_field d ef).1 = EFP_RESULT_SUCCESS ∧ wf_zero (compute_elec_field d ef).2 := by
  rw [compute_elec_field_unfold]
  by_cases hai : ef.opts.terms &&& d.EFP_TERM_AI_POL = 0
  · rw [if_neg (not_not.mpr hai)]
    exact ⟨rfl, wf_zero_with_static_field _ _⟩
  · have hcb : ef.get_electron_density_field = none := h.resolve_right hai
    have hcb' : (with_static_field (elec_field_array d ef) ef).get_electron_density_field
        = none := hcb
    obtain ⟨h1, h2⟩ := add_electron_density_field_none _ hcb'
    rw [if_pos hai, if_neg (not_not.mpr h1)]
    exact ⟨rfl, h2⟩

/-- Rewriting the points of every fragment by functions that keep the projection `g` of
each point leaves the projection of the whole state as it was. -/
theorem points_proj_map_points {β : Type} (g : polarizable_pt K → β) (ef : efp K)
    (F : frag K → List (polarizable_pt K))
    (hF : ∀ fr, (F fr).map g = fr.polarizable_pts.map g) :
    ({ ef with frags := ef.frags.map (fun fr => { fr with polarizable_pts := F fr }) }
        : efp K).frags.map (fun fr => fr.polarizable_pts.map g)
      = ef.frags.map (fun fr => fr.polarizable_pts.map g) := by
  simp only [List.map_map]
  apply List.map_congr_left
  intro fr _
  simp only [Function.comp, hF]

theorem wf_zero_iff (ef : efp K) :
    wf_zero ef ↔ ∀ l ∈ ef.frags.map (fun fr => fr.polarizable_pts.map
      (fun pt => pt.elec_field_wf)), ∀ v ∈ l, v = vec_zero := by
  simp only [wf_zero, List.mem_map]
  constructor
  · rintro h l ⟨fr, hfr, rfl⟩ v hv
    simp only [List.mem_map] at hv
    obtain ⟨pt, hpt, rfl⟩ := hv
    exact h fr hfr pt hpt
  · intro h fr hfr pt hpt
    exact h _ ⟨fr, hfr, rfl⟩ _ (List.mem_map.mpr ⟨pt, hpt, rfl⟩)

theorem wf_zero_zero_induced_dipoles {ef : efp K} (h : wf_zero ef) :
    wf_zero (zero_induced_dipoles ef) := by
  rw [wf_zero_iff] at h ⊢
  unfold zero_induced_dipoles
  rw [points_proj_map_points]
  · exact h
  · intro fr
    rw [List.map_map]
    rfl

theorem wf_zero_pol_scf_iter (d : deps K) {ef : efp K} (h : wf_zero ef) :
    wf_zero (pol_scf_iter d ef).2 := by
  rw [wf_zero_iff] at h ⊢
  unfold pol_scf_iter
  dsimp only
  rw [points_proj_map_points]
  · exact h
  · intro fr
    apply map_mapIdx_of_forall
    intro j a
    rfl

theorem wf_zero_scf_state (d : deps K) {ef : efp K} (h : wf_zero ef) (n : Nat) :
    wf_zero (scf_state d ef n) := by
  induction n with
  | zero => exact h
  | succ n ih => exact wf_zero_pol_scf_iter d ih

/-- State left by a run of the energy routine whose static field stage succeeded. -/
theorem efp_compute_pol_energy_state (d : deps K) (ef : efp K) (energy : K)
    (hfield : (compute_elec_field d ef).1 = EFP_RESULT_SUCCESS) :
    (efp_compute_pol_energy d ef energy).efp
      = scf_state d (scf_start d ef) (efp_compute_pol_energy d ef energy).scf_calls := by
  have hout := efp_compute_pol_energy_field_ok d ef energy hfield
  obtain ⟨-, -, hst⟩ := pol_scf_loop_calls d POL_SCF_MAX_ITER 0 0 (scf_start d ef) (by simp)
  rw [hout]
  split
  · exact hst
  · exact hst

/-- Energy written by a successful run, with the partition covering all fragments. -/
theorem efp_compute_pol_energy_success_energy (d : deps K) (ef : efp K) (energy : K)
    (h0 : ef.mpi_offset 0 = 0) (h1 : ef.mpi_offset 1 = ef.frags.length)
    (hres : (efp_compute_pol_energy d ef energy).res = EFP_RESULT_SUCCESS) :
    (efp_compute_pol_energy d ef energy).energy
      = pol_energy_all_points (efp_compute_pol_energy d ef energy).efp := by
  have hfield : (compute_elec_field d ef).1 = EFP_RESULT_SUCCESS := by
    by_contra h
    rw [efp_compute_pol_energy_field_error d ef energy h] at hres
    exact h hres
  have hcore := efp_core_efp_compute_pol_energy d ef energy
  obtain ⟨-, -, -, hmpi, hlen, -, -, -, -, -⟩ := of_efp_core_eq hcore
  have hsum := pol_energy_sum_eq (efp_compute_pol_energy d ef energy).efp
    (by rw [hmpi, h0]) (by rw [hmpi, h1, hlen])
  have hout := efp_compute_pol_energy_field_ok d ef energy hfield
  by_cases hc : (pol_scf_loop d 1 0 (scf_start d ef)).converged = false
  · rw [hout, if_pos hc] at hres
    exact efp_result.noConfusion hres
  · rw [if_neg hc] at hout
    rw [← hsum, hout]

theorem pol_energy_all_points_wf_zero {ef : efp K} (h : wf_zero ef) :
    pol_energy_all_points ef = -0.5 * dipole_field_sum ef := by
  unfold pol_energy_all_points dipole_field_sum
  rw [← List.sum_map_mul_left]
  congr 1
  apply List.map_congr_left
  intro fr hfr
  rw [← List.sum_map_mul_left]
  congr 1
  apply List.map_congr_left
  intro pt hpt
  rw [h fr hfr pt hpt]
  simp [vec_dot, vec_zero]

/-- C11: if no electron-density callback is installed, or the ab-initio polarization
flag is off, `compute_elec_field` returns success and leaves `elec_field_wf` zero at
every polarizable point; then a successful `efp_compute_pol_energy` (partition of rank 0
covering all fragments) returns the energy `-0.5 * Σ induced_dipole · elec_field` over
all points of the state it leaves. -/
theorem no_density_field_energy (d : deps K) (ef : efp K) (energy : K)
    (h : ef.get_electron_density_field = none ∨ ef.opts.terms &&& d.EFP_TERM_AI_POL = 0) :
    (compute_elec_field d ef).1 = EFP_RESULT_SUCCESS ∧
    (∀ fr ∈ (compute_elec_field d ef).2.frags, ∀ pt ∈ fr.polarizable_pts,
      pt.elec_field_wf = vec_zero) ∧
    (ef.mpi_offset 0 = 0 → ef.mpi_offset 1 = ef.frags.length →
      (efp_compute_pol_energy d ef energy).res = EFP_RESULT_SUCCESS →
      (efp_compute_pol_energy d ef energy).energy
        = -0.5 * dipole_field_sum (efp_compute_pol_energy d ef energy).efp) := by
  obtain ⟨h1, h2⟩ := compute_elec_field_no_density d ef h
  refine ⟨h1, h2, ?_⟩
  intro h0 hlen hres
  rw [efp_compute_pol_energy_success_energy d ef energy h0 hlen hres]
  apply pol_energy_all_points_wf_zero
  rw [efp_compute_pol_energy_state d ef energy h1]
  exact wf_zero_scf_state d (wf_zero_zero_induced_dipoles h2) _

theorem no_density_field_energy_witness :
    (demo_efp 2 none).get_electron_density_field = none ∧
    (compute_elec_field demo_deps (demo_efp 2 none)).1 = EFP_RESULT_SUCCESS ∧
    (efp_compute_pol_energy demo_deps (demo_efp 2 none) 0).energy
      = -0.5 * dipole_field_sum (efp_compute_pol_energy demo_deps (demo_efp 2 none) 0).efp ∧
    (efp_compute_pol_energy demo_deps (demo_efp 2 none) 0).energy = -1 / 2 := by
  have h := no_density_field_energy demo_deps (demo_efp 2 none) 0 (Or.inl rfl)
  exact ⟨rfl, h.1, h.2.2 (by decide) (by decide) (by decide!), by decide!⟩

/-- C12: if `EFP_TERM_POL` is not set in `opts.terms`, `efp_compute_pol` returns success
and the state it leaves is the state on entry: static fields, induced dipoles,
`energy.polarization`, forces, torques and stress are untouched. -/
theorem efp_compute_pol_disabled (d : deps K) (ef : efp K)
    (h : ef.opts.terms &&& d.EFP_TERM_POL = 0) :
    (efp_compute_pol d ef).1 = EFP_RESULT_SUCCESS ∧ (efp_compute_pol d ef).2 = ef := by
  rw [efp_compute_pol_without_pol d ef h]
  exact ⟨rfl, rfl⟩

theorem efp_compute_pol_disabled_witness :
    (demo_efp 8 none).opts.terms &&& demo_deps.EFP_TERM_POL = 0 ∧
    (efp_compute_pol demo_deps (demo_efp 8 none)).1 = EFP_RESULT_SUCCESS ∧
    (efp_compute_pol demo_deps (demo_efp 8 none)).2 = demo_efp 8 none :=
  ⟨by decide, efp_compute_pol_disabled demo_deps (demo_efp 8 none) (by decide)⟩

/-! ## Fragments beyond the cutoff -/

theorem foldl_fixed {α β : Type} (f : β → α → β) (init : β) (l : List α)
    (h : ∀ x ∈ l, f init x = init) : l.foldl f init = init := by
  induction l with
  | nil => rfl
  | cons a l ih =>
    rw [List.foldl_cons, h a (List.mem_cons_self a l)]
    exact ih (fun x hx => h x (List.mem_cons_of_mem a hx))

theorem getD_mem_of_mem_range {α : Type} [Inhabited α] (l : List α) {j : Nat}
    (hj : j ∈ List.range l.length) : l.getD j default ∈ l := by
  have hlt : j < l.length := List.mem_range.mp hj
  rw [List.getD_eq_getElem l default hlt]
  exact List.getElem_mem hlt

theorem mapIdx_eq_self {α : Type} (l : List α) :
    ∀ (f : Nat → α → α), (∀ j, ∀ a ∈ l, f j a = a) → l.mapIdx f = l := by
  induction l with
  | nil => intro f _; rfl
  | cons a l ih =>
    intro f hf
    rw [List.mapIdx_cons, hf 0 a (List.mem_cons_self a l),
      ih (fun i => f (i + 1)) (fun j b hb => hf (j + 1) b (List.mem_cons_of_mem a hb))]

theorem map_eq_self {α : Type} (l : List α) (f : α → α) (hf : ∀ a ∈ l, f a = a) :
    l.map f = l := by
  induction l with
  | nil => rfl
  | cons a l ih =>
    rw [List.map_cons, hf a (List.mem_cons_self a l),
      ih (fun b hb => hf b (List.mem_cons_of_mem a hb))]

theorem quiet_iff (ef : efp K) : quiet ef ↔ ∀ fr ∈ ef.frags, frag_quiet fr := Iff.rfl

theorem frag_quiet_getD {ef : efp K} (h : quiet ef) (i : Nat) :
    frag_quiet (ef.frags.getD i default) := by
  by_cases hi : i < ef.frags.length
  · rw [List.getD_eq_getElem ef.frags default hi]
    exact h _ (List.getElem_mem hi)
  · rw [List.getD_eq_default ef.frags default (not_lt.mp hi)]
    intro pt hpt
    exact absurd hpt (List.not_mem_nil pt)

theorem get_multipole_field_far (d : deps K) (ef : efp K) (pt : polarizable_pt K)
    (mult_pt : multipole_pt K) (sw : swf K) (h : sw.swf = 0) :
    get_multipole_field d ef pt mult_pt sw = vec_zero := by
  simp [get_multipole_field, h, vec_zero]

/-- With the ab-initio flag off and every interacting pair switched off, the static
field at every point is zero. -/
theorem get_elec_field_far (d : deps K) (ef : efp K) (frag_idx pt_idx : Nat)
    (hai : ef.opts.terms &&& d.EFP_TERM_AI_POL = 0)
    (hswf : ∀ i, i < ef.frags.length → i ≠ frag_idx →
      d.efp_skip_frag_pair ef i frag_idx = false →
      (d.efp_make_swf ef (ef.frags.getD i default) (ef.frags.getD frag_idx default)).swf = 0) :
    get_elec_field d ef frag_idx pt_idx = vec_zero := by
  unfold get_elec_field
  dsimp only
  rw [if_neg (not_not.mpr hai)]
  apply foldl_fixed
  intro i hi
  by_cases hc : i = frag_idx ∨ d.efp_skip_frag_pair ef i frag_idx = true
  · rw [if_pos hc]
  · rw [if_neg hc]
    have hne : i ≠ frag_idx := fun e => hc (Or.inl e)
    have hsk : d.efp_skip_frag_pair ef i frag_idx = false := by
      cases hb : d.efp_skip_frag_pair ef i frag_idx
      · rfl
      · exact absurd (Or.inr hb) hc
    have h0 := hswf i (List.mem_range.mp hi) hne hsk
    generalize d.efp_make_swf ef (ef.frags.getD i default) (ef.frags.getD frag_idx default)
      = sw at h0 ⊢
    rw [foldl_fixed _ (vec_zero : vec_t K) (ef.frags.getD i default).atoms]
    · apply foldl_fixed
      intro mult_pt _
      rw [get_multipole_field_far d ef _ mult_pt _ h0]
      simp only [vec_zero, add_zero]
    · intro at_j _
      simp only [h0, vec_zero, zero_mul, zero_div, add_zero]

/-- A fragment index at which a polarizable point exists is below the fragment count. -/
theorem frag_index_lt_of_point {ef : efp K} {i j : Nat}
    (hj : j < (ef.frags.getD i default).polarizable_pts.length) : i < ef.frags.length := by
  by_contra hi
  rw [List.getD_eq_default ef.frags default (not_lt.mp hi)] at hj
  exact absurd hj (Nat.not_lt_zero j)

theorem elec_field_array_far (d : deps K) (ef : efp K)
    (hai : ef.opts.terms &&& d.EFP_TERM_AI_POL = 0)
    (hswf : ∀ i j, i < ef.frags.length → j < ef.frags.length → i ≠ j →
      d.efp_skip_frag_pair ef i j = false →
      (d.efp_make_swf ef (ef.frags.getD i default) (ef.frags.getD j default)).swf = 0) :
    elec_field_array d ef = fun _ => vec_zero := by
  unfold elec_field_array
  apply foldl_fixed
  intro i _
  apply foldl_fixed
  intro j hj
  have hi := frag_index_lt_of_point (List.mem_range.mp hj)
  rw [get_elec_field_far d ef i j hai (fun k hk hne hs => hswf k i hk hi hne hs)]
  exact Function.update_eq_self _ _

theorem quiet_scf_start (d : deps K) (ef : efp K)
    (hai : ef.opts.terms &&& d.EFP_TERM_AI_POL = 0)
    (hswf : ∀ i j, i < ef.frags.length → j < ef.frags.length → i ≠ j →
      d.efp_skip_frag_pair ef i j = false →
      (d.efp_make_swf ef (ef.frags.getD i default) (ef.frags.getD j default)).swf = 0) :
    (compute_elec_field d ef).1 = EFP_RESULT_SUCCESS ∧ quiet (scf_start d ef) := by
  have hE := elec_field_array_far d ef hai hswf
  have hcf : compute_elec_field d ef
      = (EFP_RESULT_SUCCESS, with_static_field (fun _ => vec_zero) ef) := by
    rw [compute_elec_field_unfold, if_neg (not_not.mpr hai), hE]
  refine ⟨by rw [hcf], ?_⟩
  unfold scf_start
  rw [hcf]
  intro fr hfr pt hpt
  simp only [zero_induced_dipoles, with_static_field, List.map_map, List.mem_map] at hfr
  obtain ⟨fr0, -, rfl⟩ := hfr
  simp only [Function.comp, List.mem_map, List.mem_mapIdx] at hpt
  obtain ⟨pt0, ⟨i, h, rfl⟩, rfl⟩ := hpt
  exact ⟨rfl, rfl, rfl, rfl⟩

/-- With every interacting pair switched off, no point receives an induced-dipole
field. -/
theorem get_induced_dipole_field_far (d : deps K) (ef : efp K) (frag_idx : Nat)
    (pt : polarizable_pt K)
    (hswf : ∀ j, j < ef.frags.length → frag_idx ≠ j →
      d.efp_skip_frag_pair ef frag_idx j = false →
      (d.efp_make_swf ef (ef.frags.getD frag_idx default) (ef.frags.getD j default)).swf = 0) :
    get_induced_dipole_field d ef frag_idx pt = (vec_zero, vec_zero) := by
  unfold get_induced_dipole_field
  dsimp only
  apply foldl_fixed
  intro j hjr
  by_cases hc : j = frag_idx ∨ d.efp_skip_frag_pair ef frag_idx j = true
  · rw [if_pos hc]
  · rw [if_neg hc]
    have hne : frag_idx ≠ j := fun e => hc (Or.inl e.symm)
    have hsk : d.efp_skip_frag_pair ef frag_idx j = false := by
      cases hb : d.efp_skip_frag_pair ef frag_idx j
      · rfl
      · exact absurd (Or.inr hb) hc
    have h0 := hswf j (List.mem_range.mp hjr) hne hsk
    generalize d.efp_make_swf ef (ef.frags.getD frag_idx default) (ef.frags.getD j default)
      = sw at h0 ⊢
    apply foldl_fixed
    intro pt_j _
    simp only [h0, vec_zero, zero_mul, sub_zero]

theorem mat_vec_zero (m : mat_t K) : mat_vec m vec_zero = vec_zero := by
  simp [mat_vec, vec_zero]

theorem mat_trans_vec_zero (m : mat_t K) : mat_trans_vec m vec_zero = vec_zero := by
  simp [mat_trans_vec, vec_zero]

theorem vec_dist_self (d : deps K) (hsqrt : d.sqrt 0 = 0) (v : vec_t K) :
    vec_dist d v v = 0 := by
  simp [vec_dist, vec_len, vec_sub, vec_dot, hsqrt]

/-- On a quiet state with every interacting pair switched off, an SCF sweep leaves the
state as it is and returns the measure 0, if there is a polarizable point to divide
by. -/
theorem pol_scf_iter_quiet (d : deps K) (ef : efp K) (hq : quiet ef)
    (hsqrt : d.sqrt 0 = 0)
    (hswf : ∀ i j, i < ef.frags.length → j < ef.frags.length → i ≠ j →
      d.efp_skip_frag_pair ef i j = false →
      (d.efp_make_swf ef (ef.frags.getD i default) (ef.frags.getD j default)).swf = 0) :
    pol_scf_iter d ef = (if ef.n_polarizable_pts = 0 then none else some 0, ef) := by
  have hnew : pol_scf_new_dipoles d ef = (fun _ => vec_zero, fun _ => vec_zero) := by
    unfold pol_scf_new_dipoles
    dsimp only
    apply foldl_fixed
    intro i _
    apply foldl_fixed
    intro j hj
    obtain ⟨h1, h2, -, -⟩ := frag_quiet_getD hq i _ (getD_mem_of_mem_range _ hj)
    have hi := frag_index_lt_of_point (List.mem_range.mp hj)
    rw [get_induced_dipole_field_far d ef i _ (fun k hk hne hs => hswf i k hi hk hne hs), h1, h2]
    simp only [vec_zero, add_zero]
    have e1 : mat_vec ((ef.frags.getD i default).polarizable_pts.getD j default).tensor
        ⟨0, 0, 0⟩ = ⟨0, 0, 0⟩ := mat_vec_zero _
    have e2 : mat_trans_vec ((ef.frags.getD i default).polarizable_pts.getD j default).tensor
        ⟨0, 0, 0⟩ = ⟨0, 0, 0⟩ := mat_trans_vec_zero _
    rw [e1, e2]
    exact Prod.ext (Function.update_eq_self _ _) (Function.update_eq_self _ _)
  unfold pol_scf_iter
  dsimp only
  rw [hnew]
  dsimp only
  apply Prod.ext
  · dsimp only
    rw [foldl_fixed _ (0 : K)]
    · simp
    · intro i _
      apply foldl_fixed
      intro j hj
      obtain ⟨-, -, h3, h4⟩ := frag_quiet_getD hq i _ (getD_mem_of_mem_range _ hj)
      rw [h3, h4, vec_dist_self d hsqrt]
      simp
  · dsimp only
    have hfr : ef.frags.map (fun frag : frag K =>
        { frag with polarizable_pts := frag.polarizable_pts.mapIdx (fun j pt =>
            { pt with induced_dipole := vec_zero, induced_dipole_conj := vec_zero }) })
        = ef.frags := by
      apply map_eq_self
      intro fr hfr
      have : fr.polarizable_pts.mapIdx (fun j pt =>
            ({ pt with induced_dipole := vec_zero, induced_dipole_conj := vec_zero }
              : polarizable_pt K)) = fr.polarizable_pts := by
        apply mapIdx_eq_self
        intro j pt hpt
        obtain ⟨-, -, h3, h4⟩ := hq fr hfr pt hpt
        cases pt
        simp only at h3 h4
        rw [h3, h4]
      rw [this]
    rw [hfr]

theorem pol_energy_sum_quiet (ef : efp K) (hq : quiet ef) : pol_energy_sum ef = 0 := by
  unfold pol_energy_sum
  dsimp only
  apply foldl_fixed
  intro i _
  apply foldl_fixed
  intro j hj
  obtain ⟨-, -, h3, h4⟩ := frag_quiet_getD hq i _ (getD_mem_of_mem_range _ hj)
  rw [h3, h4]
  simp [vec_dot, vec_zero]

theorem POL_SCF_TOL_pos : (0 : K) < POL_SCF_TOL := by
  unfold POL_SCF_TOL
  norm_num

/-- Outcome of the energy routine when the ab-initio flag is off, every interacting pair
is switched off and there is at least one polarizable point. -/
theorem efp_compute_pol_energy_far (d : deps K) (ef : efp K) (energy : K)
    (hai : ef.opts.terms &&& d.EFP_TERM_AI_POL = 0)
    (hoff : all_pairs_switched_off d ef) (hsqrt : d.sqrt 0 = 0)
    (hn : 0 < ef.n_polarizable_pts) :
    efp_compute_pol_energy d ef energy = ⟨EFP_RESULT_SUCCESS, scf_start d ef, 0, 1⟩ ∧
      quiet (scf_start d ef) := by
  obtain ⟨hf, hq⟩ := quiet_scf_start d ef hai (hoff ef rfl)
  obtain ⟨-, -, -, -, -, hnp, -, -, -, -⟩ := of_efp_core_eq (efp_core_scf_start d ef)
  have hn0 : ¬ (scf_start d ef).n_polarizable_pts = 0 := by
    rw [hnp]
    exact Nat.pos_iff_ne_zero.mp hn
  have hit : pol_scf_iter d (scf_start d ef) = (some 0, scf_start d ef) := by
    rw [pol_scf_iter_quiet d (scf_start d ef) hq hsqrt (hoff _ (efp_core_scf_start d ef)),
      if_neg hn0]
  have hconv : below_tol (scf_conv d (scf_start d ef) (0 + 1 + 0)) POL_SCF_TOL := by
    simp only [scf_conv, scf_state, hit]
    exact POL_SCF_TOL_pos
  have hloop := pol_scf_loop_converges d (scf_start d ef) 0 0 0
    (by simp [POL_SCF_MAX_ITER]) hconv (fun j h1 h2 => absurd h2 (by omega))
  have hst : scf_state d (scf_start d ef) (0 + 1 + 0) = scf_start d ef := by
    simp only [scf_state, hit]
  rw [hst] at hloop
  have hloop' : pol_scf_loop d 1 0 (scf_start d ef) = ⟨true, 1, scf_start d ef⟩ := hloop
  refine ⟨?_, hq⟩
  rw [efp_compute_pol_energy_field_ok d ef energy hf, hloop']
  simp [pol_energy_sum_quiet _ hq]

/-- For a system with at least one polarizable point and the ab-initio polarization flag
off in which every interacting fragment pair has switching value 0,
`efp_compute_pol_energy` returns success after exactly one SCF iteration, writes the
energy 0, and leaves every point with zero static field and zero induced and conjugate
dipole. The square root is assumed to vanish at 0. -/
theorem far_apart_zero_energy (d : deps K) (ef : efp K) (energy : K)
    (hai : ef.opts.terms &&& d.EFP_TERM_AI_POL = 0)
    (hoff : all_pairs_switched_off d ef) (hsqrt : d.sqrt 0 = 0)
    (hn : 0 < ef.n_polarizable_pts) :
    (efp_compute_pol_energy d ef energy).res = EFP_RESULT_SUCCESS ∧
    (efp_compute_pol_energy d ef energy).scf_calls = 1 ∧
    (efp_compute_pol_energy d ef energy).energy = 0 ∧
    (∀ fr ∈ (efp_compute_pol_energy d ef energy).efp.frags, ∀ pt ∈ fr.polarizable_pts,
      pt.elec_field = vec_zero ∧ pt.elec_field_wf = vec_zero ∧
      pt.induced_dipole = vec_zero ∧ pt.induced_dipole_conj = vec_zero) := by
  obtain ⟨h, hq⟩ := efp_compute_pol_energy_far d ef energy hai hoff hsqrt hn
  rw [h]
  exact ⟨rfl, rfl, rfl, hq⟩

/-- Without a polarizable point to divide by, every sweep returns a measure that is not
a number. -/
theorem pol_scf_iter_no_points (d : deps K) (ef : efp K) (hn : ef.n_polarizable_pts = 0) :
    (pol_scf_iter d ef).1 = none := by
  unfold pol_scf_iter
  dsimp only
  rw [if_pos hn]

/-- With `n_polarizable_pts = 0` and a static field stage that succeeds, the loop of
`efp_compute_pol_energy` never finds a measure below the tolerance: the routine makes
all 80 sweeps, returns `EFP_RESULT_POL_NOT_CONVERGED` and does not write the energy. -/
theorem efp_compute_pol_energy_no_points (d : deps K) (ef : efp K) (energy : K)
    (hn : ef.n_polarizable_pts = 0)
    (hok : (compute_elec_field d ef).1 = EFP_RESULT_SUCCESS) :
    efp_compute_pol_energy d ef energy
      = ⟨EFP_RESULT_POL_NOT_CONVERGED, scf_state d (scf_start d ef) POL_SCF_MAX_ITER, energy,
          POL_SCF_MAX_ITER⟩ := by
  have hnot : ∀ j, 0 + 1 ≤ j → j ≤ POL_SCF_MAX_ITER →
      ¬ below_tol (scf_conv d (scf_start d ef) j) POL_SCF_TOL := by
    intro j _ _
    have hcore : efp_core (scf_state d (scf_start d ef) (j - 1)) = efp_core ef := by
      rw [efp_core_scf_state, efp_core_scf_start]
    obtain ⟨-, -, -, -, -, hnp, -, -, -, -⟩ := of_efp_core_eq hcore
    unfold scf_conv
    rw [pol_scf_iter_no_points d _ (hnp.trans hn)]
    exact fun h => h
  have hloop := pol_scf_loop_not_converged d (scf_start d ef) 79 0 0 (by decide) hnot
  have hloop2 : pol_scf_loop d 1 0 (scf_start d ef)
      = ⟨false, POL_SCF_MAX_ITER, scf_state d (scf_start d ef) POL_SCF_MAX_ITER⟩ := hloop
  rw [efp_compute_pol_energy_field_ok d ef energy hok, hloop2]
  rfl

theorem far_apart_zero_energy_witness :
    (demo_efp 2 none).opts.terms &&& demo_deps_far.EFP_TERM_AI_POL = 0 ∧
    all_pairs_switched_off demo_deps_far (demo_efp 2 none) ∧
    (efp_compute_pol_energy demo_deps_far (demo_efp 2 none) 7).res = EFP_RESULT_SUCCESS ∧
    (efp_compute_pol_energy demo_deps_far (demo_efp 2 none) 7).scf_calls = 1 ∧
    (efp_compute_pol_energy demo_deps_far (demo_efp 2 none) 7).energy = 0 ∧
    all_dipoles (efp_compute_pol_energy demo_deps_far (demo_efp 2 none) 7).efp
      = [[(vec_zero, vec_zero)], []] := by
  have hoff : all_pairs_switched_off demo_deps_far (demo_efp 2 none) :=
    fun _ _ _ _ _ _ _ _ => rfl
  have h := far_apart_zero_energy demo_deps_far (demo_efp 2 none) 7 (by decide) hoff rfl
    (by decide)
  exact ⟨by decide, hoff, h.1, h.2.1, h.2.2.1, by decide!⟩

/-! ## Gradient pass -/

theorem foldl_invariant {α β : Type} (P : β → Prop) (f : β → α → β) (l : List α) :
    ∀ init : β, P init → (∀ acc x, x ∈ l → P acc → P (f acc x)) → P (l.foldl f init) := by
  induction l with
  | nil => intro init h _; exact h
  | cons a l ih =>
    intro init h hstep
    rw [List.foldl_cons]
    exact ih _ (hstep init a (List.mem_cons_self a l) h)
      (fun acc x hx hP => hstep acc x (List.mem_cons_of_mem a hx) hP)

theorem list_set_getD_self {α : Type} (l : List α) (dflt : α) :
    ∀ i : Nat, l.set i (l.getD i dflt) = l := by
  induction l with
  | nil => intro i; rfl
  | cons a l ih =>
    intro i
    cases i with
    | zero => rfl
    | succ i =>
      rw [List.set_cons_succ, List.getD_cons_succ, ih]

theorem frag_update_id (ef : efp K) (i : Nat) (f : frag K → frag K)
    (hf : f (ef.frags.getD i default) = ef.frags.getD i default) :
    frag_update ef i f = ef := by
  unfold frag_update
  rw [hf, list_set_getD_self]

theorem vec_scale_zero (v : vec_t K) : vec_scale v 0 = vec_zero := by
  simp [vec_scale, vec_zero]

theorem vec_zero_scale (s : K) : vec_scale (vec_zero : vec_t K) s = vec_zero := by
  simp [vec_scale, vec_zero]

/-- The function `compute_grad_point` in terms of the bodies of its loops. -/
theorem compute_grad_point_unfold (d : deps K) (ef : efp K) (frag_idx pt_idx : Nat) :
    compute_grad_point d ef frag_idx pt_idx =
      grad_point_charges d frag_idx
        ((ef.frags.getD frag_idx default).polarizable_pts.getD pt_idx default)
        ((List.range ef.frags.length).foldl (grad_frag_step d frag_idx
          ((ef.frags.getD frag_idx default).polarizable_pts.getD pt_idx default)) ef) := rfl

/-- One pairwise accumulation with zero force and zero torque terms leaves the state as
it is. -/
theorem grad_accumulate_zero (d : deps K) (hz : zero_force_is_neutral d) (s : efp K)
    (i j : Nat) (p q : vec_t K) (sw : swf K) :
    grad_accumulate d s i j p q vec_zero vec_zero vec_zero sw = s := by
  obtain ⟨h1, h2, h3⟩ := hz
  unfold grad_accumulate
  rw [frag_update_id s i _ (h1 _ _), frag_update_id s j _ (h2 _ _), h3]

theorem grad_nuclei_step_off (d : deps K) (hz : zero_force_is_neutral d)
    (damp : efp_pol_damp) (frag_idx j : Nat) (pt_i : polarizable_pt K) (dipole_i : vec_t K)
    (sw : swf K) (h0 : sw.swf = 0) (acc : efp K × K) (at_j : efp_atom K) :
    (grad_nuclei_step d damp frag_idx j pt_i dipole_i sw acc at_j).1 = acc.1 := by
  unfold grad_nuclei_step
  dsimp only
  rw [h0, vec_scale_zero, vec_scale_zero, vec_scale_zero, grad_accumulate_zero d hz]

theorem grad_multipole_step_off (d : deps K) (hz : zero_force_is_neutral d)
    (damp : efp_pol_damp) (frag_idx j : Nat) (pt_i : polarizable_pt K) (dipole_i : vec_t K)
    (sw : swf K) (h0 : sw.swf = 0) (acc : efp K × K) (pt_j : multipole_pt K) :
    (grad_multipole_step d damp frag_idx j pt_i dipole_i sw acc pt_j).1 = acc.1 := by
  unfold grad_multipole_step
  dsimp only
  rw [h0, vec_scale_zero, vec_scale_zero, vec_scale_zero, grad_accumulate_zero d hz]

theorem grad_dipole_step_off (d : deps K) (hz : zero_force_is_neutral d)
    (damp : efp_pol_damp) (frag_idx j : Nat) (pt_i : polarizable_pt K)
    (sw : swf K) (h0 : sw.swf = 0) (acc : efp K × K) (pt_j : polarizable_pt K) :
    (grad_dipole_step d damp frag_idx j pt_i sw acc pt_j).1 = acc.1 := by
  unfold grad_dipole_step
  dsimp only
  rw [h0, vec_scale_zero, vec_scale_zero, vec_scale_zero, grad_accumulate_zero d hz]

theorem grad_dswf_term_off (d : deps K) (hz : zero_force_is_neutral d) (frag_idx j : Nat)
    (sw : swf K) (h1 : sw.dswf = vec_zero) (acc : efp K × K) :
    grad_dswf_term d frag_idx j sw acc = acc.1 := by
  have hf : (⟨sw.dswf.x * acc.2, sw.dswf.y * acc.2, sw.dswf.z * acc.2⟩ : vec_t K)
      = vec_zero := by
    rw [h1]
    simp [vec_zero]
  have ha : ∀ v : vec_t K, vec_atomic_add v vec_zero = v := by
    intro v
    simp [vec_atomic_add, vec_zero]
  have hs : ∀ v : vec_t K, vec_atomic_sub v vec_zero = v := by
    intro v
    simp [vec_atomic_sub, vec_zero]
  unfold grad_dswf_term
  dsimp only
  rw [hf, frag_update_id acc.1 frag_idx _ (by rw [ha]),
    frag_update_id acc.1 j _ (by rw [hs]), hz.2.2]

/-- One pass of the loop over `j` leaves the state as it is when the pair is beyond the
cutoff. -/
theorem grad_frag_step_off (d : deps K) (ef : efp K) (hoff : all_pairs_beyond_cutoff d ef)
    (hz : zero_force_is_neutral d) (frag_idx : Nat) (pt_i : polarizable_pt K) (j : Nat)
    (hi : frag_idx < ef.frags.length) (hj : j < ef.frags.length) :
    grad_frag_step d frag_idx pt_i ef j = ef := by
  unfold grad_frag_step
  by_cases hc : j = frag_idx ∨ d.efp_skip_frag_pair ef frag_idx j = true
  · rw [if_pos hc]
  · rw [if_neg hc]
    have hne : frag_idx ≠ j := fun e => hc (Or.inl e.symm)
    have hsk : d.efp_skip_frag_pair ef frag_idx j = false := by
      cases hb : d.efp_skip_frag_pair ef frag_idx j
      · rfl
      · exact absurd (Or.inr hb) hc
    obtain ⟨h0, h1⟩ := hoff frag_idx j hi hj hne hsk
    rw [grad_dswf_term_off d hz frag_idx j _ h1]
    apply foldl_invariant (fun acc : efp K × K => acc.1 = ef)
    · apply foldl_invariant (fun acc : efp K × K => acc.1 = ef)
      · apply foldl_invariant (fun acc : efp K × K => acc.1 = ef)
        · rfl
        · intro acc x _ hacc
          rw [grad_nuclei_step_off d hz _ _ _ _ _ _ h0, hacc]
      · intro acc x _ hacc
        rw [grad_multipole_step_off d hz _ _ _ _ _ _ h0, hacc]
    · intro acc x _ hacc
      rw [grad_dipole_step_off d hz _ _ _ _ _ h0, hacc]

theorem compute_grad_point_off (d : deps K) (ef : efp K) (frag_idx pt_idx : Nat)
    (hai : ef.opts.terms &&& d.EFP_TERM_AI_POL = 0)
    (hoff : all_pairs_beyond_cutoff d ef) (hz : zero_force_is_neutral d)
    (hi : frag_idx < ef.frags.length) :
    compute_grad_point d ef frag_idx pt_idx = ef := by
  rw [compute_grad_point_unfold, foldl_fixed _ ef _
    (fun j hj => grad_frag_step_off d ef hoff hz frag_idx _ j hi (List.mem_range.mp hj))]
  unfold grad_point_charges
  rw [if_neg (not_not.mpr hai)]

theorem compute_grad_off (d : deps K) (ef : efp K)
    (hai : ef.opts.terms &&& d.EFP_TERM_AI_POL = 0)
    (hoff : all_pairs_beyond_cutoff d ef) (hz : zero_force_is_neutral d) :
    compute_grad d ef = ef := by
  unfold compute_grad
  dsimp only
  apply foldl_fixed
  intro i _
  apply foldl_fixed
  intro j hj
  exact compute_grad_point_off d ef i j hai hoff hz
    (frag_index_lt_of_point (List.mem_range.mp hj))

/-- C20: with the ab-initio polarization flag off and every interacting pair of
fragments at switching value 0 and switching gradient 0, `compute_grad` leaves the state
as it is:
the force and torque of every fragment and the stress tensor are unchanged. Accumulating
a zero force with zero torque terms is assumed to change nothing. -/
theorem compute_grad_beyond_cutoff (d : deps K) (ef : efp K)
    (hai : ef.opts.terms &&& d.EFP_TERM_AI_POL = 0)
    (hoff : all_pairs_beyond_cutoff d ef) (hz : zero_force_is_neutral d) :
    compute_grad d ef = ef ∧ all_forces (compute_grad d ef) = all_forces ef ∧
      (compute_grad d ef).stress = ef.stress := by
  rw [compute_grad_off d ef hai hoff hz]
  exact ⟨rfl, rfl, rfl⟩

theorem zero_force_is_neutral_demo_far : zero_force_is_neutral demo_deps_forces_far := by
  refine ⟨?_, ?_, ?_⟩
  · intro fr pt
    cases fr
    simp [demo_deps_forces_far, demo_deps_forces, vec_atomic_add, demo_cross, vec_zero]
  · intro fr pt
    cases fr
    simp [demo_deps_forces_far, demo_deps_forces, vec_atomic_sub, vec_atomic_add, demo_cross,
      vec_zero]
  · intro dr stress
    cases stress
    simp [demo_deps_forces_far, demo_deps_forces, vec_zero]

theorem zero_force_is_neutral_demo_cutoff : zero_force_is_neutral demo_deps_cutoff := by
  refine ⟨?_, ?_, ?_⟩
  · intro fr pt
    cases fr
    simp [demo_deps_cutoff, demo_deps_forces, vec_atomic_add, demo_cross, vec_zero]
  · intro fr pt
    cases fr
    simp [demo_deps_cutoff, demo_deps_forces, vec_atomic_sub, vec_atomic_add, demo_cross,
      vec_zero]
  · intro dr stress
    cases stress
    simp [demo_deps_cutoff, demo_deps_forces, vec_zero]

theorem demo_make_swf_far (fr_i fr_j : frag ℚ)
    (h : (fr_j.x - fr_i.x) * (fr_j.x - fr_i.x) + (fr_j.y - fr_i.y) * (fr_j.y - fr_i.y)
      + (fr_j.z - fr_i.z) * (fr_j.z - fr_i.z) > 100) :
    (demo_make_swf fr_i fr_j).swf = 0 ∧ (demo_make_swf fr_i fr_j).dswf = vec_zero := by
  unfold demo_make_swf
  rw [if_pos h]
  exact ⟨rfl, rfl⟩

/-- In the two-fragment system `demo_far` the two fragments are beyond the cutoff of the
distance-based switching `demo_make_swf`. -/
theorem all_pairs_beyond_cutoff_demo_far (pts0 pts1 : List (polarizable_pt ℚ)) :
    all_pairs_beyond_cutoff demo_deps_cutoff (demo_far pts0 pts1) := by
  intro i j hi hj hne _
  have hi2 : i < 2 := hi
  have hj2 : j < 2 := hj
  interval_cases i <;> interval_cases j
  · exact absurd rfl hne
  · exact demo_make_swf_far _ _ (by norm_num [demo_far])
  · exact demo_make_swf_far _ _ (by norm_num [demo_far])
  · exact absurd rfl hne

theorem compute_grad_beyond_cutoff_witness :
    (demo_far [demo_pt] [{ demo_pt with x := 1000 }]).opts.terms
      &&& demo_deps_cutoff.EFP_TERM_AI_POL = 0 ∧
    all_pairs_beyond_cutoff demo_deps_cutoff (demo_far [demo_pt] [{ demo_pt with x := 1000 }]) ∧
    zero_force_is_neutral demo_deps_cutoff ∧
    (demo_deps_cutoff.efp_make_swf (demo_far [demo_pt] [{ demo_pt with x := 1000 }])
      default default).swf = 1 ∧
    all_forces (compute_grad demo_deps_cutoff (demo_far [demo_pt] [{ demo_pt with x := 1000 }]))
      = [(⟨1, 2, 3⟩, ⟨4, 5, 6⟩), (⟨7, 8, 9⟩, vec_zero)] ∧
    (compute_grad demo_deps_cutoff (demo_far [demo_pt] [{ demo_pt with x := 1000 }])).stress
      = mat_zero := by
  have h := compute_grad_beyond_cutoff demo_deps_cutoff
    (demo_far [demo_pt] [{ demo_pt with x := 1000 }]) (by decide)
    (all_pairs_beyond_cutoff_demo_far _ _) zero_force_is_neutral_demo_cutoff
  exact ⟨by decide, all_pairs_beyond_cutoff_demo_far _ _, zero_force_is_neutral_demo_cutoff,
    by decide!, h.2.1.trans rfl, h.2.2.trans rfl⟩

/-! ## Newton's third law in the gradient pass -/

theorem sum_map_set {α : Type} (g : α → K) (dflt a : α) (l : List α) :
    ∀ i : Nat, i < l.length →
      ((l.set i a).map g).sum = (l.map g).sum - g (l.getD i dflt) + g a := by
  induction l with
  | nil => intro i h; exact absurd h (Nat.not_lt_zero i)
  | cons b l ih =>
    intro i h
    cases i with
    | zero =>
      simp only [List.set_cons_zero, List.map_cons, List.sum_cons, List.getD_cons_zero]
      ring
    | succ i =>
      have hi : i < l.length := Nat.lt_of_succ_lt_succ h
      simp only [List.set_cons_succ, List.map_cons, List.sum_cons, List.getD_cons_succ, ih i hi]
      ring

theorem frag_update_length (ef : efp K) (i : Nat) (f : frag K → frag K) :
    (frag_update ef i f).frags.length = ef.frags.length := by
  simp [frag_update]

/-- Replacing fragment `i` by one whose force is larger by `f` adds `f` to the total
force. -/
theorem total_force_frag_update_add (ef : efp K) (i : Nat) (hi : i < ef.frags.length)
    (F : frag K → frag K) (f : vec_t K)
    (hF : (F (ef.frags.getD i default)).force
      = vec_atomic_add (ef.frags.getD i default).force f) :
    total_force (frag_update ef i F) = vec_atomic_add (total_force ef) f := by
  simp only [total_force, frag_update, vec_atomic_add, vec_t.mk.injEq]
  refine ⟨?_, ?_, ?_⟩
  · rw [sum_map_set (fun fr : frag K => fr.force.x) default _ _ i hi, hF]
    simp only [vec_atomic_add]
    ring
  · rw [sum_map_set (fun fr : frag K => fr.force.y) default _ _ i hi, hF]
    simp only [vec_atomic_add]
    ring
  · rw [sum_map_set (fun fr : frag K => fr.force.z) default _ _ i hi, hF]
    simp only [vec_atomic_add]
    ring

theorem total_force_frag_update_sub (ef : efp K) (i : Nat) (hi : i < ef.frags.length)
    (F : frag K → frag K) (f : vec_t K)
    (hF : (F (ef.frags.getD i default)).force
      = vec_atomic_sub (ef.frags.getD i default).force f) :
    total_force (frag_update ef i F) = vec_atomic_sub (total_force ef) f := by
  simp only [total_force, frag_update, vec_atomic_sub, vec_t.mk.injEq]
  refine ⟨?_, ?_, ?_⟩
  · rw [sum_map_set (fun fr : frag K => fr.force.x) default _ _ i hi, hF]
    simp only [vec_atomic_sub]
    ring
  · rw [sum_map_set (fun fr : frag K => fr.force.y) default _ _ i hi, hF]
    simp only [vec_atomic_sub]
    ring
  · rw [sum_map_set (fun fr : frag K => fr.force.z) default _ _ i hi, hF]
    simp only [vec_atomic_sub]
    ring

theorem vec_add_sub_cancel (v f : vec_t K) : vec_atomic_sub (vec_atomic_add v f) f = v := by
  simp [vec_atomic_sub, vec_atomic_add]

theorem add_force_force (d : deps K) (hacc : force_accumulators d) (fr : frag K)
    (pt f a : vec_t K) : (d.efp_add_force fr pt f a).force = vec_atomic_add fr.force f := by
  obtain ⟨t, ht⟩ := hacc.1 fr pt f a
  rw [ht]

theorem sub_force_force (d : deps K) (hacc : force_accumulators d) (fr : frag K)
    (pt f a : vec_t K) : (d.efp_sub_force fr pt f a).force = vec_atomic_sub fr.force f := by
  obtain ⟨t, ht⟩ := hacc.2 fr pt f a
  rw [ht]

theorem total_force_congr {a b : efp K} (h : a.frags = b.frags) :
    total_force a = total_force b := by
  simp only [total_force, h]

/-- Adding a force to fragment `i` and subtracting the same force from fragment `j`
keeps the number of fragments and the total force. -/
theorem add_sub_invariant (s : efp K) (i j : Nat) (hi : i < s.frags.length)
    (hj : j < s.frags.length) (f : vec_t K) (A B : frag K → frag K)
    (hA : ∀ fr, (A fr).force = vec_atomic_add fr.force f)
    (hB : ∀ fr, (B fr).force = vec_atomic_sub fr.force f) :
    (frag_update (frag_update s i A) j B).frags.length = s.frags.length ∧
    total_force (frag_update (frag_update s i A) j B) = total_force s := by
  have h1 := total_force_frag_update_add s i hi A f (hA _)
  have hj' : j < (frag_update s i A).frags.length := by
    rw [frag_update_length]; exact hj
  have h2 := total_force_frag_update_sub _ j hj' B f (hB _)
  refine ⟨?_, ?_⟩
  · rw [frag_update_length, frag_update_length]
  · rw [h2, h1, vec_add_sub_cancel]

/-- Each pairwise accumulation keeps the invariant of the gradient pass. -/
theorem grad_accumulate_invariant (d : deps K) (hacc : force_accumulators d)
    (n : Nat) (o : efp_opts) (F : vec_t K) (s : efp K) (hs : grad_inv n o F s)
    (i j : Nat) (hi : i < n) (hj : j < n)
    (p q force add_i add_j : vec_t K) (sw : swf K) :
    grad_inv n o F (grad_accumulate d s i j p q force add_i add_j sw) := by
  obtain ⟨a1, a2, a3⟩ := hs
  obtain ⟨b1, b2⟩ := add_sub_invariant s i j (by rw [a1]; exact hi) (by rw [a1]; exact hj)
    force (fun fr => d.efp_add_force fr p force add_i)
    (fun fr => d.efp_sub_force fr q force add_j)
    (fun fr => add_force_force d hacc fr p force add_i)
    (fun fr => sub_force_force d hacc fr q force add_j)
  exact ⟨b1.trans a1, a2, (total_force_congr rfl).trans (b2.trans a3)⟩

theorem grad_dswf_term_invariant (d : deps K) (n : Nat) (o : efp_opts) (F : vec_t K)
    (frag_idx j : Nat) (hi : frag_idx < n) (hj : j < n) (sw : swf K)
    (acc : efp K × K) (hs : grad_inv n o F acc.1) :
    grad_inv n o F (grad_dswf_term d frag_idx j sw acc) := by
  obtain ⟨a1, a2, a3⟩ := hs
  have key := fun f : vec_t K => add_sub_invariant acc.1 frag_idx j (by rw [a1]; exact hi)
    (by rw [a1]; exact hj) f (fun fr => { fr with force := vec_atomic_add fr.force f })
    (fun fr => { fr with force := vec_atomic_sub fr.force f }) (fun _ => rfl) (fun _ => rfl)
  obtain ⟨b1, b2⟩ := key ⟨sw.dswf.x * acc.2, sw.dswf.y * acc.2, sw.dswf.z * acc.2⟩
  exact ⟨b1.trans a1, a2, (total_force_congr rfl).trans (b2.trans a3)⟩

/-- One pass of the loop over `j` of `compute_grad_point` keeps the invariant. -/
theorem grad_frag_step_invariant (d : deps K) (hacc : force_accumulators d)
    (n : Nat) (o : efp_opts) (F : vec_t K) (frag_idx : Nat) (pt_i : polarizable_pt K)
    (s : efp K) (j : Nat) (hi : frag_idx < n) (hj : j < n) (hs : grad_inv n o F s) :
    grad_inv n o F (grad_frag_step d frag_idx pt_i s j) := by
  unfold grad_frag_step
  split
  · exact hs
  · apply grad_dswf_term_invariant d n o F frag_idx j hi hj
    apply foldl_invariant (fun acc : efp K × K => grad_inv n o F acc.1)
    · apply foldl_invariant (fun acc : efp K × K => grad_inv n o F acc.1)
      · apply foldl_invariant (fun acc : efp K × K => grad_inv n o F acc.1)
        · exact hs
        · intro acc x _ ha
          exact grad_accumulate_invariant d hacc n o F acc.1 ha frag_idx j hi hj _ _ _ _ _ _
      · intro acc x _ ha
        exact grad_accumulate_invariant d hacc n o F acc.1 ha frag_idx j hi hj _ _ _ _ _ _
    · intro acc x _ ha
      exact grad_accumulate_invariant d hacc n o F acc.1 ha frag_idx j hi hj _ _ _ _ _ _

/-- For a point of a fragment of the system, with the ab-initio flag off,
`compute_grad_point` keeps the invariant. -/
theorem compute_grad_point_invariant (d : deps K) (hacc : force_accumulators d)
    (n : Nat) (o : efp_opts) (F : vec_t K) (ho : o.terms &&& d.EFP_TERM_AI_POL = 0)
    (s : efp K) (frag_idx pt_idx : Nat) (hi : frag_idx < n) (hs : grad_inv n o F s) :
    grad_inv n o F (compute_grad_point d s frag_idx pt_idx) := by
  rw [compute_grad_point_unfold]
  have hfold : grad_inv n o F ((List.range s.frags.length).foldl (grad_frag_step d frag_idx
      ((s.frags.getD frag_idx default).polarizable_pts.getD pt_idx default)) s) := by
    apply foldl_invariant (grad_inv n o F)
    · exact hs
    · intro acc j hj ha
      have hjn : j < n := by
        rw [← hs.1]
        exact List.mem_range.mp hj
      exact grad_frag_step_invariant d hacc n o F frag_idx _ acc j hi hjn ha
  unfold grad_point_charges
  rw [hfold.2.1, if_neg (not_not.mpr ho)]
  exact hfold

theorem compute_grad_invariant (d : deps K) (hacc : force_accumulators d)
    (ef : efp K) (hai : ef.opts.terms &&& d.EFP_TERM_AI_POL = 0) :
    grad_inv ef.frags.length ef.opts (total_force ef) (compute_grad d ef) := by
  unfold compute_grad
  dsimp only
  apply foldl_invariant (grad_inv ef.frags.length ef.opts (total_force ef))
  · exact ⟨rfl, rfl, rfl⟩
  · intro s i _ hs
    apply foldl_invariant (grad_inv ef.frags.length ef.opts (total_force ef))
    · exact hs
    · intro s' j hj hs'
      have hi : i < ef.frags.length := by
        by_contra hge
        have hlen : s.frags.length ≤ i := by rw [hs.1]; exact not_lt.mp hge
        rw [List.getD_eq_default s.frags default hlen] at hj
        exact absurd hj (List.not_mem_nil j)
      exact compute_grad_point_invariant d hacc _ _ _ hai s' i j hi hs'

/-- C18: with the ab-initio polarization flag off, every pairwise contribution of
`compute_grad_point` (nucleus, multipole and induced-dipole terms through
`grad_accumulate`, and the switching-derivative term) adds a force vector to fragment
`i` and subtracts the same vector from fragment `j`, so the total force is kept by each
of them and the sum of the force vectors over all fragments is the same after
`compute_grad` as before it. The accumulation helpers are assumed to add, respectively
subtract, the force they are given. -/
theorem compute_grad_total_force (d : deps K) (ef : efp K)
    (hacc : force_accumulators d) (hai : ef.opts.terms &&& d.EFP_TERM_AI_POL = 0) :
    (∀ (s : efp K) (i j : Nat) (p q force add_i add_j : vec_t K) (sw : swf K),
      i < s.frags.length → j < s.frags.length →
      total_force (grad_accumulate d s i j p q force add_i add_j sw) = total_force s) ∧
    (∀ (i j : Nat) (sw : swf K) (acc : efp K × K),
      i < acc.1.frags.length → j < acc.1.frags.length →
      total_force (grad_dswf_term d i j sw acc) = total_force acc.1) ∧
    total_force (compute_grad d ef) = total_force ef ∧
    (total_force ef = vec_zero → total_force (compute_grad d ef) = vec_zero) := by
  refine ⟨?_, ?_, (compute_grad_invariant d hacc ef hai).2.2, ?_⟩
  · intro s i j p q force add_i add_j sw hi hj
    exact (grad_accumulate_invariant d hacc s.frags.length s.opts (total_force s) s
      ⟨rfl, rfl, rfl⟩ i j hi hj p q force add_i add_j sw).2.2
  · intro i j sw acc hi hj
    exact (grad_dswf_term_invariant d acc.1.frags.length acc.1.opts (total_force acc.1)
      i j hi hj sw acc ⟨rfl, rfl, rfl⟩).2.2
  · intro h
    rw [(compute_grad_invariant d hacc ef hai).2.2, h]

theorem force_accumulators_demo : force_accumulators demo_deps_forces :=
  ⟨fun _ _ _ _ => ⟨_, rfl⟩, fun _ _ _ _ => ⟨_, rfl⟩⟩

theorem compute_grad_total_force_witness :
    force_accumulators demo_deps_forces ∧
    (demo_efp 2 none).opts.terms &&& demo_deps_forces.EFP_TERM_AI_POL = 0 ∧
    all_forces (compute_grad demo_deps_forces (demo_efp 2 none))
      = [(⟨0, 2, 3⟩, ⟨4, 21 / 2, 6⟩), (⟨8, 8, 9⟩, ⟨-11 / 2, 0, 0⟩)] ∧
    total_force (demo_efp 2 none) = ⟨8, 10, 12⟩ ∧
    total_force (compute_grad demo_deps_forces (demo_efp 2 none))
      = total_force (demo_efp 2 none) :=
  ⟨force_accumulators_demo, by decide, by decide!, by decide!,
    (compute_grad_total_force demo_deps_forces (demo_efp 2 none) force_accumulators_demo
      (by decide)).2.2.1⟩

/-! ## What the fields at a point depend on -/

theorem skip_false_of_not {c : Prop} {b : Bool} (h : ¬ (c ∨ b = true)) : b = false := by
  cases b
  · rfl
  · exact absurd (Or.inr rfl) h

theorem get_multipole_field_congr (d : deps K) (a b : efp K) (pt_a pt_b : polarizable_pt K)
    (mult_pt : multipole_pt K) (sw : swf K) (hopts : a.opts = b.opts)
    (hpos : pt_a.pos = pt_b.pos) :
    get_multipole_field d a pt_a mult_pt sw = get_multipole_field d b pt_b mult_pt sw := by
  have hx : pt_a.x = pt_b.x := congrArg vec_t.x hpos
  have hy : pt_a.y = pt_b.y := congrArg vec_t.y hpos
  have hz : pt_a.z = pt_b.z := congrArg vec_t.z hpos
  unfold get_multipole_field
  rw [hopts, hx, hy, hz]

/-- The static field at a point of fragment `f` is the same in two states that differ
only in the atoms and multipole points of `f` and of the fragments excluded from
interacting with `f`. -/
theorem get_elec_field_agree (d : deps K) (a b : efp K) (f p : Nat)
    (h : agree_for_static_field d a b f p) :
    get_elec_field d a f p = get_elec_field d b f p := by
  obtain ⟨hlen, hopts, hptc, hpos, hskip, hrest⟩ := h
  have hx : ((a.frags.getD f default).polarizable_pts.getD p default).x
      = ((b.frags.getD f default).polarizable_pts.getD p default).x := congrArg vec_t.x hpos
  have hy : ((a.frags.getD f default).polarizable_pts.getD p default).y
      = ((b.frags.getD f default).polarizable_pts.getD p default).y := congrArg vec_t.y hpos
  have hz : ((a.frags.getD f default).polarizable_pts.getD p default).z
      = ((b.frags.getD f default).polarizable_pts.getD p default).z := congrArg vec_t.z hpos
  unfold get_elec_field
  dsimp only
  rw [hopts, hptc, hpos, hlen]
  congr 1
  · congr 1
    apply List.foldl_ext
    intro acc i _
    rw [hskip i]
    by_cases hc : i = f ∨ d.efp_skip_frag_pair b i f = true
    · rw [if_pos hc, if_pos hc]
    · rw [if_neg hc, if_neg hc]
      have hne : i ≠ f := fun e => hc (Or.inl e)
      have hsk : d.efp_skip_frag_pair a i f = false := by
        rw [hskip i]
        exact skip_false_of_not hc
      obtain ⟨hat, hmp, hsw⟩ := hrest i hne hsk
      rw [hat, hmp, hsw, hx, hy, hz]
      congr 1
      · funext acc' mult_pt
        rw [get_multipole_field_congr d a b _ _ mult_pt _ hopts hpos]
  · apply List.foldl_ext
    intro acc i _
    rw [hskip i]
    by_cases hc : i = f ∨ d.efp_skip_frag_pair b i f = true
    · rw [if_pos hc, if_pos hc]
    · rw [if_neg hc, if_neg hc]
      have hne : i ≠ f := fun e => hc (Or.inl e)
      have hsk : d.efp_skip_frag_pair a i f = false := by
        rw [hskip i]
        exact skip_false_of_not hc
      obtain ⟨hat, hmp, hsw⟩ := hrest i hne hsk
      rw [hat, hmp, hsw, hx, hy, hz]
      congr 1
      · funext acc' mult_pt
        rw [get_multipole_field_congr d a b _ _ mult_pt _ hopts hpos]

/-- The induced-dipole field at a point of fragment `f` is the same in two states that
differ only in the polarizable points of `f` and of the fragments excluded from
interacting with `f`. -/
theorem get_induced_dipole_field_agree (d : deps K) (a b : efp K) (f : Nat)
    (pt_a pt_b : polarizable_pt K) (h : agree_for_induced_field d a b f pt_a pt_b) :
    get_induced_dipole_field d a f pt_a = get_induced_dipole_field d b f pt_b := by
  obtain ⟨hlen, hopts, hpos, hskip, hrest⟩ := h
  have hx : pt_a.x = pt_b.x := congrArg vec_t.x hpos
  have hy : pt_a.y = pt_b.y := congrArg vec_t.y hpos
  have hz : pt_a.z = pt_b.z := congrArg vec_t.z hpos
  unfold get_induced_dipole_field
  dsimp only
  rw [hlen]
  apply List.foldl_ext
  intro acc j _
  rw [hskip j]
  by_cases hc : j = f ∨ d.efp_skip_frag_pair b f j = true
  · rw [if_pos hc, if_pos hc]
  · rw [if_neg hc, if_neg hc]
    have hne : j ≠ f := fun e => hc (Or.inl e)
    have hsk : d.efp_skip_frag_pair a f j = false := by
      rw [hskip j]
      exact skip_false_of_not hc
    obtain ⟨hpts, hsw⟩ := hrest j hne hsk
    rw [hpts, hsw, hx, hy, hz, hopts]

/-- C19: the static field and the induced-dipole field at a polarizable point of
fragment `f` are the same in any two states that differ only in data of fragment `f`
itself and of fragments for which `efp_skip_frag_pair` holds: their nuclear charges and
multipole moments for `get_elec_field`, their induced and conjugate dipoles, the
point's own included, for `get_induced_dipole_field`. -/
theorem fields_ignore_excluded_fragments (d : deps K) (a b : efp K) (f p : Nat)
    (pt_a pt_b : polarizable_pt K)
    (hs : agree_for_static_field d a b f p)
    (hi : agree_for_induced_field d a b f pt_a pt_b) :
    get_elec_field d a f p = get_elec_field d b f p ∧
    get_induced_dipole_field d a f pt_a = get_induced_dipole_field d b f pt_b :=
  ⟨get_elec_field_agree d a b f p hs, get_induced_dipole_field_agree d a b f pt_a pt_b hi⟩

theorem demo_three_agree_static :
    agree_for_static_field demo_deps_skip (demo_three 1 [] ⟨5, 5, 5⟩)
      (demo_three 50 [⟨0, 0, 1, 9⟩] ⟨0, 0, 0⟩) 0 0 := by
  refine ⟨rfl, rfl, rfl, rfl, fun _ => rfl, ?_⟩
  intro g hg hsk
  match g, hg, hsk with
  | 0, hg, _ => exact absurd rfl hg
  | 1, _, _ => exact ⟨rfl, rfl, rfl⟩
  | 2, _, hsk => exact absurd hsk (by decide)
  | n + 3, _, _ => exact ⟨rfl, rfl, rfl⟩

theorem demo_three_agree_induced :
    agree_for_induced_field demo_deps_skip (demo_three 1 [] ⟨5, 5, 5⟩)
      (demo_three 50 [⟨0, 0, 1, 9⟩] ⟨0, 0, 0⟩) 0
      { demo_pt with induced_dipole := ⟨5, 5, 5⟩ }
      { demo_pt with induced_dipole := ⟨0, 0, 0⟩ } := by
  refine ⟨rfl, rfl, rfl, fun _ => rfl, ?_⟩
  intro g hg hsk
  match g, hg, hsk with
  | 0, hg, _ => exact absurd rfl hg
  | 1, _, _ => exact ⟨rfl, rfl⟩
  | 2, _, hsk => exact absurd hsk (by decide)
  | n + 3, _, _ => exact ⟨rfl, rfl⟩

theorem fields_ignore_excluded_fragments_witness :
    get_elec_field demo_deps_skip (demo_three 1 [] ⟨5, 5, 5⟩) 0 0
      = get_elec_field demo_deps_skip (demo_three 50 [⟨0, 0, 1, 9⟩] ⟨0, 0, 0⟩) 0 0 ∧
    get_induced_dipole_field demo_deps_skip (demo_three 1 [] ⟨5, 5, 5⟩) 0
        { demo_pt with induced_dipole := ⟨5, 5, 5⟩ }
      = get_induced_dipole_field demo_deps_skip (demo_three 50 [⟨0, 0, 1, 9⟩] ⟨0, 0, 0⟩) 0
        { demo_pt with induced_dipole := ⟨0, 0, 0⟩ } ∧
    get_elec_field demo_deps_skip (demo_three 1 [] ⟨5, 5, 5⟩) 0 0 = ⟨-1, 0, 0⟩ ∧
    get_elec_field demo_deps (demo_three 50 [⟨0, 0, 1, 9⟩] ⟨0, 0, 0⟩) 0 0 = ⟨-1, -50, 0⟩ := by
  have h := fields_ignore_excluded_fragments demo_deps_skip (demo_three 1 [] ⟨5, 5, 5⟩)
    (demo_three 50 [⟨0, 0, 1, 9⟩] ⟨0, 0, 0⟩) 0 0 _ _ demo_three_agree_static
    demo_three_agree_induced
  exact ⟨h.1, h.2, by decide!, by decide!⟩

/-! ## Independence of the point fields held on entry -/

theorem frag_core_getD {a b : efp K} (h : efp_core a = efp_core b) (i : Nat) :
    frag_core (a.frags.getD i default) = frag_core (b.frags.getD i default) := by
  have hf : a.frags.map frag_core = b.frags.map frag_core := congrArg efp.frags h
  have hdef : frag_core (default : frag K) = default := rfl
  have ha := @List.getD_map _ _ a.frags default i frag_core
  have hb := @List.getD_map _ _ b.frags default i frag_core
  rw [← ha, ← hb, hf]

theorem pt_core_getD {fa fb : frag K} (h : frag_core fa = frag_core fb) (j : Nat) :
    pt_core (fa.polarizable_pts.getD j default) = pt_core (fb.polarizable_pts.getD j default) := by
  have hf : fa.polarizable_pts.map pt_core = fb.polarizable_pts.map pt_core :=
    congrArg frag.polarizable_pts h
  have ha := @List.getD_map _ _ fa.polarizable_pts default j pt_core
  have hb := @List.getD_map _ _ fb.polarizable_pts default j pt_core
  rw [← ha, ← hb, hf]

theorem of_frag_core_eq {fa fb : frag K} (h : frag_core fa = frag_core fb) :
    fa.atoms = fb.atoms ∧ fa.multipole_pts = fb.multipole_pts ∧
    fa.polarizable_offset = fb.polarizable_offset ∧
    fa.polarizable_pts.length = fb.polarizable_pts.length ∧
    ∀ j, (fa.polarizable_pts.getD j default).pos = (fb.polarizable_pts.getD j default).pos := by
  have h1 : (frag_core fa).atoms = (frag_core fb).atoms := congrArg frag.atoms h
  have h2 : (frag_core fa).multipole_pts = (frag_core fb).multipole_pts :=
    congrArg frag.multipole_pts h
  have h3 : (frag_core fa).polarizable_offset = (frag_core fb).polarizable_offset :=
    congrArg frag.polarizable_offset h
  have h4 : (frag_core fa).polarizable_pts.length = (frag_core fb).polarizable_pts.length :=
    congrArg (fun fr => fr.polarizable_pts.length) h
  refine ⟨h1, h2, h3, ?_, ?_⟩
  · simpa [frag_core] using h4
  · intro j
    have hp : (pt_core (fa.polarizable_pts.getD j default)).pos
        = (pt_core (fb.polarizable_pts.getD j default)).pos :=
      congrArg polarizable_pt.pos (pt_core_getD h j)
    exact hp

theorem agree_for_static_field_of_core (d : deps K) (hd : reads_core_only d) {a b : efp K}
    (h : efp_core a = efp_core b) (f p : Nat) : agree_for_static_field d a b f p := by
  obtain ⟨-, -, hopts, -, hlen, -, hptc, -, -, -⟩ := of_efp_core_eq h
  have hskip : ∀ i j, d.efp_skip_frag_pair a i j = d.efp_skip_frag_pair b i j := by
    intro i j
    rw [hd.1 a i j, hd.1 b i j, h]
  refine ⟨hlen, hopts, hptc, (of_frag_core_eq (frag_core_getD h f)).2.2.2.2 p,
    fun g => hskip g f, ?_⟩
  intro g _ _
  obtain ⟨hat, hmp, -, -, -⟩ := of_frag_core_eq (frag_core_getD h g)
  refine ⟨hat, hmp, ?_⟩
  rw [hd.2 a, hd.2 b, h, frag_core_getD h g, frag_core_getD h f]

/-- The static field at a point is the same in two states with the same core. -/
theorem get_elec_field_of_core (d : deps K) (hd : reads_core_only d) {a b : efp K}
    (h : efp_core a = efp_core b) (f p : Nat) :
    get_elec_field d a f p = get_elec_field d b f p :=
  get_elec_field_agree d a b f p (agree_for_static_field_of_core d hd h f p)

theorem elec_field_array_of_core (d : deps K) (hd : reads_core_only d) {a b : efp K}
    (h : efp_core a = efp_core b) : elec_field_array d a = elec_field_array d b := by
  obtain ⟨-, -, -, hmpi, -, -, -, -, -, -⟩ := of_efp_core_eq h
  unfold elec_field_array
  rw [hmpi]
  apply List.foldl_ext
  intro acc i _
  obtain ⟨-, -, hoff, hlen, -⟩ := of_frag_core_eq (frag_core_getD h i)
  rw [hlen, hoff]
  apply List.foldl_ext
  intro acc2 j _
  rw [get_elec_field_of_core d hd h i j]

theorem map_mapIdx_map {α β γ δ : Type} (g : β → δ) (c : α → γ) (l : List α) :
    ∀ (f : Nat → α → β) (f' : Nat → γ → β), (∀ j a, g (f j a) = g (f' j (c a))) →
      (l.mapIdx f).map g = ((l.map c).mapIdx f').map g := by
  induction l with
  | nil => intro f f' _; simp
  | cons a l ih =>
    intro f f' hf
    rw [List.map_cons, List.mapIdx_cons, List.mapIdx_cons, List.map_cons, List.map_cons, hf 0 a,
      ih (fun i => f (i + 1)) (fun i => f' (i + 1)) (fun j a => hf (j + 1) a)]

theorem mapIdx_map_comm {α β : Type} (z : α → α) (y : β → β) (l : List α) :
    ∀ (w : Nat → α → β) (w' : Nat → α → β), (∀ j a, w' j (z a) = y (w j a)) →
      (l.map z).mapIdx w' = (l.mapIdx w).map y := by
  induction l with
  | nil => intro w w' _; simp
  | cons a l ih =>
    intro w w' hw
    rw [List.map_cons, List.mapIdx_cons, List.mapIdx_cons, List.map_cons, hw 0 a,
      ih (fun i => w (i + 1)) (fun i => w' (i + 1)) (fun j a => hw (j + 1) a)]

/-- Clearing the dipoles after the static field has been stored gives a state that is
determined by the core of the state the field was stored into. -/
theorem zero_induced_dipoles_with_static_field (E : Nat → vec_t K) (s : efp K) :
    zero_induced_dipoles (with_static_field E s)
      = zero_induced_dipoles (with_static_field E (efp_core s)) := by
  simp only [zero_induced_dipoles, with_static_field, efp_core, List.map_map]
  congr 1
  apply List.map_congr_left
  intro fr _
  simp only [Function.comp, frag_core]
  congr 1
  apply map_mapIdx_map
  intro j a
  rfl

theorem zero_induced_dipoles_with_static_field_of_core (E : Nat → vec_t K) {a b : efp K}
    (h : efp_core a = efp_core b) :
    zero_induced_dipoles (with_static_field E a)
      = zero_induced_dipoles (with_static_field E b) := by
  rw [zero_induced_dipoles_with_static_field E a, zero_induced_dipoles_with_static_field E b, h]

theorem all_positions_zero_induced_dipoles (s : efp K) :
    all_positions (zero_induced_dipoles s) = all_positions s := by
  simp only [all_positions, zero_induced_dipoles, List.flatMap, List.map_map]
  congr 1
  apply List.map_congr_left
  intro fr _
  simp only [Function.comp, List.map_map]
  apply List.map_congr_left
  intro pt _
  rfl

theorem store_elec_field_wf_map (field : List (vec_t K)) (l : List (frag K)) :
    ∀ idx, store_elec_field_wf field (l.map (fun frag =>
        { frag with polarizable_pts := frag.polarizable_pts.map (fun pt =>
            { pt with induced_dipole := vec_zero, induced_dipole_conj := vec_zero }) })) idx
      = (store_elec_field_wf field l idx).map (fun frag =>
        { frag with polarizable_pts := frag.polarizable_pts.map (fun pt =>
            { pt with induced_dipole := vec_zero, induced_dipole_conj := vec_zero }) }) := by
  induction l with
  | nil => intro idx; rfl
  | cons fr l ih =>
    intro idx
    rw [List.map_cons, store_elec_field_wf, store_elec_field_wf, List.map_cons]
    dsimp only
    rw [List.length_map, ih]
    congr 1
    congr 1
    apply mapIdx_map_comm
    intro j a
    rfl

theorem add_electron_density_field_none_eq (s : efp K)
    (h : s.get_electron_density_field = none) :
    add_electron_density_field s = (EFP_RESULT_SUCCESS,
      { s with frags := s.frags.map (fun fr =>
          { fr with polarizable_pts := fr.polarizable_pts.map (fun pt =>
              { pt with elec_field_wf := vec_zero }) }) }) := by
  unfold add_electron_density_field
  rw [h]

theorem add_electron_density_field_some_eq (s : efp K)
    (cb : Nat → List (vec_t K) → efp_result × List (vec_t K))
    (h : s.get_electron_density_field = some cb) :
    add_electron_density_field s =
      if (cb s.n_polarizable_pts (all_positions s)).1 ≠ EFP_RESULT_SUCCESS
        then ((cb s.n_polarizable_pts (all_positions s)).1, s)
        else (EFP_RESULT_SUCCESS,
          { s with frags :=
              (store_elec_field_wf (cb s.n_polarizable_pts (all_positions s)).2 s.frags 0) }) := by
  unfold add_electron_density_field
  rw [h]
  rfl

/-- The electron-density stage does not look at the dipoles: it commutes with clearing
them. -/
theorem add_electron_density_field_zero_induced_dipoles (s : efp K) :
    add_electron_density_field (zero_induced_dipoles s)
      = ((add_electron_density_field s).1,
          zero_induced_dipoles (add_electron_density_field s).2) := by
  cases hcb : s.get_electron_density_field with
  | none =>
    have hz : (zero_induced_dipoles s).get_electron_density_field = none := hcb
    rw [add_electron_density_field_none_eq _ hz, add_electron_density_field_none_eq _ hcb]
    simp only [zero_induced_dipoles, List.map_map]
    refine congrArg (Prod.mk EFP_RESULT_SUCCESS) ?_
    congr 1
    apply List.map_congr_left
    intro fr _
    simp only [Function.comp, List.map_map]
    congr 1
  | some cb =>
    have hz : (zero_induced_dipoles s).get_electron_density_field = some cb := hcb
    have hn : (zero_induced_dipoles s).n_polarizable_pts = s.n_polarizable_pts := rfl
    rw [add_electron_density_field_some_eq _ cb hz, add_electron_density_field_some_eq _ cb hcb,
      all_positions_zero_induced_dipoles, hn]
    by_cases hne : (cb s.n_polarizable_pts (all_positions s)).1 ≠ EFP_RESULT_SUCCESS
    · rw [if_pos hne, if_pos hne]
    · rw [if_neg hne, if_neg hne]
      simp only [zero_induced_dipoles, store_elec_field_wf_map]

/-- With `reads_core_only`, `compute_elec_field` returns the same code on two states
with the same core, and the states it leaves differ at most in the dipoles. -/
theorem compute_elec_field_of_core (d : deps K) (hd : reads_core_only d) {a b : efp K}
    (h : efp_core a = efp_core b) :
    (compute_elec_field d a).1 = (compute_elec_field d b).1 ∧
      zero_induced_dipoles (compute_elec_field d a).2
        = zero_induced_dipoles (compute_elec_field d b).2 := by
  obtain ⟨-, -, hopts, -, -, -, -, -, -, -⟩ := of_efp_core_eq h
  have hz := @zero_induced_dipoles_with_static_field_of_core K _ (elec_field_array d b) a b h
  have ha := add_electron_density_field_zero_induced_dipoles
    (with_static_field (elec_field_array d b) a)
  have hb := add_electron_density_field_zero_induced_dipoles
    (with_static_field (elec_field_array d b) b)
  rw [hz] at ha
  rw [hb] at ha
  have h1 : (add_electron_density_field (with_static_field (elec_field_array d b) b)).1
      = (add_electron_density_field (with_static_field (elec_field_array d b) a)).1 :=
    (Prod.mk.inj ha).1
  have h2 : zero_induced_dipoles
        (add_electron_density_field (with_static_field (elec_field_array d b) b)).2
      = zero_induced_dipoles
        (add_electron_density_field (with_static_field (elec_field_array d b) a)).2 :=
    (Prod.mk.inj ha).2
  rw [compute_elec_field_unfold d a, compute_elec_field_unfold d b,
    elec_field_array_of_core d hd h, hopts]
  by_cases hai : b.opts.terms &&& d.EFP_TERM_AI_POL ≠ 0
  · rw [if_pos hai, if_pos hai, ← h1]
    by_cases hne : (add_electron_density_field
        (with_static_field (elec_field_array d b) b)).1 ≠ EFP_RESULT_SUCCESS
    · rw [if_pos hne, if_pos hne]
      exact ⟨h1.symm, h2.symm⟩
    · rw [if_neg hne, if_neg hne]
      exact ⟨rfl, h2.symm⟩
  · rw [if_neg hai, if_neg hai]
    exact ⟨rfl, hz⟩

theorem scf_start_of_core (d : deps K) (hd : reads_core_only d) {a b : efp K}
    (h : efp_core a = efp_core b) : scf_start d a = scf_start d b :=
  (compute_elec_field_of_core d hd h).2

theorem dipoles_store_elec_field_wf (field : List (vec_t K)) (l : List (frag K)) :
    ∀ idx, (store_elec_field_wf field l idx).map (fun fr => fr.polarizable_pts.map (fun pt =>
        (pt.induced_dipole, pt.induced_dipole_conj)))
      = l.map (fun fr => fr.polarizable_pts.map (fun pt =>
        (pt.induced_dipole, pt.induced_dipole_conj))) := by
  induction l with
  | nil => intro idx; rfl
  | cons fr l ih =>
    intro idx
    rw [store_elec_field_wf, List.map_cons, List.map_cons, ih]
    congr 1
    apply map_mapIdx_of_forall
    intro j a
    rfl

theorem all_dipoles_add_electron_density_field (s : efp K) :
    all_dipoles (add_electron_density_field s).2 = all_dipoles s := by
  cases hcb : s.get_electron_density_field with
  | none =>
    rw [add_electron_density_field_none_eq _ hcb]
    apply all_dipoles_map_points
    intro fr
    rw [List.map_map]
    rfl
  | some cb =>
    rw [add_electron_density_field_some_eq _ cb hcb]
    split
    · rfl
    · exact dipoles_store_elec_field_wf _ _ 0

/-- The static field stage never writes a dipole. -/
theorem all_dipoles_compute_elec_field (d : deps K) (ef : efp K) :
    all_dipoles (compute_elec_field d ef).2 = all_dipoles ef := by
  obtain ⟨ef1, -, hdip, heq⟩ := compute_elec_field_cases d ef
  rw [heq]
  split
  · split
    · rw [all_dipoles_add_electron_density_field, hdip]
    · rw [all_dipoles_add_electron_density_field, hdip]
  · exact hdip

theorem list_eq_of_map_eq {α β γ : Type} (f : α → β) (g : α → γ) :
    ∀ (l1 l2 : List α), (∀ x ∈ l1, ∀ y ∈ l2, f x = f y → g x = g y → x = y) →
      l1.map f = l2.map f → l1.map g = l2.map g → l1 = l2 := by
  intro l1
  induction l1 with
  | nil =>
    intro l2 _ hf _
    cases l2 with
    | nil => rfl
    | cons y l2 => simp at hf
  | cons x l1 ih =>
    intro l2 hinj hf hg
    cases l2 with
    | nil => simp at hf
    | cons y l2 =>
      rw [List.map_cons, List.map_cons, List.cons.injEq] at hf hg
      have hxy := hinj x (List.mem_cons_self x l1) y (List.mem_cons_self y l2) hf.1 hg.1
      have hrest := ih l2 (fun x1 hx1 y1 hy1 => hinj x1 (List.mem_cons_of_mem x hx1) y1
        (List.mem_cons_of_mem y hy1)) hf.2 hg.2
      rw [hxy, hrest]

/-- Two states that agree once their dipoles are cleared and that hold the same dipoles
are equal. -/
theorem eq_of_zero_induced_dipoles_eq {x y : efp K}
    (hz : zero_induced_dipoles x = zero_induced_dipoles y)
    (hd : all_dipoles x = all_dipoles y) : x = y := by
  have hfr : x.frags = y.frags := by
    have hzf : (zero_induced_dipoles x).frags = (zero_induced_dipoles y).frags :=
      congrArg efp.frags hz
    apply list_eq_of_map_eq _ _ x.frags y.frags ?_ hzf hd
    intro fx _ fy _ hf hg
    have hpts : fx.polarizable_pts = fy.polarizable_pts := by
      have hzp := congrArg frag.polarizable_pts hf
      apply list_eq_of_map_eq _ _ fx.polarizable_pts fy.polarizable_pts ?_ hzp hg
      intro px _ py _ hp hq
      cases px
      cases py
      simp only [polarizable_pt.mk.injEq, Prod.mk.injEq] at hp hq ⊢
      exact ⟨hp.1, hp.2.1, hp.2.2.1, hp.2.2.2.1, hp.2.2.2.2.1, hp.2.2.2.2.2.1, hq.1, hq.2⟩
    cases fx
    cases fy
    simp only [frag.mk.injEq] at hf ⊢
    simp only at hpts
    exact ⟨hf.1, hf.2.1, hf.2.2.1, hf.2.2.2.1, hf.2.2.2.2.1, hpts, hf.2.2.2.2.2.2.1,
      hf.2.2.2.2.2.2.2.1, hf.2.2.2.2.2.2.2.2⟩
  cases x
  cases y
  simp only [zero_induced_dipoles, efp.mk.injEq] at hz ⊢
  simp only at hfr
  exact ⟨hfr, hz.2⟩

/-- When the static field stage succeeds the energy routine gives the same result on two
states with the same core. -/
theorem efp_compute_pol_energy_of_core_ok (d : deps K) (hd : reads_core_only d) {a b : efp K}
    (h : efp_core a = efp_core b) (energy : K)
    (hok : (compute_elec_field d a).1 = EFP_RESULT_SUCCESS) :
    efp_compute_pol_energy d a energy = efp_compute_pol_energy d b energy := by
  have hokb : (compute_elec_field d b).1 = EFP_RESULT_SUCCESS :=
    (compute_elec_field_of_core d hd h).1.symm.trans hok
  rw [efp_compute_pol_energy_field_ok d a energy hok,
    efp_compute_pol_energy_field_ok d b energy hokb, scf_start_of_core d hd h]

theorem efp_compute_pol_energy_of_core (d : deps K) (hd : reads_core_only d) {a b : efp K}
    (h : efp_core a = efp_core b) (energy : K) :
    (efp_compute_pol_energy d a energy).res = (efp_compute_pol_energy d b energy).res ∧
    (efp_compute_pol_energy d a energy).energy = (efp_compute_pol_energy d b energy).energy ∧
    zero_induced_dipoles (efp_compute_pol_energy d a energy).efp
      = zero_induced_dipoles (efp_compute_pol_energy d b energy).efp := by
  by_cases hok : (compute_elec_field d a).1 = EFP_RESULT_SUCCESS
  · rw [efp_compute_pol_energy_of_core_ok d hd h energy hok]
    exact ⟨rfl, rfl, rfl⟩
  · have hokb : ¬ (compute_elec_field d b).1 = EFP_RESULT_SUCCESS := by
      rw [← (compute_elec_field_of_core d hd h).1]
      exact hok
    rw [efp_compute_pol_energy_field_error d a energy hok,
      efp_compute_pol_energy_field_error d b energy hokb]
    exact ⟨(compute_elec_field_of_core d hd h).1, rfl, (compute_elec_field_of_core d hd h).2⟩

/-- Running the energy routine on the state and energy it has just left gives the same
result again. -/
theorem efp_compute_pol_energy_twice (d : deps K) (hd : reads_core_only d) (a : efp K)
    (energy : K) :
    efp_compute_pol_energy d (efp_compute_pol_energy d a energy).efp
        (efp_compute_pol_energy d a energy).energy
      = efp_compute_pol_energy d a energy := by
  have hcore := efp_core_efp_compute_pol_energy d a energy
  by_cases hok : (compute_elec_field d a).1 = EFP_RESULT_SUCCESS
  · have hok1 : (compute_elec_field d (efp_compute_pol_energy d a energy).efp).1
        = EFP_RESULT_SUCCESS := (compute_elec_field_of_core d hd hcore).1.trans hok
    rw [efp_compute_pol_energy_of_core_ok d hd hcore _ hok1]
    rw [efp_compute_pol_energy_field_ok d a energy hok]
    by_cases hc : (pol_scf_loop d 1 0 (scf_start d a)).converged = false
    · rw [if_pos hc, efp_compute_pol_energy_field_ok d a energy hok, if_pos hc]
    · rw [if_neg hc, efp_compute_pol_energy_field_ok d a _ hok, if_neg hc]
  · rw [efp_compute_pol_energy_field_error d a energy hok]
    dsimp only
    have hc1 := efp_core_compute_elec_field d a
    obtain ⟨hres, hz⟩ := compute_elec_field_of_core d hd hc1
    have hst : (compute_elec_field d (compute_elec_field d a).2).2 = (compute_elec_field d a).2 :=
      eq_of_zero_induced_dipoles_eq hz (all_dipoles_compute_elec_field d _)
    have hne : (compute_elec_field d (compute_elec_field d a).2).1 ≠ EFP_RESULT_SUCCESS := by
      rw [hres]
      exact hok
    rw [efp_compute_pol_energy_field_error d _ energy hne, hres, hst]

/-- C13 (as amended): if `efp_skip_frag_pair` and `efp_make_swf` read none of the four
solver-written point fields, two runs of `efp_compute_pol_energy` on states that agree
on everything but those fields return the same code and the same energy and leave
states that differ at most in the induced and conjugate dipoles; when the static field
stage `compute_elec_field` succeeds the two runs leave the same state altogether, dipoles
included. In every case a second run on the state and energy left by a first one gives
the result of the first again. -/
theorem pol_energy_forgets_entry_fields (d : deps K) (a b : efp K) (energy : K)
    (hd : reads_core_only d) (h : efp_core a = efp_core b) :
    (efp_compute_pol_energy d a energy).res = (efp_compute_pol_energy d b energy).res ∧
    (efp_compute_pol_energy d a energy).energy = (efp_compute_pol_energy d b energy).energy ∧
    zero_induced_dipoles (efp_compute_pol_energy d a energy).efp
      = zero_induced_dipoles (efp_compute_pol_energy d b energy).efp ∧
    ((compute_elec_field d a).1 = EFP_RESULT_SUCCESS →
      efp_compute_pol_energy d a energy = efp_compute_pol_energy d b energy) ∧
    efp_compute_pol_energy d (efp_compute_pol_energy d a energy).efp
        (efp_compute_pol_energy d a energy).energy
      = efp_compute_pol_energy d a energy :=
  ⟨(efp_compute_pol_energy_of_core d hd h energy).1,
    (efp_compute_pol_energy_of_core d hd h energy).2.1,
    (efp_compute_pol_energy_of_core d hd h energy).2.2,
    efp_compute_pol_energy_of_core_ok d hd h energy,
    efp_compute_pol_energy_twice d hd a energy⟩

theorem reads_core_only_demo : reads_core_only demo_deps :=
  ⟨fun _ _ _ => rfl, fun _ _ _ => rfl⟩

theorem pol_energy_forgets_entry_fields_witness :
    reads_core_only demo_deps ∧
    efp_core (demo_efp 2 none) = efp_core (efp_core (demo_efp 2 none)) ∧
    all_dipoles (demo_efp 2 none) = [[(⟨5, 5, 5⟩, ⟨6, 6, 6⟩)], []] ∧
    all_dipoles (efp_core (demo_efp 2 none)) = [[(vec_zero, vec_zero)], []] ∧
    (compute_elec_field demo_deps (demo_efp 2 none)).1 = EFP_RESULT_SUCCESS ∧
    efp_compute_pol_energy demo_deps (demo_efp 2 none) 7
      = efp_compute_pol_energy demo_deps (efp_core (demo_efp 2 none)) 7 ∧
    all_dipoles (efp_compute_pol_energy demo_deps (demo_efp 2 none) 7).efp
      = [[(⟨-1, 0, 0⟩, ⟨-1, 0, 0⟩)], []] ∧
    (efp_compute_pol_energy demo_deps (demo_efp 2 none) 7).energy = -1 / 2 := by
  have hcore : efp_core (demo_efp 2 none) = efp_core (efp_core (demo_efp 2 none)) := rfl
  have hok : (compute_elec_field demo_deps (demo_efp 2 none)).1 = EFP_RESULT_SUCCESS := rfl
  exact ⟨reads_core_only_demo, hcore, by decide!, by decide!, hok,
    (pol_energy_forgets_entry_fields demo_deps (demo_efp 2 none) (efp_core (demo_efp 2 none)) 7
      reads_core_only_demo hcore).2.2.2.1 hok, by decide!, by decide!⟩

/-- C13 (as stated) fails when the electron-density callback fails: the routine returns
before the dipoles are reset, so two states that differ only in their entry dipoles are
left with different dipoles. -/
theorem pol_energy_keeps_entry_dipoles_on_callback_error :
    reads_core_only demo_deps ∧
    efp_core (demo_efp 66 (some demo_failing_callback))
      = efp_core (zero_induced_dipoles (demo_efp 66 (some demo_failing_callback))) ∧
    (efp_compute_pol_energy demo_deps (demo_efp 66 (some demo_failing_callback)) 7).res
      = EFP_RESULT_OTHER 7 ∧
    all_dipoles (efp_compute_pol_energy demo_deps
        (demo_efp 66 (some demo_failing_callback)) 7).efp = [[(⟨5, 5, 5⟩, ⟨6, 6, 6⟩)], []] ∧
    all_dipoles (efp_compute_pol_energy demo_deps
        (zero_induced_dipoles (demo_efp 66 (some demo_failing_callback))) 7).efp
      = [[(vec_zero, vec_zero)], []] ∧
    all_dipoles (efp_compute_pol_energy demo_deps
        (demo_efp 66 (some demo_failing_callback)) 7).efp
      ≠ all_dipoles (efp_compute_pol_energy demo_deps
        (zero_induced_dipoles (demo_efp 66 (some demo_failing_callback))) 7).efp :=
  ⟨⟨fun _ _ _ => rfl, fun _ _ _ => rfl⟩, rfl, by decide!, by decide!, by decide!, by decide!⟩

/-! ## Reparameterization of the torques in `energy_fn` (`opt.c`) -/

theorem energy_fn_step_length (sin cos : K → K) (x gx : List K) (i : Nat) :
    (energy_fn_step sin cos x gx i).length = gx.length := by
  simp [energy_fn_step]

theorem getD_set_ne {α : Type} (l : List α) (i j : Nat) (a dflt : α) (h : i ≠ j) :
    (l.set i a).getD j dflt = l.getD j dflt := by
  simp [List.getD_eq_getElem?_getD, List.getElem?_set_ne h]

theorem getD_set_eq {α : Type} (l : List α) (i : Nat) (a dflt : α) (h : i < l.length) :
    (l.set i a).getD i dflt = a := by
  simp [List.getD_eq_getElem?_getD, List.getElem?_set_self h]

/-- The step for fragment `i` leaves the torque triples of the other fragments. -/
theorem torque_triple_step_ne (sin cos : K → K) (x gx : List K) (i k : Nat) (h : i ≠ k) :
    torque_triple (energy_fn_step sin cos x gx i) k = torque_triple gx k := by
  simp only [torque_triple, energy_fn_step]
  rw [getD_set_ne _ _ _ _ _ (by omega), getD_set_ne _ _ _ _ _ (by omega),
    getD_set_ne _ _ _ _ _ (by omega), getD_set_ne _ _ _ _ _ (by omega),
    getD_set_ne _ _ _ _ _ (by omega), getD_set_ne _ _ _ _ _ (by omega),
    getD_set_ne _ _ _ _ _ (by omega), getD_set_ne _ _ _ _ _ (by omega),
    getD_set_ne _ _ _ _ _ (by omega)]

/-- The step for fragment `i` applies `torque_map` to the torque triple of `i`. -/
theorem torque_triple_step_eq (sin cos : K → K) (x gx : List K) (i : Nat)
    (h : 6 * i + 5 < gx.length) :
    torque_triple (energy_fn_step sin cos x gx i) i
      = torque_map (sin (x.getD (6 * i + 3) 0)) (cos (x.getD (6 * i + 3) 0))
          (sin (x.getD (6 * i + 4) 0)) (cos (x.getD (6 * i + 4) 0)) (torque_triple gx i) := by
  simp only [torque_triple, energy_fn_step, torque_map]
  rw [getD_set_ne _ (6 * i + 5) (6 * i + 3) _ _ (by omega),
    getD_set_ne _ (6 * i + 4) (6 * i + 3) _ _ (by omega),
    getD_set_eq _ (6 * i + 3) _ _ (by omega),
    getD_set_ne _ (6 * i + 5) (6 * i + 4) _ _ (by omega),
    getD_set_eq _ (6 * i + 4) _ _ (by simp; omega),
    getD_set_eq _ (6 * i + 5) _ _ (by simp; omega)]

theorem torque_triple_foldl (sin cos : K → K) (x : List K) (n : Nat) :
    ∀ (gx : List K), 6 * n ≤ gx.length →
      ((List.range n).foldl (energy_fn_step sin cos x) gx).length = gx.length ∧
      ∀ k, torque_triple ((List.range n).foldl (energy_fn_step sin cos x) gx) k
        = if k < n then
            torque_map (sin (x.getD (6 * k + 3) 0)) (cos (x.getD (6 * k + 3) 0))
              (sin (x.getD (6 * k + 4) 0)) (cos (x.getD (6 * k + 4) 0)) (torque_triple gx k)
          else torque_triple gx k := by
  induction n with
  | zero => intro gx _; simp
  | succ n ih =>
    intro gx hlen
    obtain ⟨hl, ht⟩ := ih gx (by omega)
    rw [List.range_succ, List.foldl_append, List.foldl_cons, List.foldl_nil]
    refine ⟨by rw [energy_fn_step_length, hl], ?_⟩
    intro k
    by_cases hk : n = k
    · subst hk
      rw [torque_triple_step_eq _ _ _ _ _ (by omega), ht, if_neg (lt_irrefl _),
        if_pos (Nat.lt_succ_self _)]
    · rw [torque_triple_step_ne _ _ _ _ _ _ hk, ht]
      by_cases hlt : k < n
      · rw [if_pos hlt, if_pos (by omega)]
      · rw [if_neg hlt, if_neg (by omega)]

/-- Squared length of a mapped torque triple, for sines and cosines of actual angles. -/
theorem torque_map_norm_sq (sina cosa sinb cosb : K) (ha : sina * sina + cosa * cosa = 1)
    (hb : sinb * sinb + cosb * cosb = 1) (t : vec_t K) :
    vec_dot (torque_map sina cosa sinb cosb t) (torque_map sina cosa sinb cosb t)
      = vec_dot t t + cosb * (cosb * (t.z * t.z - (sina * t.x - cosa * t.y) * (sina * t.x - cosa * t.y))
          + 2 * sinb * (sina * t.x - cosa * t.y) * t.z) := by
  simp only [vec_dot, torque_map]
  have e1 : (cosa * t.x + sina * t.y) * (cosa * t.x + sina * t.y)
      = (sina * sina + cosa * cosa) * (t.x * t.x + t.y * t.y)
        - (sina * t.x - cosa * t.y) * (sina * t.x - cosa * t.y) := by ring
  have e2 : (sinb * sina * t.x - sinb * cosa * t.y + cosb * t.z)
        * (sinb * sina * t.x - sinb * cosa * t.y + cosb * t.z)
      = (sinb * sinb + cosb * cosb) * ((sina * t.x - cosa * t.y) * (sina * t.x - cosa * t.y))
        + cosb * (cosb * (t.z * t.z - (sina * t.x - cosa * t.y) * (sina * t.x - cosa * t.y))
          + 2 * sinb * (sina * t.x - cosa * t.y) * t.z) := by ring
  rw [e1, e2, ha, hb]
  ring

theorem real_sin_cos_sq (a : ℝ) : Real.sin a * Real.sin a + Real.cos a * Real.cos a = 1 := by
  have h := Real.sin_sq_add_cos_sq a
  nlinarith [h]

/-- C27 (as amended): for every fragment `i` the loop of `energy_fn` replaces the torque
triple `t = (tx, ty, tz)` by `(tz, cos a * tx + sin a * ty,
sin b * sin a * tx - sin b * cos a * ty + cos b * tz)`; the squared length of the result
is `|t|² + cos b * (cos b * (tz² - u²) + 2 * sin b * u * tz)` with
`u = sin a * tx - cos a * ty`, and the map keeps the length of every triple exactly when
`cos b = 0`. -/
theorem energy_fn_torque_map (n_frag : Nat) (energy_total a b : ℝ) (x gx : List ℝ) (i : Nat)
    (hi : i < n_frag) (hlen : 6 * n_frag ≤ gx.length)
    (ha : x.getD (6 * i + 3) 0 = a) (hb : x.getD (6 * i + 4) 0 = b) :
    torque_triple (energy_fn Real.sin Real.cos n_frag energy_total x gx).2 i
      = torque_map (Real.sin a) (Real.cos a) (Real.sin b) (Real.cos b) (torque_triple gx i) ∧
    (∀ t : vec_t ℝ,
      vec_dot (torque_map (Real.sin a) (Real.cos a) (Real.sin b) (Real.cos b) t)
          (torque_map (Real.sin a) (Real.cos a) (Real.sin b) (Real.cos b) t)
        = vec_dot t t + Real.cos b * (Real.cos b * (t.z * t.z
              - (Real.sin a * t.x - Real.cos a * t.y) * (Real.sin a * t.x - Real.cos a * t.y))
            + 2 * Real.sin b * (Real.sin a * t.x - Real.cos a * t.y) * t.z)) ∧
    ((∀ t : vec_t ℝ,
      vec_dot (torque_map (Real.sin a) (Real.cos a) (Real.sin b) (Real.cos b) t)
          (torque_map (Real.sin a) (Real.cos a) (Real.sin b) (Real.cos b) t) = vec_dot t t)
      ↔ Real.cos b = 0) := by
  refine ⟨?_, fun t => torque_map_norm_sq _ _ _ _ (real_sin_cos_sq a) (real_sin_cos_sq b) t, ?_⟩
  · have h := (torque_triple_foldl Real.sin Real.cos x n_frag gx hlen).2 i
    rw [if_pos hi, ha, hb] at h
    exact h
  · constructor
    · intro h
      have h1 := h ⟨0, 0, 1⟩
      simp only [vec_dot, torque_map] at h1
      have h2 : Real.cos b * Real.cos b = 0 := by linarith
      exact mul_self_eq_zero.mp h2
    · intro h t
      rw [torque_map_norm_sq _ _ _ _ (real_sin_cos_sq a) (real_sin_cos_sq b) t, h]
      ring

theorem energy_fn_torque_map_witness :
    torque_triple (energy_fn Real.sin Real.cos 1 5 [0, 0, 0, 0, 0, 0] [1, 2, 3, 7, 8, 9]).2 0
      = ⟨9, 7, 9⟩ := by
  have h := (energy_fn_torque_map 1 5 0 0 [0, 0, 0, 0, 0, 0] [1, 2, 3, 7, 8, 9] 0 (by decide)
    (by decide) rfl rfl).1
  rw [h]
  simp [torque_map, torque_triple]

/-- C27 (as stated) fails: at the angles `a = b = 0` the torque triple `(0, 1, 0)`, of
length 1, is mapped to `(0, 0, 0)`. -/
theorem energy_fn_torque_not_norm_preserving :
    (energy_fn Real.sin Real.cos 1 5 [0, 0, 0, 0, 0, 0] [0, 0, 0, 0, 1, 0]).2
      = [0, 0, 0, 0, 0, 0] ∧
    vec_dot (torque_triple [0, 0, 0, 0, 1, 0] 0) (torque_triple [0, 0, 0, 0, 1, 0] 0) = (1 : ℝ) ∧
    vec_dot
      (torque_triple (energy_fn Real.sin Real.cos 1 5 [0, 0, 0, 0, 0, 0] [0, 0, 0, 0, 1, 0]).2 0)
      (torque_triple (energy_fn Real.sin Real.cos 1 5 [0, 0, 0, 0, 0, 0] [0, 0, 0, 0, 1, 0]).2 0)
      = 0 := by
  have h : (energy_fn Real.sin Real.cos 1 5 [0, 0, 0, 0, 0, 0] [0, 0, 0, 0, 1, 0]).2
      = [0, 0, 0, 0, 0, 0] := by
    simp [energy_fn, energy_fn_step, List.range_succ]
  refine ⟨h, ?_, ?_⟩
  · simp [vec_dot, torque_triple]
  · rw [h]
    simp [vec_dot, torque_triple]

/-! ## Damping function and its force factor -/

/-- With the exponential of the reals, the derivative of `get_pol_damp_tt` at `r` is
`-(get_pol_damp_tt_grad r * r)`. -/
theorem hasDerivAt_get_pol_damp_tt (d : deps ℝ) (hexp : d.exp = Real.exp) (r : ℝ) :
    HasDerivAt (get_pol_damp_tt d) (-(get_pol_damp_tt_grad d r * r)) r := by
  have h1 : HasDerivAt (fun r : ℝ => r * r) (1 * r + r * 1) r :=
    (hasDerivAt_id r).mul (hasDerivAt_id r)
  have h2 : HasDerivAt (fun r : ℝ => -0.6 * (r * r)) (-0.6 * (1 * r + r * 1)) r :=
    h1.const_mul (-0.6)
  have h3 := h2.exp
  have h4 : HasDerivAt (fun r : ℝ => 1 + 0.6 * (r * r)) (0.6 * (1 * r + r * 1)) r :=
    (h1.const_mul 0.6).const_add 1
  have h5 := (h3.mul h4).const_sub 1
  have hf : get_pol_damp_tt d
      = fun r : ℝ => 1 - Real.exp (-0.6 * (r * r)) * (1 + 0.6 * (r * r)) := by
    funext y
    simp only [get_pol_damp_tt, hexp]
  rw [hf]
  convert h5 using 1
  simp only [get_pol_damp_tt_grad, hexp]
  ring

theorem get_pol_damp_tt_grad_neg (d : deps ℝ) (hexp : d.exp = Real.exp) (r : ℝ) (hr : r ≠ 0) :
    get_pol_damp_tt_grad d r < 0 := by
  simp only [get_pol_damp_tt_grad, hexp]
  have he := Real.exp_pos (-0.6 * (r * r))
  have hr2 : 0 < r * r := mul_self_pos.mpr hr
  have : 0 < Real.exp (-0.6 * (r * r)) * (0.6 * 0.6 * (r * r)) := by positivity
  linarith

/-- C24 (as amended): `get_pol_damp_tt_grad(r) * r` is minus the derivative of
`get_pol_damp_tt` at `r`, so for `r > 0` the term `p2(r) * e * dr` that
`compute_grad_point` adds to the force is `-(d p1 / d r)(r) * e * dr / r`, component by
component. -/
theorem pol_damp_tt_grad_is_minus_derivative (d : deps ℝ) (hexp : d.exp = Real.exp)
    (r e x : ℝ) (hr : 0 < r) :
    HasDerivAt (get_pol_damp_tt d) (-(get_pol_damp_tt_grad d r * r)) r ∧
    get_pol_damp_tt_grad d r * r = -deriv (get_pol_damp_tt d) r ∧
    get_pol_damp_tt_grad d r * e * x = -deriv (get_pol_damp_tt d) r * e * x / r := by
  have h := hasDerivAt_get_pol_damp_tt d hexp r
  refine ⟨h, ?_, ?_⟩
  · rw [h.deriv]
    ring
  · rw [h.deriv]
    field_simp
    ring

theorem pol_damp_tt_grad_is_minus_derivative_witness :
    (math_deps Real.sqrt Real.exp).exp = Real.exp ∧ (0 : ℝ) < 1 ∧
    get_pol_damp_tt_grad (math_deps Real.sqrt Real.exp) 1 * 1
      = -deriv (get_pol_damp_tt (math_deps Real.sqrt Real.exp)) 1 :=
  ⟨rfl, one_pos,
    (pol_damp_tt_grad_is_minus_derivative (math_deps Real.sqrt Real.exp) rfl 1 1 1 one_pos).2.1⟩

/-- C24 (as stated) fails at `r = 1`: `get_pol_damp_tt_grad(1) * 1` is negative and is
not the derivative of `get_pol_damp_tt` at 1, which is positive. -/
theorem pol_damp_tt_grad_not_derivative :
    get_pol_damp_tt_grad (math_deps Real.sqrt Real.exp) 1 * 1 < 0 ∧
    0 < deriv (get_pol_damp_tt (math_deps Real.sqrt Real.exp)) 1 ∧
    ¬ HasDerivAt (get_pol_damp_tt (math_deps Real.sqrt Real.exp))
      (get_pol_damp_tt_grad (math_deps Real.sqrt Real.exp) 1 * 1) 1 := by
  have hneg := get_pol_damp_tt_grad_neg (math_deps Real.sqrt Real.exp) rfl 1 one_ne_zero
  have hd := hasDerivAt_get_pol_damp_tt (math_deps Real.sqrt Real.exp) rfl 1
  refine ⟨by linarith, ?_, ?_⟩
  · rw [hd.deriv]
    linarith
  · intro h
    have := h.unique hd
    linarith

/-! ## Energy of the switching-derivative term, and the dipoles of the induced term -/

theorem grad_frag_step_unfold (d : deps K) (frag_idx : Nat) (pt_i : polarizable_pt K)
    (ef : efp K) (j : Nat) :
    grad_frag_step d frag_idx pt_i ef j =
      if j = frag_idx ∨ d.efp_skip_frag_pair ef frag_idx j = true then ef
      else grad_dswf_term d frag_idx j
        (d.efp_make_swf ef (ef.frags.getD frag_idx default) (ef.frags.getD j default))
        (grad_pair_acc d frag_idx pt_i ef j) := rfl

theorem foldl_snd_sum {α σ : Type} (step : σ × K → α → σ × K) (term : α → K)
    (h : ∀ acc x, (step acc x).2 = acc.2 + term x) (l : List α) :
    ∀ acc, (l.foldl step acc).2 = acc.2 + (l.map term).sum := by
  induction l with
  | nil => intro acc; simp
  | cons x l ih =>
    intro acc
    rw [List.foldl_cons, ih, h, List.map_cons, List.sum_cons, add_assoc]

/-- The variable `energy` of `compute_grad_point` at the switching-derivative term is the
sum of the pairwise energies, each times its damping factor. -/
theorem grad_pair_acc_energy (d : deps K) (frag_idx : Nat) (pt_i : polarizable_pt K)
    (ef : efp K) (j : Nat) :
    (grad_pair_acc d frag_idx pt_i ef j).2
      = damped_pair_energy d ef.opts.pol_damp pt_i
          (d.efp_make_swf ef (ef.frags.getD frag_idx default) (ef.frags.getD j default))
          (ef.frags.getD j default) := by
  unfold grad_pair_acc damped_pair_energy
  rw [foldl_snd_sum _ (fun pt_j => grad_p1 d ef.opts.pol_damp (grad_dr pt_i
      (d.efp_make_swf ef (ef.frags.getD frag_idx default) (ef.frags.getD j default)) pt_j.pos)
      * grad_dipole_e d pt_i
        (d.efp_make_swf ef (ef.frags.getD frag_idx default) (ef.frags.getD j default)) pt_j)
      (fun _ _ => rfl),
    foldl_snd_sum _ (fun pt_j => grad_p1 d ef.opts.pol_damp (grad_dr pt_i
      (d.efp_make_swf ef (ef.frags.getD frag_idx default) (ef.frags.getD j default))
        ⟨pt_j.x, pt_j.y, pt_j.z⟩)
      * grad_multipole_e d pt_i
        (d.efp_make_swf ef (ef.frags.getD frag_idx default) (ef.frags.getD j default)) pt_j)
      (fun _ _ => rfl),
    foldl_snd_sum _ (fun at_j => grad_p1 d ef.opts.pol_damp (grad_dr pt_i
      (d.efp_make_swf ef (ef.frags.getD frag_idx default) (ef.frags.getD j default))
        ⟨at_j.x, at_j.y, at_j.z⟩)
      * grad_nuclei_e d pt_i
        (d.efp_make_swf ef (ef.frags.getD frag_idx default) (ef.frags.getD j default)) at_j)
      (fun _ _ => rfl)]
  simp only [zero_add]

theorem damped_pair_energy_off (d : deps K) (damp : efp_pol_damp)
    (h : damp ≠ EFP_POL_DAMP_TT) (pt_i : polarizable_pt K) (sw : swf K) (fr_j : frag K) :
    damped_pair_energy d damp pt_i sw fr_j = undamped_pair_energy d pt_i sw fr_j := by
  simp only [damped_pair_energy, undamped_pair_energy, grad_p1, if_neg h, one_mul]

/-- The switching-derivative term adds `swf.dswf * energy` to the force of fragment
`frag_idx` and subtracts it from the force of fragment `j`. -/
theorem grad_dswf_term_forces (d : deps K) (frag_idx j : Nat) (sw : swf K) (acc : efp K × K)
    (hi : frag_idx < acc.1.frags.length) (hj : j < acc.1.frags.length) (hij : j ≠ frag_idx) :
    ((grad_dswf_term d frag_idx j sw acc).frags.getD frag_idx default).force
      = vec_atomic_add (acc.1.frags.getD frag_idx default).force
          ⟨sw.dswf.x * acc.2, sw.dswf.y * acc.2, sw.dswf.z * acc.2⟩ ∧
    ((grad_dswf_term d frag_idx j sw acc).frags.getD j default).force
      = vec_atomic_sub (acc.1.frags.getD j default).force
          ⟨sw.dswf.x * acc.2, sw.dswf.y * acc.2, sw.dswf.z * acc.2⟩ := by
  have hji : frag_idx ≠ j := fun e => hij e.symm
  simp only [grad_dswf_term, frag_update]
  constructor
  · rw [getD_set_ne _ _ _ _ _ hij, getD_set_eq _ _ _ _ hi]
  · rw [getD_set_eq _ _ _ _ (by rw [List.length_set]; exact hj), getD_set_ne _ _ _ _ _ hji]

/-- C26 (as amended): for a fragment pair that is not skipped, the pass of
`compute_grad_point` ends with the switching-derivative term applied to the accumulated
`energy`, which is the sum over the nuclei, multipole points and polarizable points of
fragment `j` of the pairwise energies `e` each multiplied by its damping factor `p1` (and
not by the switching value); it is the sum of the undamped energies when the damping mode
is not `EFP_POL_DAMP_TT`. The term adds `swf.dswf * energy` to the force of fragment `i`
and subtracts it from the force of fragment `j`. -/
theorem dswf_term_uses_damped_energy (d : deps K) (ef : efp K) (frag_idx j : Nat)
    (pt_i : polarizable_pt K) (hij : j ≠ frag_idx)
    (hskip : d.efp_skip_frag_pair ef frag_idx j = false) :
    grad_frag_step d frag_idx pt_i ef j
      = grad_dswf_term d frag_idx j
          (d.efp_make_swf ef (ef.frags.getD frag_idx default) (ef.frags.getD j default))
          (grad_pair_acc d frag_idx pt_i ef j) ∧
    (grad_pair_acc d frag_idx pt_i ef j).2
      = damped_pair_energy d ef.opts.pol_damp pt_i
          (d.efp_make_swf ef (ef.frags.getD frag_idx default) (ef.frags.getD j default))
          (ef.frags.getD j default) ∧
    (ef.opts.pol_damp ≠ EFP_POL_DAMP_TT →
      (grad_pair_acc d frag_idx pt_i ef j).2
        = undamped_pair_energy d pt_i
            (d.efp_make_swf ef (ef.frags.getD frag_idx default) (ef.frags.getD j default))
            (ef.frags.getD j default)) ∧
    (∀ (sw : swf K) (acc : efp K × K), frag_idx < acc.1.frags.length → j < acc.1.frags.length →
      ((grad_dswf_term d frag_idx j sw acc).frags.getD frag_idx default).force
        = vec_atomic_add (acc.1.frags.getD frag_idx default).force
            ⟨sw.dswf.x * acc.2, sw.dswf.y * acc.2, sw.dswf.z * acc.2⟩ ∧
      ((grad_dswf_term d frag_idx j sw acc).frags.getD j default).force
        = vec_atomic_sub (acc.1.frags.getD j default).force
            ⟨sw.dswf.x * acc.2, sw.dswf.y * acc.2, sw.dswf.z * acc.2⟩) := by
  refine ⟨?_, grad_pair_acc_energy d frag_idx pt_i ef j, ?_, ?_⟩
  · rw [grad_frag_step_unfold, if_neg]
    intro h
    rcases h with h | h
    · exact hij h
    · rw [hskip] at h
      exact Bool.noConfusion h
  · intro h
    rw [grad_pair_acc_energy, damped_pair_energy_off d _ h]
  · intro sw acc hi hj
    exact grad_dswf_term_forces d frag_idx j sw acc hi hj hij

theorem dswf_term_uses_damped_energy_witness :
    (1 : Nat) ≠ 0 ∧ demo_deps_switch.efp_skip_frag_pair demo_efp_damped 0 1 = false ∧
    (grad_pair_acc demo_deps_switch 0 demo_pt demo_efp_damped 1).2
      = damped_pair_energy demo_deps_switch EFP_POL_DAMP_TT demo_pt
          ⟨1 / 2, ⟨1, 0, 0⟩, vec_zero, vec_zero⟩ (demo_efp_damped.frags.getD 1 default) ∧
    (grad_pair_acc demo_deps_switch 0 demo_pt demo_efp_damped 1).2 = 33 / 10 ∧
    all_forces (grad_pair_acc demo_deps_switch 0 demo_pt demo_efp_damped 1).1
      = [(⟨82 / 25, 2, 3⟩, ⟨4, 67 / 20, 6⟩), (⟨118 / 25, 8, 9⟩, ⟨33 / 20, 0, 0⟩)] ∧
    all_forces (grad_frag_step demo_deps_switch 0 demo_pt demo_efp_damped 1)
      = [(⟨329 / 50, 2, 3⟩, ⟨4, 67 / 20, 6⟩), (⟨71 / 50, 8, 9⟩, ⟨33 / 20, 0, 0⟩)] :=
  ⟨by decide, rfl,
    (dswf_term_uses_damped_energy demo_deps_switch demo_efp_damped 0 1 demo_pt (by decide)
      rfl).2.1,
    by decide!, by decide!, by decide!⟩

/-- C26 (as stated) fails with the damping mode on: for the point of fragment 0 and the
unit charge of fragment 1 the damping factor is `-3/5` and the pairwise energy `-11/2`;
the code multiplies `swf.dswf` by the damped energy `33/10`, not by the undamped
`-11/2`, and the forces it leaves differ from those the undamped energy would give. -/
theorem dswf_term_energy_is_damped :
    demo_efp_damped.opts.pol_damp = EFP_POL_DAMP_TT ∧
    (grad_pair_acc demo_deps_switch 0 demo_pt demo_efp_damped 1).2 = 33 / 10 ∧
    undamped_pair_energy demo_deps_switch demo_pt ⟨1 / 2, ⟨1, 0, 0⟩, vec_zero, vec_zero⟩
      (demo_efp_damped.frags.getD 1 default) = -11 / 2 ∧
    all_forces (grad_frag_step demo_deps_switch 0 demo_pt demo_efp_damped 1)
      = [(⟨329 / 50, 2, 3⟩, ⟨4, 67 / 20, 6⟩), (⟨71 / 50, 8, 9⟩, ⟨33 / 20, 0, 0⟩)] ∧
    all_forces (grad_dswf_term demo_deps_switch 0 1 ⟨1 / 2, ⟨1, 0, 0⟩, vec_zero, vec_zero⟩
        ((grad_pair_acc demo_deps_switch 0 demo_pt demo_efp_damped 1).1,
          undamped_pair_energy demo_deps_switch demo_pt
            ⟨1 / 2, ⟨1, 0, 0⟩, vec_zero, vec_zero⟩ (demo_efp_damped.frags.getD 1 default)))
      = [(⟨-111 / 50, 2, 3⟩, ⟨4, 67 / 20, 6⟩), (⟨511 / 50, 8, 9⟩, ⟨33 / 20, 0, 0⟩)] :=
  ⟨rfl, by decide!, by decide!, by decide!, by decide!⟩

/-- C25 (as amended): the induced dipole - induced dipole term of `compute_grad_point`
for a point `i` and a point `j` is evaluated with half of the induced dipole of `i`,
`0.5 * induced_dipole`, against the conjugate dipole of `j`: its energy is
`efp_dipole_dipole_energy(0.5 * induced_dipole_i, induced_dipole_conj_j, dr)` times the
damping factor, and the whole step is the same whatever the conjugate dipole of point `i`
is. It coincides with the step written with the averaged dipole at a point whose conjugate
dipole is zero. -/
theorem induced_term_uses_half_dipole (d : deps K) (damp : efp_pol_damp) (frag_idx j : Nat)
    (pt_i : polarizable_pt K) (sw : swf K) (acc : efp K × K) (pt_j : polarizable_pt K)
    (c : vec_t K) :
    grad_dipole_step d damp frag_idx j { pt_i with induced_dipole_conj := c } sw acc pt_j
      = grad_dipole_step d damp frag_idx j pt_i sw acc pt_j ∧
    (grad_dipole_step d damp frag_idx j pt_i sw acc pt_j).2
      = acc.2 + grad_p1 d damp (grad_dr pt_i sw pt_j.pos)
          * d.efp_dipole_dipole_energy
              ⟨0.5 * pt_i.induced_dipole.x, 0.5 * pt_i.induced_dipole.y,
                0.5 * pt_i.induced_dipole.z⟩
              pt_j.induced_dipole_conj (grad_dr pt_i sw pt_j.pos) ∧
    grad_dipole_step d damp frag_idx j pt_i sw acc pt_j
      = grad_dipole_step_averaged d damp frag_idx j
          { pt_i with induced_dipole_conj := vec_zero } sw acc pt_j := by
  refine ⟨rfl, rfl, ?_⟩
  simp only [grad_dipole_step, grad_dipole_step_averaged, grad_dipole_i, vec_zero, add_zero]
  rfl

/-- C25 (as stated) fails: for a point with induced dipole `(5, 5, 5)` and conjugate
dipole `(6, 6, 6)` and a partner with conjugate dipole `(0, 1, 0)` the code's term has
energy `5/2` and force `(5/4, 5/4, 5/4)` on fragment 0, while the term with the averaged
dipole has energy `11/2` and force `(11/4, 11/4, 11/4)`. -/
theorem induced_term_not_averaged :
    demo_pt.induced_dipole = ⟨5, 5, 5⟩ ∧ demo_pt.induced_dipole_conj = ⟨6, 6, 6⟩ ∧
    (grad_dipole_step demo_deps_switch EFP_POL_DAMP_OFF 0 1 demo_pt
        ⟨1 / 2, ⟨1, 0, 0⟩, vec_zero, vec_zero⟩ (demo_three 1 [] ⟨5, 5, 5⟩, 0)
        { demo_pt with x := 1, induced_dipole := ⟨1, 0, 0⟩,
                       induced_dipole_conj := ⟨0, 1, 0⟩ }).2 = 5 / 2 ∧
    (grad_dipole_step_averaged demo_deps_switch EFP_POL_DAMP_OFF 0 1 demo_pt
        ⟨1 / 2, ⟨1, 0, 0⟩, vec_zero, vec_zero⟩ (demo_three 1 [] ⟨5, 5, 5⟩, 0)
        { demo_pt with x := 1, induced_dipole := ⟨1, 0, 0⟩,
                       induced_dipole_conj := ⟨0, 1, 0⟩ }).2 = 11 / 2 ∧
    all_forces (grad_dipole_step demo_deps_switch EFP_POL_DAMP_OFF 0 1 demo_pt
        ⟨1 / 2, ⟨1, 0, 0⟩, vec_zero, vec_zero⟩ (demo_three 1 [] ⟨5, 5, 5⟩, 0)
        { demo_pt with x := 1, induced_dipole := ⟨1, 0, 0⟩,
                       induced_dipole_conj := ⟨0, 1, 0⟩ }).1
      = [(⟨5 / 4, 5 / 4, 5 / 4⟩, ⟨0, 1 / 2, 0⟩), (⟨-5 / 4, -5 / 4, -5 / 4⟩, vec_zero),
          (vec_zero, vec_zero)] ∧
    all_forces (grad_dipole_step_averaged demo_deps_switch EFP_POL_DAMP_OFF 0 1 demo_pt
        ⟨1 / 2, ⟨1, 0, 0⟩, vec_zero, vec_zero⟩ (demo_three 1 [] ⟨5, 5, 5⟩, 0)
        { demo_pt with x := 1, induced_dipole := ⟨1, 0, 0⟩,
                       induced_dipole_conj := ⟨0, 1, 0⟩ }).1
      = [(⟨11 / 4, 11 / 4, 11 / 4⟩, ⟨0, 1 / 2, 0⟩), (⟨-11 / 4, -11 / 4, -11 / 4⟩, vec_zero),
          (vec_zero, vec_zero)] :=
  ⟨rfl, rfl, by decide!, by decide!, by decide!, by decide!⟩

/-! ## The SCF sweep is a simultaneous update -/

theorem pol_scf_new_dipoles_eq_in (d : deps K) (ef : efp K) :
    pol_scf_new_dipoles d ef
      = pol_scf_new_dipoles_in d ef (index_range (ef.mpi_offset 0) (ef.mpi_offset (0 + 1))) :=
  rfl

theorem foldl_prod {α β γ : Type} (f1 : β → α → β) (f2 : γ → α → γ) (l : List α) :
    ∀ p : β × γ, l.foldl (fun p x => (f1 p.1 x, f2 p.2 x)) p
      = (l.foldl f1 p.1, l.foldl f2 p.2) := by
  induction l with
  | nil => intro p; rfl
  | cons x l ih => intro p; rw [List.foldl_cons, ih]; rfl

/-- A loop `for (j = 0; j < n; j++) A[off + j] = val j` leaves `val (k - off)` in the
entries `off ≤ k < off + n` and does not touch the others. -/
theorem foldl_update_range {β : Type} (off : Nat) (val : Nat → β) (n : Nat) (A : Nat → β)
    (k : Nat) :
    ((List.range n).foldl (fun A j => Function.update A (off + j) (val j)) A) k
      = if off ≤ k ∧ k < off + n then val (k - off) else A k := by
  induction n with
  | zero =>
    rw [List.range_zero, List.foldl_nil, if_neg]
    omega
  | succ n ih =>
    rw [List.range_succ, List.foldl_append, List.foldl_cons, List.foldl_nil]
    by_cases hk : k = off + n
    · subst hk
      rw [Function.update_same, if_pos (by omega), Nat.add_sub_cancel_left]
    · rw [Function.update_noteq hk, ih]
      by_cases h : off ≤ k ∧ k < off + n
      · rw [if_pos h, if_pos (by omega)]
      · rw [if_neg h, if_neg (by omega)]

/-- Nested loops writing `val i j` to `A[off i + j]`: an entry that no pair `(i, j)` of
the loops addresses keeps its content. -/
theorem foldl_update_nested_other {β : Type} (len off : Nat → Nat) (val : Nat → Nat → β)
    (order : List Nat) (k : Nat) (hk : ∀ i ∈ order, ∀ j, j < len i → off i + j ≠ k) :
    ∀ A : Nat → β,
      (order.foldl (fun A i => (List.range (len i)).foldl
        (fun A j => Function.update A (off i + j) (val i j)) A) A) k = A k := by
  induction order with
  | nil => intro A; rfl
  | cons i order ih =>
    intro A
    rw [List.foldl_cons, ih (fun i2 hi2 => hk i2 (List.mem_cons_of_mem i hi2)),
      foldl_update_range, if_neg]
    intro h
    exact hk i (List.mem_cons_self i order) (k - off i) (by omega) (by omega)

/-- Nested loops writing `val i j` to `A[off i + j]`: if every pair that addresses the
entry `k` writes the value `v` and some pair does, the entry ends as `v`. -/
theorem foldl_update_nested {β : Type} (len off : Nat → Nat) (val : Nat → Nat → β)
    (order : List Nat) (k : Nat) (v : β)
    (hv : ∀ i ∈ order, ∀ j, j < len i → off i + j = k → val i j = v) :
    (∃ i ∈ order, ∃ j, j < len i ∧ off i + j = k) →
    ∀ A : Nat → β,
      (order.foldl (fun A i => (List.range (len i)).foldl
        (fun A j => Function.update A (off i + j) (val i j)) A) A) k = v := by
  induction order with
  | nil => rintro ⟨i, hi, -⟩; exact absurd hi (List.not_mem_nil i)
  | cons i order ih =>
    intro hex A
    rw [List.foldl_cons]
    by_cases hrest : ∃ i2 ∈ order, ∃ j, j < len i2 ∧ off i2 + j = k
    · exact ih (fun i2 hi2 => hv i2 (List.mem_cons_of_mem i hi2)) hrest _
    · rw [foldl_update_nested_other len off val order k, foldl_update_range]
      · obtain ⟨i2, hi2, j, hj, hjk⟩ := hex
        rcases List.mem_cons.mp hi2 with rfl | hmem
        · rw [if_pos (by omega)]
          have : k - off i2 = j := by omega
          rw [this]
          exact hv i2 (List.mem_cons_self i2 order) j hj hjk
        · exact absurd ⟨i2, hmem, j, hj, hjk⟩ hrest
      · intro i2 hi2 j hj hjk
        exact hrest ⟨i2, hi2, j, hj, hjk⟩

/-- The two arrays of the first loop nest of `pol_scf_iter` are filled independently of
each other, the first with `jacobi_dipole`, the second with `jacobi_dipole_conj`. -/
theorem pol_scf_new_dipoles_in_split (d : deps K) (ef : efp K) (order : List Nat) :
    pol_scf_new_dipoles_in d ef order
      = (order.foldl (fun A i =>
            (List.range (ef.frags.getD i default).polarizable_pts.length).foldl
              (fun A j => Function.update A ((ef.frags.getD i default).polarizable_offset + j)
                (jacobi_dipole d ef i j)) A) (fun _ => vec_zero),
         order.foldl (fun A i =>
            (List.range (ef.frags.getD i default).polarizable_pts.length).foldl
              (fun A j => Function.update A ((ef.frags.getD i default).polarizable_offset + j)
                (jacobi_dipole_conj d ef i j)) A) (fun _ => vec_zero)) := by
  unfold pol_scf_new_dipoles_in
  have hstep : (fun (arrs : (Nat → vec_t K) × (Nat → vec_t K)) (i : Nat) =>
      let frag := ef.frags.getD i default
      (List.range frag.polarizable_pts.length).foldl (fun arrs j =>
        let pt := frag.polarizable_pts.getD j default
        let fields := get_induced_dipole_field d ef i pt
        let field : vec_t K :=
          ⟨fields.1.x + (pt.elec_field.x + pt.elec_field_wf.x),
           fields.1.y + (pt.elec_field.y + pt.elec_field_wf.y),
           fields.1.z + (pt.elec_field.z + pt.elec_field_wf.z)⟩
        let field_conj : vec_t K :=
          ⟨fields.2.x + (pt.elec_field.x + pt.elec_field_wf.x),
           fields.2.y + (pt.elec_field.y + pt.elec_field_wf.y),
           fields.2.z + (pt.elec_field.z + pt.elec_field_wf.z)⟩
        (Function.update arrs.1 (frag.polarizable_offset + j) (mat_vec pt.tensor field),
         Function.update arrs.2 (frag.polarizable_offset + j)
           (mat_trans_vec pt.tensor field_conj))) arrs)
      = fun arrs i =>
        ((List.range (ef.frags.getD i default).polarizable_pts.length).foldl
            (fun A j => Function.update A ((ef.frags.getD i default).polarizable_offset + j)
              (jacobi_dipole d ef i j)) arrs.1,
          (List.range (ef.frags.getD i default).polarizable_pts.length).foldl
            (fun A j => Function.update A ((ef.frags.getD i default).polarizable_offset + j)
              (jacobi_dipole_conj d ef i j)) arrs.2) := by
    funext arrs i
    exact foldl_prod
      (fun A j => Function.update A ((ef.frags.getD i default).polarizable_offset + j)
        (jacobi_dipole d ef i j))
      (fun A j => Function.update A ((ef.frags.getD i default).polarizable_offset + j)
        (jacobi_dipole_conj d ef i j)) _ arrs
  rw [hstep]
  exact foldl_prod
    (fun A i => (List.range (ef.frags.getD i default).polarizable_pts.length).foldl
      (fun A j => Function.update A ((ef.frags.getD i default).polarizable_offset + j)
        (jacobi_dipole d ef i j)) A)
    (fun A i => (List.range (ef.frags.getD i default).polarizable_pts.length).foldl
      (fun A j => Function.update A ((ef.frags.getD i default).polarizable_offset + j)
        (jacobi_dipole_conj d ef i j)) A) order (fun _ => vec_zero, fun _ => vec_zero)

/-- Whatever the order in which the fragments are processed, the array entries of point
`j` of fragment `i` end as the simultaneous update computed from the state on entry. -/
theorem pol_scf_new_dipoles_in_at (d : deps K) (ef : efp K) (order : List Nat)
    (hord : ∀ i ∈ order, i < ef.frags.length) (hoff : offsets_distinct ef)
    (i j : Nat) (hi : i ∈ order) (hj : j < (ef.frags.getD i default).polarizable_pts.length) :
    (pol_scf_new_dipoles_in d ef order).1 (point_index ef i j) = jacobi_dipole d ef i j ∧
    (pol_scf_new_dipoles_in d ef order).2 (point_index ef i j) = jacobi_dipole_conj d ef i j := by
  rw [pol_scf_new_dipoles_in_split]
  have hsame : ∀ i2 ∈ order, ∀ j2, j2 < (ef.frags.getD i2 default).polarizable_pts.length →
      (ef.frags.getD i2 default).polarizable_offset + j2 = point_index ef i j →
      i2 = i ∧ j2 = j := fun i2 hi2 j2 hj2 h =>
    hoff i2 i j2 j (hord i2 hi2) (hord i hi) hj2 hj h
  constructor
  · apply foldl_update_nested (fun i => (ef.frags.getD i default).polarizable_pts.length)
      (fun i => (ef.frags.getD i default).polarizable_offset) (jacobi_dipole d ef)
    · intro i2 hi2 j2 hj2 h
      obtain ⟨rfl, rfl⟩ := hsame i2 hi2 j2 hj2 h
      rfl
    · exact ⟨i, hi, j, hj, rfl⟩
  · apply foldl_update_nested (fun i => (ef.frags.getD i default).polarizable_pts.length)
      (fun i => (ef.frags.getD i default).polarizable_offset) (jacobi_dipole_conj d ef)
    · intro i2 hi2 j2 hj2 h
      obtain ⟨rfl, rfl⟩ := hsame i2 hi2 j2 hj2 h
      rfl
    · exact ⟨i, hi, j, hj, rfl⟩

theorem getD_map_lt {α β : Type} (f : α → β) (l : List α) (i : Nat) (a : α) (b : β)
    (h : i < l.length) : (l.map f).getD i b = f (l.getD i a) := by
  simp [List.getD_eq_getElem?_getD, List.getElem?_eq_getElem h]

theorem getD_mapIdx_lt {α β : Type} (l : List α) :
    ∀ (f : Nat → α → β) (j : Nat) (a : α) (b : β), j < l.length →
      (l.mapIdx f).getD j b = f j (l.getD j a) := by
  induction l with
  | nil => intro f j a b h; exact absurd h (Nat.not_lt_zero j)
  | cons x l ih =>
    intro f j a b h
    rw [List.mapIdx_cons]
    cases j with
    | zero => rfl
    | succ j =>
      rw [List.getD_cons_succ, List.getD_cons_succ]
      exact ih (fun i => f (i + 1)) j a b (Nat.lt_of_succ_lt_succ h)

/-- Point `j` of fragment `i` after a sweep: as before the sweep, with the dipoles read
from the two arrays. -/
theorem point_at_pol_scf_iter (d : deps K) (ef : efp K) (i j : Nat) (hi : i < ef.frags.length)
    (hj : j < (ef.frags.getD i default).polarizable_pts.length) :
    point_at (pol_scf_iter d ef).2 i j
      = { point_at ef i j with
          induced_dipole := (pol_scf_new_dipoles d ef).1 (point_index ef i j),
          induced_dipole_conj := (pol_scf_new_dipoles d ef).2 (point_index ef i j) } := by
  unfold pol_scf_iter point_at
  dsimp only
  rw [getD_map_lt _ _ _ default default hi]
  dsimp only
  rw [getD_mapIdx_lt _ _ _ default default hj]
  rfl

theorem foldl_hom_map {α β γ δ : Type} (h : β → δ) (c : α → γ) (g1 : β → α → β)
    (g2 : δ → γ → δ) (H : ∀ b x, g2 (h b) (c x) = h (g1 b x)) (l : List α) :
    ∀ b, (l.map c).foldl g2 (h b) = h (l.foldl g1 b) := by
  induction l with
  | nil => intro b; rfl
  | cons x l ih => intro b; rw [List.map_cons, List.foldl_cons, List.foldl_cons, H, ih]

theorem efp_core_swap_dipoles (ef : efp K) : efp_core (swap_dipoles ef) = efp_core ef := by
  unfold swap_dipoles
  apply efp_core_map_points
  intro fr
  rw [List.map_map]
  rfl

theorem getD_swap_dipoles (ef : efp K) (j : Nat) :
    ((swap_dipoles ef).frags.getD j default).polarizable_pts
      = ((ef.frags.getD j default).polarizable_pts.map (fun pt =>
          { pt with induced_dipole := pt.induced_dipole_conj,
                    induced_dipole_conj := pt.induced_dipole })) := by
  have h := @List.getD_map (frag K) (frag K) ef.frags default j (fun fr : frag K =>
      ({ fr with polarizable_pts := fr.polarizable_pts.map (fun pt =>
          ({ pt with induced_dipole := pt.induced_dipole_conj,
                     induced_dipole_conj := pt.induced_dipole } : polarizable_pt K)) } : frag K))
  exact congrArg frag.polarizable_pts h

/-- The field of the conjugate dipoles is the field of the induced dipoles of the state
with the two channels exchanged: both are computed by the same expression. -/
theorem get_induced_dipole_field_swap (d : deps K) (hd : reads_core_only d) (ef : efp K)
    (i : Nat) (pt : polarizable_pt K) :
    get_induced_dipole_field d (swap_dipoles ef) i pt
      = ((get_induced_dipole_field d ef i pt).2, (get_induced_dipole_field d ef i pt).1) := by
  have hcore := efp_core_swap_dipoles ef
  have hlen : (swap_dipoles ef).frags.length = ef.frags.length := by
    simp [swap_dipoles]
  have hopts : (swap_dipoles ef).opts = ef.opts := rfl
  unfold get_induced_dipole_field
  dsimp only
  rw [hlen]
  have hinit : ((vec_zero, vec_zero) : vec_t K × vec_t K)
      = (fun a : vec_t K × vec_t K => (a.2, a.1)) (vec_zero, vec_zero) := rfl
  rw [hinit]
  have hid : (List.range ef.frags.length) = (List.range ef.frags.length).map id := by simp
  conv_lhs => rw [hid]
  apply foldl_hom_map (fun a : vec_t K × vec_t K => (a.2, a.1)) id
  intro acc j
  dsimp only [id]
  have hskip : d.efp_skip_frag_pair (swap_dipoles ef) i j = d.efp_skip_frag_pair ef i j := by
    rw [hd.1 (swap_dipoles ef) i j, hd.1 ef i j, hcore]
  have hsw : d.efp_make_swf (swap_dipoles ef) ((swap_dipoles ef).frags.getD i default)
        ((swap_dipoles ef).frags.getD j default)
      = d.efp_make_swf ef (ef.frags.getD i default) (ef.frags.getD j default) := by
    rw [hd.2 (swap_dipoles ef), hd.2 ef, hcore, frag_core_getD hcore i, frag_core_getD hcore j]
  rw [hskip]
  by_cases hc : j = i ∨ d.efp_skip_frag_pair ef i j = true
  · rw [if_pos hc, if_pos hc]
  · rw [if_neg hc, if_neg hc, hsw, getD_swap_dipoles, hopts]
    apply foldl_hom_map (fun a : vec_t K × vec_t K => (a.2, a.1))
    intro acc2 pt_j
    rfl

/-- C21: with the partition covering all fragments and distinct point indices,
`pol_scf_iter` is a simultaneous update. Each point `j` of each fragment `i` is left as
it was, with its induced dipole replaced by the tensor applied to the induced-dipole
field of the dipoles held on entry plus the two static fields, and its conjugate dipole
by the transposed tensor applied to the same expression of the conjugate dipoles held on
entry (the field of the conjugate channel is the field of the induced channel of the
state with the two channels exchanged). Processing the fragments in any other order
gives the same array entries. -/
theorem pol_scf_iter_simultaneous (d : deps K) (ef : efp K) (i j : Nat)
    (h0 : ef.mpi_offset 0 = 0) (h1 : ef.mpi_offset 1 = ef.frags.length)
    (hoff : offsets_distinct ef) (hi : i < ef.frags.length)
    (hj : j < (ef.frags.getD i default).polarizable_pts.length) :
    point_at (pol_scf_iter d ef).2 i j
      = { point_at ef i j with induced_dipole := jacobi_dipole d ef i j,
                               induced_dipole_conj := jacobi_dipole_conj d ef i j } ∧
    (∀ order : List Nat, order.Perm (List.range ef.frags.length) →
      (pol_scf_new_dipoles_in d ef order).1 (point_index ef i j) = jacobi_dipole d ef i j ∧
      (pol_scf_new_dipoles_in d ef order).2 (point_index ef i j)
        = jacobi_dipole_conj d ef i j) ∧
    (reads_core_only d →
      (get_induced_dipole_field d ef i (point_at ef i j)).2
        = (get_induced_dipole_field d (swap_dipoles ef) i (point_at ef i j)).1) := by
  have hperm : ∀ order : List Nat, order.Perm (List.range ef.frags.length) →
      (pol_scf_new_dipoles_in d ef order).1 (point_index ef i j) = jacobi_dipole d ef i j ∧
      (pol_scf_new_dipoles_in d ef order).2 (point_index ef i j)
        = jacobi_dipole_conj d ef i j := by
    intro order hp
    apply pol_scf_new_dipoles_in_at d ef order ?_ hoff i j ?_ hj
    · intro i2 hi2
      exact List.mem_range.mp ((hp.mem_iff).mp hi2)
    · exact (hp.mem_iff).mpr (List.mem_range.mpr hi)
  refine ⟨?_, hperm, ?_⟩
  · have hsrc := hperm (List.range ef.frags.length) (List.Perm.refl _)
    have heq : pol_scf_new_dipoles d ef
        = pol_scf_new_dipoles_in d ef (List.range ef.frags.length) := by
      rw [pol_scf_new_dipoles_eq_in, zero_add, h0, h1, index_range_zero]
    rw [point_at_pol_scf_iter d ef i j hi hj, heq, hsrc.1, hsrc.2]
  · intro hd
    rw [get_induced_dipole_field_swap d hd]

theorem offsets_distinct_demo_three (q : ℚ) (own : List (efp_atom ℚ)) (dip : vec_t ℚ) :
    offsets_distinct (demo_three q own dip) := by
  intro i i2 j j2 hi hi2 hj hj2 h
  have hi3 : i < 3 := hi
  have hi23 : i2 < 3 := hi2
  interval_cases i <;> interval_cases i2 <;>
    simp [demo_three, point_index] at hj hj2 h ⊢ <;> omega

theorem pol_scf_iter_simultaneous_witness :
    (demo_three 1 [] ⟨5, 5, 5⟩).mpi_offset 0 = 0 ∧
    (demo_three 1 [] ⟨5, 5, 5⟩).mpi_offset 1 = (demo_three 1 [] ⟨5, 5, 5⟩).frags.length ∧
    offsets_distinct (demo_three 1 [] ⟨5, 5, 5⟩) ∧
    (point_at (pol_scf_iter demo_deps (demo_three 1 [] ⟨5, 5, 5⟩)).2 0 0).induced_dipole
      = jacobi_dipole demo_deps (demo_three 1 [] ⟨5, 5, 5⟩) 0 0 ∧
    jacobi_dipole demo_deps (demo_three 1 [] ⟨5, 5, 5⟩) 0 0 = ⟨8, 7, 7⟩ ∧
    jacobi_dipole_conj demo_deps (demo_three 1 [] ⟨5, 5, 5⟩) 0 0 = ⟨6, 6, 7⟩ ∧
    reads_core_only demo_deps ∧
    (get_induced_dipole_field demo_deps (demo_three 1 [] ⟨5, 5, 5⟩) 0
        (point_at (demo_three 1 [] ⟨5, 5, 5⟩) 0 0)).2
      = (get_induced_dipole_field demo_deps (swap_dipoles (demo_three 1 [] ⟨5, 5, 5⟩)) 0
        (point_at (demo_three 1 [] ⟨5, 5, 5⟩) 0 0)).1 := by
  have h := pol_scf_iter_simultaneous demo_deps (demo_three 1 [] ⟨5, 5, 5⟩) 0 0 rfl rfl
    (offsets_distinct_demo_three 1 [] ⟨5, 5, 5⟩) (by decide) (by decide)
  refine ⟨rfl, rfl, offsets_distinct_demo_three 1 [] ⟨5, 5, 5⟩, ?_, by decide!, by decide!,
    reads_core_only_demo, h.2.2 reads_core_only_demo⟩
  rw [h.1]

/-! ## Symmetric tensors: the conjugate dipoles follow the induced dipoles -/

theorem mat_trans_vec_of_symmetric {m : mat_t K} (h : mat_symmetric m) (v : vec_t K) :
    mat_trans_vec m v = mat_vec m v := by
  obtain ⟨h1, h2, h3⟩ := h
  simp only [mat_trans_vec, mat_vec, h1, h2, h3]

theorem all_tensors_efp_core (ef : efp K) : all_tensors (efp_core ef) = all_tensors ef := by
  simp only [all_tensors, efp_core, List.map_map]
  apply List.map_congr_left
  intro fr _
  simp only [Function.comp, frag_core, List.map_map]
  apply List.map_congr_left
  intro pt _
  rfl

theorem tensors_symmetric_of_core {a b : efp K} (h : efp_core a = efp_core b)
    (ha : tensors_symmetric a) : tensors_symmetric b := by
  unfold tensors_symmetric at ha ⊢
  rw [← all_tensors_efp_core b, ← h, all_tensors_efp_core a]
  exact ha

theorem tensor_symmetric_of_mem {ef : efp K} (h : tensors_symmetric ef) {fr : frag K}
    (hfr : fr ∈ ef.frags) {pt : polarizable_pt K} (hpt : pt ∈ fr.polarizable_pts) :
    mat_symmetric pt.tensor :=
  h _ (List.mem_map.mpr ⟨fr, hfr, rfl⟩) _ (List.mem_map.mpr ⟨pt, hpt, rfl⟩)

theorem getD_mem_of_point {ef : efp K} {i j : Nat}
    (hj : j < (ef.frags.getD i default).polarizable_pts.length) :
    ef.frags.getD i default ∈ ef.frags ∧
      point_at ef i j ∈ (ef.frags.getD i default).polarizable_pts := by
  constructor
  · by_cases hi : i < ef.frags.length
    · exact getD_mem_of_mem_range _ (List.mem_range.mpr hi)
    · rw [List.getD_eq_default ef.frags default (not_lt.mp hi)] at hj
      exact absurd hj (Nat.not_lt_zero j)
  · exact getD_mem_of_mem_range _ (List.mem_range.mpr hj)

/-- When the conjugate dipoles equal the induced dipoles, the two fields that
`get_induced_dipole_field` returns are equal. -/
theorem get_induced_dipole_field_conj_eq (d : deps K) (ef : efp K) (h : conj_eq_induced ef)
    (i : Nat) (pt : polarizable_pt K) :
    (get_induced_dipole_field d ef i pt).2 = (get_induced_dipole_field d ef i pt).1 := by
  unfold get_induced_dipole_field
  dsimp only
  apply foldl_invariant (fun acc : vec_t K × vec_t K => acc.2 = acc.1)
  · rfl
  · intro acc j hj hacc
    dsimp only
    split
    · exact hacc
    · apply foldl_invariant (fun acc : vec_t K × vec_t K => acc.2 = acc.1)
      · exact hacc
      · intro acc2 pt_j hpt hacc2
        dsimp only
        rw [h _ (getD_mem_of_mem_range _ hj) pt_j hpt, hacc2]

theorem jacobi_dipole_conj_eq (d : deps K) (ef : efp K) (hsym : tensors_symmetric ef)
    (h : conj_eq_induced ef) (i j : Nat)
    (hj : j < (ef.frags.getD i default).polarizable_pts.length) :
    jacobi_dipole_conj d ef i j = jacobi_dipole d ef i j := by
  obtain ⟨hfr, hpt⟩ := @getD_mem_of_point K _ ef i j hj
  unfold jacobi_dipole_conj jacobi_dipole
  rw [get_induced_dipole_field_conj_eq d ef h,
    mat_trans_vec_of_symmetric (tensor_symmetric_of_mem hsym hfr hpt)]

/-- With symmetric tensors and equal channels on entry, the two arrays of the first loop
nest of `pol_scf_iter` are equal. -/
theorem pol_scf_new_dipoles_conj_eq (d : deps K) (ef : efp K) (hsym : tensors_symmetric ef)
    (h : conj_eq_induced ef) :
    (pol_scf_new_dipoles d ef).2 = (pol_scf_new_dipoles d ef).1 := by
  rw [pol_scf_new_dipoles_eq_in, pol_scf_new_dipoles_in_split]
  dsimp only
  apply List.foldl_ext
  intro A i _
  apply List.foldl_ext
  intro A2 j hj
  rw [jacobi_dipole_conj_eq d ef hsym h i j (List.mem_range.mp hj)]

theorem conj_eq_induced_pol_scf_iter (d : deps K) (ef : efp K) (hsym : tensors_symmetric ef)
    (h : conj_eq_induced ef) : conj_eq_induced (pol_scf_iter d ef).2 := by
  have harr := pol_scf_new_dipoles_conj_eq d ef hsym h
  intro fr hfr pt hpt
  unfold pol_scf_iter at hfr
  simp only [List.mem_map] at hfr
  obtain ⟨fr0, -, rfl⟩ := hfr
  simp only [List.mem_mapIdx] at hpt
  obtain ⟨j, hj, rfl⟩ := hpt
  dsimp only
  rw [harr]

theorem conj_eq_induced_zero_induced_dipoles (ef : efp K) :
    conj_eq_induced (zero_induced_dipoles ef) := by
  intro fr hfr pt hpt
  simp only [zero_induced_dipoles, List.mem_map] at hfr
  obtain ⟨fr0, -, rfl⟩ := hfr
  simp only [List.mem_map] at hpt
  obtain ⟨pt0, -, rfl⟩ := hpt
  rfl

/-- With symmetric tensors the channels are equal after any number of sweeps from the
start state of `efp_compute_pol_energy`. -/
theorem conj_eq_induced_scf_state (d : deps K) (ef : efp K) (hsym : tensors_symmetric ef)
    (n : Nat) : conj_eq_induced (scf_state d (scf_start d ef) n) := by
  induction n with
  | zero => exact conj_eq_induced_zero_induced_dipoles _
  | succ n ih =>
    have hcore : efp_core ef = efp_core (scf_state d (scf_start d ef) n) := by
      rw [efp_core_scf_state, efp_core_scf_start]
    exact conj_eq_induced_pol_scf_iter d _ (tensors_symmetric_of_core hcore hsym) ih

theorem grad_dipole_i_of_conj_eq (pt : polarizable_pt K)
    (h : pt.induced_dipole_conj = pt.induced_dipole) : grad_dipole_i pt = pt.induced_dipole := by
  have e : ∀ x : K, 0.5 * (x + x) = x := fun x => by ring
  cases pt
  simp only at h
  simp only [grad_dipole_i, h, e]

/-- C23: if every polarizability tensor is symmetric, then after every SCF iteration that
`efp_compute_pol_energy` performs from its start state, and in the state it leaves when
the static field stage succeeds, the conjugate dipole of every polarizable point equals
its induced dipole; the averaged dipole `dipole_i` of the gradient pass is then the
induced dipole. -/
theorem symmetric_tensors_conj_eq_induced (d : deps K) (ef : efp K) (energy : K)
    (hsym : tensors_symmetric ef) :
    (∀ n, conj_eq_induced (scf_state d (scf_start d ef) n)) ∧
    ((compute_elec_field d ef).1 = EFP_RESULT_SUCCESS →
      conj_eq_induced (efp_compute_pol_energy d ef energy).efp ∧
      ∀ fr ∈ (efp_compute_pol_energy d ef energy).efp.frags, ∀ pt ∈ fr.polarizable_pts,
        grad_dipole_i pt = pt.induced_dipole) := by
  refine ⟨conj_eq_induced_scf_state d ef hsym, ?_⟩
  intro hok
  have hconj : conj_eq_induced (efp_compute_pol_energy d ef energy).efp := by
    rw [efp_compute_pol_energy_state d ef energy hok]
    exact conj_eq_induced_scf_state d ef hsym _
  exact ⟨hconj, fun fr hfr pt hpt => grad_dipole_i_of_conj_eq pt (hconj fr hfr pt hpt)⟩

theorem tensors_symmetric_demo : tensors_symmetric (demo_three 1 [] ⟨5, 5, 5⟩) := by
  intro l hl m hm
  simp only [all_tensors, demo_three, List.map_cons, List.map_nil, List.mem_cons,
    List.mem_singleton, List.not_mem_nil, or_false] at hl
  rcases hl with rfl | rfl | rfl <;>
    · simp only [List.mem_singleton] at hm
      subst hm
      exact ⟨rfl, rfl, rfl⟩

theorem symmetric_tensors_conj_eq_induced_witness :
    tensors_symmetric (demo_three 1 [] ⟨5, 5, 5⟩) ∧
    all_dipoles (demo_three 1 [] ⟨5, 5, 5⟩)
      = [[(⟨5, 5, 5⟩, ⟨6, 6, 6⟩)], [(⟨1, 0, 0⟩, ⟨0, 1, 0⟩)], [(⟨1, 0, 0⟩, ⟨1, 0, 0⟩)]] ∧
    conj_eq_induced
      (scf_state demo_deps_skip (scf_start demo_deps_skip (demo_three 1 [] ⟨5, 5, 5⟩)) 2) ∧
    all_dipoles (scf_state demo_deps_skip (scf_start demo_deps_skip (demo_three 1 [] ⟨5, 5, 5⟩)) 2)
      = [[(⟨-1, 0, 0⟩, ⟨-1, 0, 0⟩)], [(⟨-2, 0, 0⟩, ⟨-2, 0, 0⟩)], [(⟨0, 0, 0⟩, ⟨0, 0, 0⟩)]] :=
  ⟨tensors_symmetric_demo, by decide!,
    (symmetric_tensors_conj_eq_induced demo_deps_skip (demo_three 1 [] ⟨5, 5, 5⟩) 0
      tensors_symmetric_demo).1 2, by decide!⟩

/-! ## Points that receive no induced-dipole field -/

theorem offsets_distinct_of_core {a b : efp K} (h : efp_core a = efp_core b)
    (ha : offsets_distinct a) : offsets_distinct b := by
  obtain ⟨-, -, -, -, hlen, -, -, -, -, -⟩ := of_efp_core_eq h
  intro i i2 j j2 hi hi2 hj hj2 hidx
  obtain ⟨-, -, hoff1, hlen1, -⟩ := of_frag_core_eq (frag_core_getD h i)
  obtain ⟨-, -, hoff2, hlen2, -⟩ := of_frag_core_eq (frag_core_getD h i2)
  apply ha i i2 j j2 (by rw [hlen]; exact hi) (by rw [hlen]; exact hi2)
    (by rw [hlen1]; exact hj) (by rw [hlen2]; exact hj2)
  simp only [point_index] at hidx ⊢
  rw [hoff1, hoff2]
  exact hidx

theorem mapIdx_eq_map_of_getD {α β : Type} (l : List α) (dflt : α) :
    ∀ (f : Nat → α → β) (g : α → β),
      (∀ j, j < l.length → f j (l.getD j dflt) = g (l.getD j dflt)) → l.mapIdx f = l.map g := by
  induction l with
  | nil => intro f g _; rfl
  | cons x l ih =>
    intro f g h
    rw [List.mapIdx_cons, List.map_cons, ih (fun i => f (i + 1)) g
      (fun j hj => h (j + 1) (Nat.succ_lt_succ hj))]
    have h0 := h 0 (Nat.zero_lt_succ _)
    rw [List.getD_cons_zero] at h0
    rw [h0]

theorem map_eq_map_of_getD {α β : Type} (l : List α) (dflt : α) (f g : α → β)
    (h : ∀ i, i < l.length → f (l.getD i dflt) = g (l.getD i dflt)) : l.map f = l.map g := by
  apply List.map_congr_left
  intro a ha
  obtain ⟨i, hi, rfl⟩ := List.getElem_of_mem ha
  have := h i hi
  rw [List.getD_eq_getElem l dflt hi] at this
  exact this

/-- What the simultaneous update gives at a point that receives no induced field and has
no field of the electron density. -/
theorem jacobi_dipole_of_no_field (d : deps K) (s : efp K) (i j : Nat)
    (hf : get_induced_dipole_field d s i (point_at s i j) = (vec_zero, vec_zero))
    (hwf : (point_at s i j).elec_field_wf = vec_zero) :
    jacobi_dipole d s i j = mat_vec (point_at s i j).tensor (point_at s i j).elec_field ∧
    jacobi_dipole_conj d s i j
      = mat_trans_vec (point_at s i j).tensor (point_at s i j).elec_field := by
  constructor
  · unfold jacobi_dipole
    rw [hf, hwf]
    simp only [vec_zero, add_zero, zero_add]
  · unfold jacobi_dipole_conj
    rw [hf, hwf]
    simp only [vec_zero, add_zero, zero_add]

/-- A sweep on a state whose points receive no induced field, with the partition covering
all fragments, leaves the static response. -/
theorem pol_scf_iter_static_response (d : deps K) (s : efp K)
    (h0 : s.mpi_offset 0 = 0) (h1 : s.mpi_offset 1 = s.frags.length)
    (hoff : offsets_distinct s) (hwf : wf_zero s)
    (hf : ∀ i j, i < s.frags.length → j < (s.frags.getD i default).polarizable_pts.length →
      get_induced_dipole_field d s i (point_at s i j) = (vec_zero, vec_zero)) :
    (pol_scf_iter d s).2 = static_response s := by
  have heq : pol_scf_new_dipoles d s = pol_scf_new_dipoles_in d s (List.range s.frags.length) := by
    rw [pol_scf_new_dipoles_eq_in, zero_add, h0, h1, index_range_zero]
  unfold pol_scf_iter static_response
  dsimp only
  congr 1
  apply map_eq_map_of_getD _ default
  intro i hi
  congr 1
  apply mapIdx_eq_map_of_getD _ default
  intro j hj
  obtain ⟨hfr, hpt⟩ := @getD_mem_of_point K _ s i j hj
  obtain ⟨e1, e2⟩ := pol_scf_new_dipoles_in_at d s (List.range s.frags.length)
    (fun _ h => List.mem_range.mp h) hoff i j (List.mem_range.mpr hi) hj
  obtain ⟨e3, e4⟩ := jacobi_dipole_of_no_field d s i j (hf i j hi hj) (hwf _ hfr _ hpt)
  rw [heq]
  simp only [point_index] at e1 e2
  rw [e1, e2, e3, e4]
  rfl

theorem is_static_response_static_response (s : efp K) :
    is_static_response (static_response s) := by
  intro fr hfr pt hpt
  simp only [static_response, List.mem_map] at hfr
  obtain ⟨fr0, -, rfl⟩ := hfr
  simp only [List.mem_map] at hpt
  obtain ⟨pt0, -, rfl⟩ := hpt
  exact ⟨rfl, rfl⟩

theorem static_response_eq_self {s : efp K} (h : is_static_response s) :
    static_response s = s := by
  unfold static_response
  have hfr : s.frags.map (fun fr0 : frag K =>
      ({ fr0 with polarizable_pts := fr0.polarizable_pts.map (fun pt =>
          ({ pt with induced_dipole := mat_vec pt.tensor pt.elec_field,
                     induced_dipole_conj := mat_trans_vec pt.tensor pt.elec_field }
            : polarizable_pt K)) } : frag K)) = s.frags := by
    apply map_eq_self
    intro fr hfr
    have : fr.polarizable_pts.map (fun pt =>
          ({ pt with induced_dipole := mat_vec pt.tensor pt.elec_field,
                     induced_dipole_conj := mat_trans_vec pt.tensor pt.elec_field }
            : polarizable_pt K)) = fr.polarizable_pts := by
      apply map_eq_self
      intro pt hpt
      obtain ⟨h3, h4⟩ := h fr hfr pt hpt
      rw [← h3, ← h4]
    rw [this]
  rw [hfr]

theorem efp_core_static_response (s : efp K) : efp_core (static_response s) = efp_core s := by
  unfold static_response
  apply efp_core_map_points
  intro fr
  rw [List.map_map]
  rfl

theorem wf_zero_static_response {s : efp K} (h : wf_zero s) : wf_zero (static_response s) := by
  rw [wf_zero_iff] at h ⊢
  unfold static_response
  rw [points_proj_map_points]
  · exact h
  · intro fr
    rw [List.map_map]
    rfl

/-- A sweep that reproduces the dipoles of every point returns the measure 0, if there
is a polarizable point to divide by. -/
theorem pol_scf_iter_conv_zero (d : deps K) (s : efp K) (hsqrt : d.sqrt 0 = 0)
    (hn : ¬ s.n_polarizable_pts = 0)
    (h0 : s.mpi_offset 0 = 0) (h1 : s.mpi_offset 1 = s.frags.length)
    (hoff : offsets_distinct s)
    (hfix : ∀ i j, i < s.frags.length → j < (s.frags.getD i default).polarizable_pts.length →
      jacobi_dipole d s i j = (point_at s i j).induced_dipole ∧
      jacobi_dipole_conj d s i j = (point_at s i j).induced_dipole_conj) :
    (pol_scf_iter d s).1 = some 0 := by
  have heq : pol_scf_new_dipoles d s = pol_scf_new_dipoles_in d s (List.range s.frags.length) := by
    rw [pol_scf_new_dipoles_eq_in, zero_add, h0, h1, index_range_zero]
  unfold pol_scf_iter
  dsimp only
  rw [if_neg hn, zero_add, h0, h1, index_range_zero, foldl_fixed _ (0 : K)]
  · simp
  · intro i hi
    apply foldl_fixed
    intro j hj
    have hi2 := List.mem_range.mp hi
    have hj2 := List.mem_range.mp hj
    obtain ⟨e1, e2⟩ := pol_scf_new_dipoles_in_at d s (List.range s.frags.length)
      (fun _ h => List.mem_range.mp h) hoff i j hi hj2
    obtain ⟨e3, e4⟩ := hfix i j hi2 hj2
    simp only [point_index, point_at] at e1 e2 e3 e4
    rw [heq, e1, e2, e3, e4, vec_dist_self d hsqrt, vec_dist_self d hsqrt]
    simp

/-- The loop of `efp_compute_pol_energy` stops after one or two sweeps when the second
sweep returns a measure below the tolerance and reproduces the state. -/
theorem pol_scf_loop_two (d : deps K) (s0 : efp K)
    (hconv : below_tol (scf_conv d s0 2) POL_SCF_TOL) (hst : scf_state d s0 2 = scf_state d s0 1) :
    ∃ c : Nat, 1 ≤ c ∧ c ≤ 2 ∧ pol_scf_loop d 1 0 s0 = ⟨true, c, scf_state d s0 1⟩ := by
  by_cases h1 : below_tol (scf_conv d s0 1) POL_SCF_TOL
  · refine ⟨1, le_refl 1, by decide, ?_⟩
    have h := pol_scf_loop_converges d s0 0 0 0 (by decide) h1 (fun j hj1 hj2 => by omega)
    exact h
  · refine ⟨2, by decide, le_refl 2, ?_⟩
    have h := pol_scf_loop_converges d s0 1 0 0 (by decide) hconv (fun j hj1 hj2 => by
      have : j = 1 := by omega
      rw [this]
      exact h1)
    rw [← hst]
    exact h

/-- Energy of a state that holds the static response and has no field of the electron
density. -/
theorem pol_energy_all_points_static (s : efp K) (hwf : wf_zero s)
    (hr : is_static_response s) :
    pol_energy_all_points s = -0.5 * static_energy_sum s := by
  unfold pol_energy_all_points static_energy_sum
  rw [← List.sum_map_mul_left]
  congr 1
  apply List.map_congr_left
  intro fr hfr
  rw [← List.sum_map_mul_left]
  congr 1
  apply List.map_congr_left
  intro pt hpt
  rw [hwf fr hfr pt hpt, (hr fr hfr pt hpt).1]
  simp only [vec_dot, vec_zero]
  ring

theorem list_sum_pos_of_mem : ∀ (l : List K), (∀ x ∈ l, 0 ≤ x) → ∀ a ∈ l, 0 < a → 0 < l.sum := by
  intro l
  induction l with
  | nil => intro _ a ha _; exact absurd ha (List.not_mem_nil a)
  | cons x l ih =>
    intro hnn a ha hpos
    rw [List.sum_cons]
    have hx : 0 ≤ x := hnn x (List.mem_cons_self x l)
    have hl : 0 ≤ l.sum := List.sum_nonneg (fun y hy => hnn y (List.mem_cons_of_mem x hy))
    rcases List.mem_cons.mp ha with rfl | hmem
    · linarith
    · have := ih (fun y hy => hnn y (List.mem_cons_of_mem x hy)) a hmem hpos
      linarith

theorem static_energy_sum_nonneg (s : efp K) (h : tensors_psd s) : 0 ≤ static_energy_sum s := by
  unfold static_energy_sum
  apply List.sum_nonneg
  intro x hx
  obtain ⟨fr, hfr, rfl⟩ := List.mem_map.mp hx
  apply List.sum_nonneg
  intro y hy
  obtain ⟨pt, hpt, rfl⟩ := List.mem_map.mp hy
  exact h _ (List.mem_map.mpr ⟨fr, hfr, rfl⟩) _ (List.mem_map.mpr ⟨pt, hpt, rfl⟩) _

theorem mat_psd_of_pd {m : mat_t K} (h : mat_pd m) : mat_psd m := by
  intro v
  by_cases hv : v = vec_zero
  · rw [hv]
    simp [vec_dot, mat_vec, vec_zero]
  · exact le_of_lt (h v hv)

theorem static_energy_sum_pos (s : efp K) (h : tensors_pd s)
    (hex : ∃ fr ∈ s.frags, ∃ pt ∈ fr.polarizable_pts, pt.elec_field ≠ vec_zero) :
    0 < static_energy_sum s := by
  have hpsd : tensors_psd s := fun l hl m hm => mat_psd_of_pd (h l hl m hm)
  obtain ⟨fr, hfr, pt, hpt, hne⟩ := hex
  unfold static_energy_sum
  apply list_sum_pos_of_mem _ ?_ _ (List.mem_map.mpr ⟨fr, hfr, rfl⟩)
  · apply list_sum_pos_of_mem _ ?_ _ (List.mem_map.mpr ⟨pt, hpt, rfl⟩)
    · exact h _ (List.mem_map.mpr ⟨fr, hfr, rfl⟩) _ (List.mem_map.mpr ⟨pt, hpt, rfl⟩) _ hne
    · intro y hy
      obtain ⟨pt2, hpt2, rfl⟩ := List.mem_map.mp hy
      exact hpsd _ (List.mem_map.mpr ⟨fr, hfr, rfl⟩) _ (List.mem_map.mpr ⟨pt2, hpt2, rfl⟩) _
  · intro x hx
    obtain ⟨fr2, hfr2, rfl⟩ := List.mem_map.mp hx
    apply List.sum_nonneg
    intro y hy
    obtain ⟨pt2, hpt2, rfl⟩ := List.mem_map.mp hy
    exact hpsd _ (List.mem_map.mpr ⟨fr2, hfr2, rfl⟩) _ (List.mem_map.mpr ⟨pt2, hpt2, rfl⟩) _

/-- Without induced fields and without the field of the electron density, and with at
least one polarizable point, the routine stops after one or two sweeps in the static
response of its start state. -/
theorem efp_compute_pol_energy_static (d : deps K) (ef : efp K) (energy : K)
    (hai : ef.opts.terms &&& d.EFP_TERM_AI_POL = 0) (hnf : no_induced_field d ef)
    (h0 : ef.mpi_offset 0 = 0) (h1 : ef.mpi_offset 1 = ef.frags.length)
    (hoff : offsets_distinct ef) (hsqrt : d.sqrt 0 = 0) (hn : 0 < ef.n_polarizable_pts) :
    ∃ c : Nat, 1 ≤ c ∧ c ≤ 2 ∧
      efp_compute_pol_energy d ef energy
        = ⟨EFP_RESULT_SUCCESS, static_response (scf_start d ef),
            -0.5 * static_energy_sum (static_response (scf_start d ef)), c⟩ := by
  obtain ⟨hok, hwfc⟩ := compute_elec_field_no_density d ef (Or.inr hai)
  have hwf0 : wf_zero (scf_start d ef) := wf_zero_zero_induced_dipoles hwfc
  have hcore0 : efp_core ef = efp_core (scf_start d ef) := (efp_core_scf_start d ef).symm
  obtain ⟨-, -, -, hmpi, hlen, -, -, -, -, -⟩ := of_efp_core_eq hcore0
  have h00 : (scf_start d ef).mpi_offset 0 = 0 := by rw [← hmpi]; exact h0
  have h01 : (scf_start d ef).mpi_offset 1 = (scf_start d ef).frags.length := by
    rw [← hmpi, ← hlen]; exact h1
  have hoff0 := offsets_distinct_of_core hcore0 hoff
  -- first sweep
  have hs1 : scf_state d (scf_start d ef) 1 = static_response (scf_start d ef) :=
    pol_scf_iter_static_response d (scf_start d ef) h00 h01 hoff0 hwf0
      (fun i j hi hj => hnf 0 i j hi hj)
  have hcore1 : efp_core ef = efp_core (static_response (scf_start d ef)) := by
    rw [efp_core_static_response]; exact hcore0
  obtain ⟨-, -, -, hmpi1, hlen1, hnp1, -, -, -, -⟩ := of_efp_core_eq hcore1
  have hn1 : ¬ (static_response (scf_start d ef)).n_polarizable_pts = 0 := by
    rw [← hnp1]
    exact Nat.pos_iff_ne_zero.mp hn
  have h10 : (static_response (scf_start d ef)).mpi_offset 0 = 0 := by rw [← hmpi1]; exact h0
  have h11 : (static_response (scf_start d ef)).mpi_offset 1
      = (static_response (scf_start d ef)).frags.length := by
    rw [← hmpi1, ← hlen1]; exact h1
  have hoff1 := offsets_distinct_of_core hcore1 hoff
  have hwf1 := wf_zero_static_response hwf0
  have hr1 := is_static_response_static_response (scf_start d ef)
  have hnf1 : ∀ i j, i < (static_response (scf_start d ef)).frags.length →
      j < ((static_response (scf_start d ef)).frags.getD i default).polarizable_pts.length →
      get_induced_dipole_field d (static_response (scf_start d ef)) i
        (point_at (static_response (scf_start d ef)) i j) = (vec_zero, vec_zero) := by
    intro i j hi hj
    have := hnf 1 i j
    rw [hs1] at this
    exact this hi hj
  -- second sweep
  have hs2 : scf_state d (scf_start d ef) 2 = scf_state d (scf_start d ef) 1 := by
    rw [scf_state, hs1, pol_scf_iter_static_response d _ h10 h11 hoff1 hwf1 hnf1,
      static_response_eq_self hr1]
  have hconv : below_tol (scf_conv d (scf_start d ef) 2) POL_SCF_TOL := by
    have hz : scf_conv d (scf_start d ef) 2 = some 0 := by
      unfold scf_conv
      rw [show 2 - 1 = 1 from rfl, hs1]
      apply pol_scf_iter_conv_zero d _ hsqrt hn1 h10 h11 hoff1
      intro i j hi hj
      obtain ⟨hfr, hpt⟩ := @getD_mem_of_point K _ (static_response (scf_start d ef)) i j hj
      obtain ⟨e3, e4⟩ := jacobi_dipole_of_no_field d _ i j (hnf1 i j hi hj) (hwf1 _ hfr _ hpt)
      obtain ⟨e5, e6⟩ := hr1 _ hfr _ hpt
      rw [e3, e4, e5, e6]
      exact ⟨rfl, rfl⟩
    rw [hz]
    exact POL_SCF_TOL_pos
  obtain ⟨c, hc1, hc2, hloop⟩ := pol_scf_loop_two d (scf_start d ef) hconv hs2
  refine ⟨c, hc1, hc2, ?_⟩
  rw [efp_compute_pol_energy_field_ok d ef energy hok, hloop, hs1]
  dsimp only
  rw [if_neg (by decide), pol_energy_sum_eq _ h10 h11, pol_energy_all_points_static _ hwf1 hr1]

theorem static_energy_sum_static_response (s : efp K) :
    static_energy_sum (static_response s) = static_energy_sum s := by
  simp only [static_energy_sum, static_response, List.map_map]
  congr 1
  apply List.map_congr_left
  intro fr _
  simp only [Function.comp, List.map_map]
  rfl

/-- If only fragment `i0` carries polarizable points, no point receives an induced-dipole
field. -/
theorem no_induced_field_of_single (d : deps K) (ef : efp K) (i0 : Nat)
    (h : ∀ j, j ≠ i0 → (ef.frags.getD j default).polarizable_pts = []) :
    no_induced_field d ef := by
  intro n i j _ hj
  have hcore : efp_core ef = efp_core (scf_state d (scf_start d ef) n) := by
    rw [efp_core_scf_state, efp_core_scf_start]
  have hempty : ∀ k, k ≠ i0 →
      ((scf_state d (scf_start d ef) n).frags.getD k default).polarizable_pts = [] := by
    intro k hk
    obtain ⟨-, -, -, hlen, -⟩ := of_frag_core_eq (frag_core_getD hcore k)
    rw [h k hk] at hlen
    exact List.length_eq_zero.mp hlen.symm
  have hi : i = i0 := by
    by_contra hne
    rw [hempty i hne] at hj
    exact absurd hj (Nat.not_lt_zero j)
  subst hi
  unfold get_induced_dipole_field
  dsimp only
  apply foldl_fixed
  intro k _
  split
  · rfl
  · rename_i hc
    have hk : k ≠ i := fun e => hc (Or.inl e)
    rw [hempty k hk]
    rfl

/-- With the ab-initio polarization flag off, the partition covering all fragments,
distinct point indices and at least one polarizable point, if no polarizable point
receives an induced-dipole field then `efp_compute_pol_energy` returns success after one
or two sweeps, every point holds `induced_dipole = tensor * elec_field` (and the
conjugate dipole the transposed tensor applied to `elec_field`), and the energy is
`-0.5` times the sum over the points of `elec_field · (tensor * elec_field)`: at most 0
when every tensor is positive semidefinite, negative when every tensor is positive
definite and some static field is not zero. -/
theorem no_induced_field_energy (d : deps K) (ef : efp K) (energy : K)
    (hai : ef.opts.terms &&& d.EFP_TERM_AI_POL = 0) (hnf : no_induced_field d ef)
    (h0 : ef.mpi_offset 0 = 0) (h1 : ef.mpi_offset 1 = ef.frags.length)
    (hoff : offsets_distinct ef) (hsqrt : d.sqrt 0 = 0) (hn : 0 < ef.n_polarizable_pts) :
    (efp_compute_pol_energy d ef energy).res = EFP_RESULT_SUCCESS ∧
    1 ≤ (efp_compute_pol_energy d ef energy).scf_calls ∧
    (efp_compute_pol_energy d ef energy).scf_calls ≤ 2 ∧
    (∀ fr ∈ (efp_compute_pol_energy d ef energy).efp.frags, ∀ pt ∈ fr.polarizable_pts,
      pt.induced_dipole = mat_vec pt.tensor pt.elec_field ∧
      pt.induced_dipole_conj = mat_trans_vec pt.tensor pt.elec_field) ∧
    (efp_compute_pol_energy d ef energy).energy
      = -0.5 * static_energy_sum (efp_compute_pol_energy d ef energy).efp ∧
    (tensors_psd ef → (efp_compute_pol_energy d ef energy).energy ≤ 0) ∧
    (tensors_pd ef →
      (∃ fr ∈ (efp_compute_pol_energy d ef energy).efp.frags, ∃ pt ∈ fr.polarizable_pts,
        pt.elec_field ≠ vec_zero) →
      (efp_compute_pol_energy d ef energy).energy < 0) := by
  obtain ⟨c, hc1, hc2, hout⟩ :=
    efp_compute_pol_energy_static d ef energy hai hnf h0 h1 hoff hsqrt hn
  have hcore : efp_core (static_response (scf_start d ef)) = efp_core ef := by
    rw [efp_core_static_response, efp_core_scf_start]
  have hten : all_tensors (static_response (scf_start d ef)) = all_tensors ef := by
    rw [← all_tensors_efp_core, hcore, all_tensors_efp_core]
  have hhalf : (0 : K) < 0.5 := by norm_num
  rw [hout]
  dsimp only
  refine ⟨rfl, hc1, hc2, is_static_response_static_response _, rfl, ?_, ?_⟩
  · intro hpsd
    have hpsd2 : tensors_psd (static_response (scf_start d ef)) := by
      unfold tensors_psd
      rw [hten]
      exact hpsd
    have := static_energy_sum_nonneg _ hpsd2
    nlinarith
  · intro hpd hex
    have hpd2 : tensors_pd (static_response (scf_start d ef)) := by
      unfold tensors_pd
      rw [hten]
      exact hpd
    have := static_energy_sum_pos _ hpd2 hex
    nlinarith

theorem offsets_distinct_demo_efp (terms : Nat)
    (callback : Option (Nat → List (vec_t ℚ) → efp_result × List (vec_t ℚ))) :
    offsets_distinct (demo_efp terms callback) := by
  intro i i2 j j2 hi hi2 hj hj2 h
  have hi3 : i < 2 := hi
  have hi23 : i2 < 2 := hi2
  interval_cases i <;> interval_cases i2 <;>
    simp [demo_efp, point_index] at hj hj2 h ⊢ <;> omega

theorem no_induced_field_demo_efp : no_induced_field demo_deps (demo_efp 2 none) := by
  apply no_induced_field_of_single demo_deps (demo_efp 2 none) 0
  intro j hj
  match j, hj with
  | 0, hj => exact absurd rfl hj
  | 1, _ => rfl
  | n + 2, _ => rfl

theorem no_induced_field_energy_witness :
    (demo_efp 2 none).opts.terms &&& demo_deps.EFP_TERM_AI_POL = 0 ∧
    no_induced_field demo_deps (demo_efp 2 none) ∧
    offsets_distinct (demo_efp 2 none) ∧
    (efp_compute_pol_energy demo_deps (demo_efp 2 none) 7).res = EFP_RESULT_SUCCESS ∧
    (efp_compute_pol_energy demo_deps (demo_efp 2 none) 7).scf_calls = 2 ∧
    (efp_compute_pol_energy demo_deps (demo_efp 2 none) 7).energy
      = -0.5 * static_energy_sum (efp_compute_pol_energy demo_deps (demo_efp 2 none) 7).efp ∧
    static_energy_sum (efp_compute_pol_energy demo_deps (demo_efp 2 none) 7).efp = 1 ∧
    (efp_compute_pol_energy demo_deps (demo_efp 2 none) 7).energy = -1 / 2 := by
  have h := no_induced_field_energy demo_deps (demo_efp 2 none) 7 (by decide)
    no_induced_field_demo_efp rfl rfl (offsets_distinct_demo_efp 2 none) rfl (by decide)
  exact ⟨by decide, no_induced_field_demo_efp, offsets_distinct_demo_efp 2 none, h.1,
    by decide!, h.2.2.2.2.1, by decide!, by decide!⟩

/-! ## Systems without a polarizable point -/

/-- In the two-fragment system `demo_far` the two fragments are switched off by the
distance-based switching `demo_make_swf`, in every state of the solve. -/
theorem all_pairs_switched_off_demo_far (pts0 pts1 : List (polarizable_pt ℚ)) :
    all_pairs_switched_off demo_deps_cutoff (demo_far pts0 pts1) := by
  intro s hs i j hi hj hne _
  obtain ⟨-, -, -, -, hlen, -, -, -, -, -⟩ := of_efp_core_eq hs
  have hx : ∀ k, (s.frags.getD k default).x = ((demo_far pts0 pts1).frags.getD k default).x := by
    intro k
    have h := congrArg frag.x (frag_core_getD hs k)
    exact h
  have hy : ∀ k, (s.frags.getD k default).y = ((demo_far pts0 pts1).frags.getD k default).y := by
    intro k
    have h := congrArg frag.y (frag_core_getD hs k)
    exact h
  have hz : ∀ k, (s.frags.getD k default).z = ((demo_far pts0 pts1).frags.getD k default).z := by
    intro k
    have h := congrArg frag.z (frag_core_getD hs k)
    exact h
  have hfar : ∀ a b : Nat, (a = 0 ∧ b = 1) ∨ (a = 1 ∧ b = 0) →
      ((s.frags.getD b default).x - (s.frags.getD a default).x)
          * ((s.frags.getD b default).x - (s.frags.getD a default).x)
        + ((s.frags.getD b default).y - (s.frags.getD a default).y)
          * ((s.frags.getD b default).y - (s.frags.getD a default).y)
        + ((s.frags.getD b default).z - (s.frags.getD a default).z)
          * ((s.frags.getD b default).z - (s.frags.getD a default).z) > 100 := by
    intro a b hab
    rw [hx a, hx b, hy a, hy b, hz a, hz b]
    rcases hab with ⟨rfl, rfl⟩ | ⟨rfl, rfl⟩ <;> norm_num [demo_far]
  have hi2 : i < 2 := by rw [hlen] at hi; exact hi
  have hj2 : j < 2 := by rw [hlen] at hj; exact hj
  interval_cases i <;> interval_cases j
  · exact absurd rfl hne
  · exact (demo_make_swf_far _ _ (hfar 0 1 (Or.inl ⟨rfl, rfl⟩))).1
  · exact (demo_make_swf_far _ _ (hfar 1 0 (Or.inr ⟨rfl, rfl⟩))).1
  · exact absurd rfl hne

/-- Two fragments 1000 apart with one polarizable point each, under the distance-based
switching: the solve stops after the first sweep with success, energy 0 and all dipoles
zero. -/
theorem far_apart_zero_energy_demo_far :
    (efp_compute_pol_energy demo_deps_cutoff
      (demo_far [demo_pt] [{ demo_pt with x := 1000 }]) 7).res = EFP_RESULT_SUCCESS ∧
    (efp_compute_pol_energy demo_deps_cutoff
      (demo_far [demo_pt] [{ demo_pt with x := 1000 }]) 7).scf_calls = 1 ∧
    (efp_compute_pol_energy demo_deps_cutoff
      (demo_far [demo_pt] [{ demo_pt with x := 1000 }]) 7).energy = 0 := by
  have h := far_apart_zero_energy demo_deps_cutoff
    (demo_far [demo_pt] [{ demo_pt with x := 1000 }]) 7 (by decide)
    (all_pairs_switched_off_demo_far _ _) rfl (by decide)
  exact ⟨h.1, h.2.1, h.2.2.1⟩

/-- C14: on a far-apart system without a polarizable point the condition of the claim
holds (ab-initio polarization flag off, the only fragment pair at switching value 0),
but `efp_compute_pol_energy` does not return success with energy 0 after the first
iteration: the measure `0.0 / 0` is not a number and never passes the tolerance test, so
the routine makes all 80 sweeps, returns `EFP_RESULT_POL_NOT_CONVERGED` and leaves the
energy as it was on entry. -/
theorem far_apart_without_points_not_converged :
    (demo_far [] []).opts.terms &&& demo_deps_cutoff.EFP_TERM_AI_POL = 0 ∧
    all_pairs_switched_off demo_deps_cutoff (demo_far [] []) ∧
    (demo_far [] []).n_polarizable_pts = 0 ∧
    (efp_compute_pol_energy demo_deps_cutoff (demo_far [] []) 7).res
      = EFP_RESULT_POL_NOT_CONVERGED ∧
    (efp_compute_pol_energy demo_deps_cutoff (demo_far [] []) 7).scf_calls = 80 ∧
    (efp_compute_pol_energy demo_deps_cutoff (demo_far [] []) 7).energy = 7 := by
  have hok := (compute_elec_field_no_density demo_deps_cutoff (demo_far [] [])
    (Or.inl rfl)).1
  have h := efp_compute_pol_energy_no_points demo_deps_cutoff (demo_far [] []) 7 rfl hok
  rw [h]
  exact ⟨by decide, all_pairs_switched_off_demo_far [] [], rfl, rfl, rfl, rfl⟩

/-- C22: on a system without a polarizable point the condition of the claim holds (ab-initio
polarization flag off, no point receives an induced-dipole field), but
`efp_compute_pol_energy` does not return success after at most two iterations: the
measure `0.0 / 0` is not a number, the routine makes all 80 sweeps, returns
`EFP_RESULT_POL_NOT_CONVERGED` and leaves the energy as it was on entry instead of
writing the value 0 of the empty sum. -/
theorem no_induced_field_without_points_not_converged :
    (demo_far [] []).opts.terms &&& demo_deps.EFP_TERM_AI_POL = 0 ∧
    no_induced_field demo_deps (demo_far [] []) ∧
    (demo_far [] []).n_polarizable_pts = 0 ∧
    -0.5 * static_energy_sum (demo_far [] []) = 0 ∧
    (efp_compute_pol_energy demo_deps (demo_far [] []) 7).res
      = EFP_RESULT_POL_NOT_CONVERGED ∧
    (efp_compute_pol_energy demo_deps (demo_far [] []) 7).scf_calls = 80 ∧
    (efp_compute_pol_energy demo_deps (demo_far [] []) 7).energy = 7 := by
  have hnf : no_induced_field demo_deps (demo_far [] []) := by
    apply no_induced_field_of_single demo_deps (demo_far [] []) 0
    intro j hj
    match j, hj with
    | 0, hj => exact absurd rfl hj
    | 1, _ => rfl
    | n + 2, _ => rfl
  have hok := (compute_elec_field_no_density demo_deps (demo_far [] []) (Or.inl rfl)).1
  have h := efp_compute_pol_energy_no_points demo_deps (demo_far [] []) 7 rfl hok
  rw [h]
  exact ⟨by decide, hnf, rfl, by decide!, rfl, rfl, rfl⟩

end Efp
